import Mathlib

/-!
# tablecopy: verification of the TSV grid state logic (`linux/raylib/main.c`)

A shallow embedding of the table model of `main.c` and of the functions that
build and reorder it, followed by the properties proved about them.

Conventions of the embedding

* A C string is the list of its bytes before the terminating NUL (`List Nat`).
* A `char *` slot of a pointer block is a `Cell`: the NULL pointer, a pointer to
  an owned string, or a non-null bit pattern the program never stored.
* `malloc` and `realloc` never zero memory.  The value found in a slot that was
  never written is supplied by the parameter `uninit block slot`
  (block `0` is the header block, block `i + 1` the cell block of row `i`).
* Allocation always succeeds; `free` is not modelled.
* `float` and `double` values are rationals (exact arithmetic); `int` counters
  are unbounded.
* A statement without a defined result (a division by zero, a read outside the
  written slots, a string operation on a pointer that is not a string) makes
  the function return a `Fault`.
* `stdin` is a finite list of bytes, read through `fgets` with the buffer of
  `MAX_LINE_LEN` bytes.
* The library routine `qsort` is a parameter; the properties that depend on
  its result assume the contract `QsortSpec`, which `insertionQsort` meets.
* The values returned by the raylib queries of one frame are the fields of
  `Frame`.
-/

namespace TableCopy

/-! ## Data model -/

/-- Value of one `char *` slot. -/
inductive Cell where
  /-- the NULL pointer -/
  | null : Cell
  /-- pointer to an owned NUL-terminated string with these bytes -/
  | str (s : List Nat) : Cell
  /-- non-null bit pattern that no statement of the program stored -/
  | wild (bits : Nat) : Cell
  deriving DecidableEq, Repr

/-- `Row` of `main.c`: the written slots of `cells` and the field `cellCount`. -/
structure Row where
  cells : List Cell
  cellCount : Nat
  deriving DecidableEq, Repr

/-- `Table` of `main.c` without the font fields, which only rendering reads. -/
structure Table where
  headers : List Cell
  rows : List Row
  original : List Row
  rowCount : Nat
  colCount : Nat
  colWidths : List ℚ
  sortCol : Int
  sortAsc : Bool
  scrollX : ℚ
  scrollY : ℚ
  hoverRow : Int
  hoverCol : Int
  hoverAlpha : ℚ
  message : List Nat
  messageUntil : ℚ
  draggingH : Bool
  draggingV : Bool
  dragOffsetX : ℚ
  dragOffsetY : ℚ
  deriving DecidableEq, Repr

/-- `#define MAX_LINE_LEN 8192` -/
def MAX_LINE_LEN : Nat := 8192

/-- Byte `'\t'`. -/
def TAB : Nat := 9
/-- Byte `'\n'`. -/
def LF : Nat := 10
/-- Byte `'\r'`. -/
def CR : Nat := 13
/-- Byte `'\0'`. -/
def NUL : Nat := 0

/-- Bytes of a string literal of the source. -/
def lit (s : String) : List Nat := s.toList.map Char.toNat

/-- The table `t` of `main` before `load_tsv`: `Table t = {0}` followed by
`t.sortCol = -1; t.sortAsc = true; t.scrollX = 0; t.scrollY = 0;`. -/
def initTable : Table :=
  { headers := [], rows := [], original := [], rowCount := 0, colCount := 0,
    colWidths := [], sortCol := -1, sortAsc := true, scrollX := 0, scrollY := 0,
    hoverRow := 0, hoverCol := 0, hoverAlpha := 0, message := [], messageUntil := 0,
    draggingH := false, draggingV := false, dragOffsetX := 0, dragOffsetY := 0 }

/-! ## Ingestion -/

/-- Loop of `split_tsv_line`.  `line` is what remains at `p`, `cur` the bytes
between `start` and `p`, `cells`/`count` the block filled so far.  An exhausted
list is the terminating NUL of the C string. -/
def splitLoop : List Nat → List Nat → List Cell → Nat → List Cell × Nat
  | [], cur, cells, count => (cells ++ [Cell.str cur], count + 1)
  | b :: rest, cur, cells, count =>
    if b = TAB ∨ b = NUL ∨ b = LF ∨ b = CR then
      if b = NUL ∨ b = LF ∨ b = CR then (cells ++ [Cell.str cur], count + 1)
      else splitLoop rest [] (cells ++ [Cell.str cur]) (count + 1)
    else splitLoop rest (cur ++ [b]) cells count

/-- `split_tsv_line(line, &outCount)`: the written slots of the returned block
and `*outCount`.  Slots from `count` up to the capacity stay unwritten. -/
def split_tsv_line (line : List Nat) : List Cell × Nat :=
  splitLoop line [] [] 0

/-- Body of `fgets` for a buffer with room for `n` more bytes: bytes stored and
the rest of the stream. -/
def fgetsLoop : Nat → List Nat → List Nat × List Nat
  | 0, f => ([], f)
  | _ + 1, [] => ([], [])
  | n + 1, b :: f =>
    if b = LF then ([b], f)
    else ((fgetsLoop n f).1.cons b, (fgetsLoop n f).2)

/-- `fgets(buf, size, f)` on a stream of bytes: `none` at end of input,
otherwise the bytes placed in `buf` (at most `size - 1`, ending after the first
LF) and the rest of the stream. -/
def fgets (size : Nat) (f : List Nat) : Option (List Nat × List Nat) :=
  match f with
  | [] => none
  | _ :: _ => some (fgetsLoop (size - 1) f)

/-- Locals and table of `load_tsv` while its loop runs. -/
structure LoadState where
  lineIndex : Nat
  colCount : Nat
  rows : List Row
  t : Table
  deriving DecidableEq, Repr

/-- One pass of the body of the `while (fgets ...)` loop of `load_tsv` on the
buffer `buf`.  The store `rows[t->rowCount]` is the append of a row: `main`
passes a table with `rowCount = 0`, so `rowCount` rows are stored so far. -/
def loadLine (buf : List Nat) (st : LoadState) : LoadState :=
  let cells := (split_tsv_line buf).1
  let count := (split_tsv_line buf).2
  let colCount := if count > st.colCount then count else st.colCount
  if st.lineIndex = 0 then
    { lineIndex := st.lineIndex + 1, colCount := colCount, rows := st.rows,
      t := { st.t with headers := cells } }
  else
    { lineIndex := st.lineIndex + 1, colCount := colCount,
      rows := st.rows ++ [{ cells := cells, cellCount := count }],
      t := { st.t with rowCount := st.t.rowCount + 1 } }

/-- The `while (fgets(buf, sizeof(buf), f))` loop of `load_tsv`.  Every read
consumes a byte, so `fuel = length of the stream` passes always suffice. -/
def loadLoop : Nat → List Nat → LoadState → LoadState
  | 0, _, st => st
  | fuel + 1, f, st =>
    match fgets MAX_LINE_LEN f with
    | none => st
    | some (buf, rest) => loadLoop fuel rest (loadLine buf st)

/-- `load_tsv(f, t)`: the returned flag and the table afterwards. -/
def load_tsv (f : List Nat) (t : Table) : Bool × Table :=
  let st := loadLoop f.length f { lineIndex := 0, colCount := 0, rows := [], t := t }
  if st.lineIndex = 0 then (false, st.t)
  else (true, { st.t with colCount := st.colCount, rows := st.rows })

/-- `realloc(block, n * sizeof(char *))`: slots present in the old block keep
their value, every other slot holds what `junk` says. -/
def realloc (junk : Nat → Cell) (block : List Cell) (n : Nat) : List Cell :=
  (List.range n).map fun c => (block.get? c).getD (junk c)

/-- Row part of `pad_rows` for one row: `realloc`, then
`for (c = r->cellCount; c < colCount; c++) r->cells[c] = str_dup("")`, where
`str_dup("")` is a fresh empty string. -/
def padRow (junk : Nat → Cell) (colCount : Nat) (r : Row) : Row :=
  { cells := (List.range' r.cellCount (colCount - r.cellCount)).foldl
      (fun cells c => cells.set c (Cell.str [])) (realloc junk r.cells colCount),
    cellCount := colCount }

/-- Text produced by `snprintf(tmp, sizeof(tmp), "Col %d", c + 1)`. -/
def colName (c : Nat) : List Nat :=
  lit "Col " ++ (Nat.toDigits 10 (c + 1)).map Char.toNat

/-- Header part of `pad_rows`: `realloc`, then every slot that compares equal
to NULL receives its `"Col N"` name. -/
def padHeaders (junk : Nat → Cell) (colCount : Nat) (headers : List Cell) : List Cell :=
  (List.range colCount).foldl
    (fun hs c => if hs.get? c = some Cell.null then hs.set c (Cell.str (colName c)) else hs)
    (realloc junk headers colCount)

/-- `pad_rows(t)`. -/
def pad_rows (uninit : Nat → Nat → Cell) (t : Table) : Table :=
  { t with
    rows := t.rows.mapIdx fun i r => if i < t.rowCount then padRow (uninit (i + 1)) t.colCount r else r
    headers := padHeaders (uninit 0) t.colCount t.headers }

/-! ## Snapshot and sort engine -/

/-- What goes wrong when a statement has no defined result. -/
inductive Fault where
  /-- a `/` whose divisor is zero: no rational value (NaN or infinity in C) -/
  | divByZero : Fault
  /-- an array read past the written slots -/
  | outOfRange : Fault
  /-- a string operation on a pointer that is not a string -/
  | badPointer : Fault
  deriving DecidableEq, Repr

/-- Runs `f` on every element from left to right, stopping at the first fault. -/
def forEach {α β : Type} (f : α → Except Fault β) : List α → Except Fault (List β)
  | [] => .ok []
  | a :: as =>
    match f a with
    | .error e => .error e
    | .ok b =>
      match forEach f as with
      | .error e => .error e
      | .ok bs => .ok (b :: bs)

/-- `str_dup(s)`: NULL for NULL, a fresh copy for a string. -/
def str_dup : Cell → Except Fault Cell
  | Cell.null => .ok Cell.null
  | Cell.str s => .ok (Cell.str s)
  | Cell.wild _ => .error Fault.badPointer

/-- Read of `rows[i]`. -/
def readRow (rows : List Row) (i : Nat) : Except Fault Row :=
  match rows.get? i with
  | some r => .ok r
  | none => .error Fault.outOfRange

/-- Read of `cells[c]`. -/
def readCell (cells : List Cell) (c : Nat) : Except Fault Cell :=
  match cells.get? c with
  | some v => .ok v
  | none => .error Fault.outOfRange

/-- `str_dup(src.cells[c])`, the right-hand side of the inner loop body of
`copy_original` and `restore_original`. -/
def dupCell (cells : List Cell) (c : Nat) : Except Fault Cell :=
  match readCell cells c with
  | .error e => .error e
  | .ok v => str_dup v

/-- Outer loop body of `copy_original` and `restore_original` for row `i`: a
fresh block of `colCount` cells, each `str_dup` of the cell of `src[i]`. -/
def copyRow (src : List Row) (colCount : Nat) (i : Nat) : Except Fault Row :=
  match readRow src i with
  | .error e => .error e
  | .ok r =>
    match forEach (dupCell r.cells) (List.range colCount) with
    | .error e => .error e
    | .ok cells => .ok { cells := cells, cellCount := colCount }

/-- The nested loops shared by `copy_original` and `restore_original`: a fresh
block of `rowCount` rows copied from `src`. -/
def copyRows (src : List Row) (rowCount colCount : Nat) : Except Fault (List Row) :=
  forEach (copyRow src colCount) (List.range rowCount)

/-- `copy_original(t)`. -/
def copy_original (t : Table) : Except Fault Table :=
  match copyRows t.rows t.rowCount t.colCount with
  | .error e => .error e
  | .ok rows => .ok { t with original := rows }

/-- `restore_original(t)` when `GetTime()` returns `now`. -/
def restore_original (now : ℚ) (t : Table) : Except Fault Table :=
  match copyRows t.original t.rowCount t.colCount with
  | .error e => .error e
  | .ok rows =>
    .ok { t with rows := rows, sortCol := -1, sortAsc := true,
                 message := (lit "Sort reset").take 255, messageUntil := now + 6 / 5 }

/-- `strcmp(a, b)`: difference of the first pair of bytes that differ, the
terminating NUL included; bytes compare as unsigned. -/
def strcmp : List Nat → List Nat → Int
  | [], [] => 0
  | [], b :: _ => (NUL : Int) - (b : Int)
  | a :: _, [] => (a : Int) - (NUL : Int)
  | a :: as, b :: bs => if a = b then strcmp as bs else (a : Int) - (b : Int)

/-- The operand `(col < r->cellCount) ? r->cells[col] : ""` of `cmp_rows_global`
as a string; `none` where `strcmp` would read no string. -/
def sortKey (col : Int) (r : Row) : Option (List Nat) :=
  if col < (r.cellCount : Int) then
    if col < 0 then none
    else
      match r.cells.get? col.toNat with
      | some (Cell.str s) => some s
      | _ => none
  else some []

/-- `cmp_rows_global(a, b)` with the global `gSortTable`; `none` where the C
call has no defined result. -/
def cmp_rows_global (gSortTable : Option Table) (ra rb : Row) : Option Int :=
  match gSortTable with
  | none => some 0
  | some g =>
    match sortKey g.sortCol ra, sortKey g.sortCol rb with
    | some va, some vb => some (if g.sortAsc then strcmp va vb else -(strcmp va vb))
    | _, _ => none

/-- Type of the library routine `qsort` specialised to blocks of `Row`. -/
abbrev Qsort := (Row → Row → Option Int) → List Row → List Row

/-- `sort_by(t, col)` over a given `qsort`. -/
def sort_by (qsort : Qsort) (t : Table) (col : Int) : Table :=
  if col < 0 ∨ col ≥ (t.colCount : Int) then t
  else
    let t1 : Table :=
      if t.sortCol = col then { t with sortAsc := !t.sortAsc }
      else { t with sortCol := col, sortAsc := true }
    { t1 with rows := qsort (cmp_rows_global (some t1)) (t1.rows.take t1.rowCount)
                        ++ t1.rows.drop t1.rowCount }

/-- A comparator that `qsort` may be called with on the elements of `xs`: it is
defined on them and orders them consistently. -/
structure Consistent (cmp : Row → Row → Option Int) (xs : List Row) : Prop where
  defined : ∀ a ∈ xs, ∀ b ∈ xs, ∃ v, cmp a b = some v
  antisymm : ∀ a ∈ xs, ∀ b ∈ xs, ∀ u v, cmp a b = some u → cmp b a = some v → (u < 0 ↔ 0 < v)
  trans : ∀ a ∈ xs, ∀ b ∈ xs, ∀ c ∈ xs, ∀ u v w, cmp a b = some u → cmp b c = some v →
    cmp a c = some w → u ≤ 0 → v ≤ 0 → w ≤ 0

/-- `a` may stand before `b` in a block sorted by `cmp`. -/
def InOrder (cmp : Row → Row → Option Int) (a b : Row) : Prop :=
  ∃ v, cmp a b = some v ∧ v ≤ 0

/-- Contract of the C library for `qsort`: with a consistent comparator the
block is rearranged into ascending order.  Nothing is said on the order of
elements that compare equal, nor on calls with an inconsistent comparator. -/
structure QsortSpec (qsort : Qsort) : Prop where
  perm : ∀ cmp xs, Consistent cmp xs → (qsort cmp xs).Perm xs
  sorted : ∀ cmp xs, Consistent cmp xs → (qsort cmp xs).Pairwise (InOrder cmp)

/-- Insertion of `a` into a block kept in order by `cmp`. -/
def insertRow (cmp : Row → Row → Option Int) (a : Row) : List Row → List Row
  | [] => [a]
  | b :: l =>
    match cmp a b with
    | some v => if v ≤ 0 then a :: b :: l else b :: insertRow cmp a l
    | none => a :: b :: l

/-- One routine that meets `QsortSpec`: insertion sort. -/
def insertionQsort : Qsort := fun cmp xs => xs.foldr (insertRow cmp) []

/-! ## Layout engine -/

/-- `MeasureTextEx(t->font, text, FONT_SIZE, 1).x` for the text behind a slot;
`measure` is the text measurement of the font. -/
def measureCell (measure : List Nat → ℚ) : Cell → Except Fault ℚ
  | Cell.str s => .ok (measure s)
  | _ => .error Fault.badPointer

/-- The row loop of `measure_col_widths` for column `c`, from row `r` with `n`
passes left: `maxText` raised to the widest cell. -/
def colMaxLoop (measure : List Nat → ℚ) (rows : List Row) (c : Nat) :
    Nat → Nat → ℚ → Except Fault ℚ
  | 0, _, maxText => .ok maxText
  | n + 1, r, maxText =>
    match readRow rows r with
    | .error e => .error e
    | .ok row =>
      match readCell row.cells c with
      | .error e => .error e
      | .ok v =>
        match measureCell measure v with
        | .error e => .error e
        | .ok w => colMaxLoop measure rows c n (r + 1) (if w > maxText then w else maxText)

/-- The statements of `measure_col_widths` that follow the row loop: `span`
from `maxText` (`padding = 22`, `minW = 80`). -/
def spanOf (maxText indicatorW : ℚ) : ℚ :=
  let span := maxText + 22
  let withIndicator := maxText + indicatorW + 22
  let span := if withIndicator > span then withIndicator else span
  if span < 80 then 80 else span

/-- Body of the column loop of `measure_col_widths`: the value stored in
`colWidths[c]`. -/
def colWidth (measure : List Nat → ℚ) (t : Table) (indicatorW : ℚ) (c : Nat) : Except Fault ℚ :=
  match readCell t.headers c with
  | .error e => .error e
  | .ok h =>
    match measureCell measure h with
    | .error e => .error e
    | .ok maxText =>
      match colMaxLoop measure t.rows c t.rowCount 0 maxText with
      | .error e => .error e
      | .ok maxText => .ok (spanOf maxText indicatorW)

/-- `measure_col_widths(t)`. -/
def measure_col_widths (measure : List Nat → ℚ) (t : Table) : Except Fault Table :=
  match forEach (colWidth measure t (measure (lit " ^"))) (List.range t.colCount) with
  | .error e => .error e
  | .ok widths => .ok { t with colWidths := widths }

/-! ## Start of `main` -/

/-- How `main` leaves its start-up code. -/
inductive Startup where
  /-- `return code` after writing `stderr`; `InitWindow` was not called -/
  | exit (code : Int) (stderr : List Nat) : Startup
  /-- `InitWindow` is called with the table in this state -/
  | window (t : Table) : Startup
  /-- a statement before `InitWindow` had no defined result -/
  | fault (e : Fault) : Startup
  deriving DecidableEq, Repr

/-- `main` from its first statement up to the call of `InitWindow`. -/
def main_startup (uninit : Nat → Nat → Cell) (stdin : List Nat) : Startup :=
  if (load_tsv stdin initTable).1 = false then
    Startup.exit 1 (lit "No TSV data on stdin.\n")
  else
    match copy_original (pad_rows uninit (load_tsv stdin initTable).2) with
    | .error e => Startup.fault e
    | .ok t => Startup.window t

/-- `main` from its first statement up to the first pass of its frame loop:
`main_startup`, then `measure_col_widths` with the loaded font. -/
def main_setup (uninit : Nat → Nat → Cell) (measure : List Nat → ℚ) (stdin : List Nat) :
    Startup :=
  match main_startup uninit stdin with
  | Startup.window t =>
    match measure_col_widths measure t with
    | .error e => Startup.fault e
    | .ok t1 => Startup.window t1
  | s => s

/-! ## Interaction controller -/

/-- `#define ROW_HEIGHT 40.0f` -/
def ROW_HEIGHT : ℚ := 40
/-- `#define HEADER_HEIGHT 48.0f` -/
def HEADER_HEIGHT : ℚ := 48

/-- What the raylib queries of `handle_input` return in one frame. -/
structure Frame where
  /-- `GetScreenWidth()` -/
  screenWidth : Int
  /-- `GetScreenHeight()` -/
  screenHeight : Int
  /-- `GetMouseWheelMove()` -/
  wheel : ℚ
  /-- `IsKeyDown(KEY_LEFT_SHIFT) || IsKeyDown(KEY_RIGHT_SHIFT)` -/
  shiftDown : Bool
  /-- `GetMousePosition().x` -/
  mouseX : ℚ
  /-- `GetMousePosition().y` -/
  mouseY : ℚ
  /-- `IsMouseButtonDown(MOUSE_LEFT_BUTTON)` -/
  buttonDown : Bool
  /-- `IsMouseButtonPressed(MOUSE_LEFT_BUTTON)` -/
  buttonPressed : Bool
  /-- `GetTime()` -/
  time : ℚ
  deriving DecidableEq, Repr

/-- Calls that `handle_input` makes in its click dispatch. -/
inductive Call where
  | restore_original : Call
  | sort_by (col : Nat) : Call
  | SetClipboardText (text : List Nat) : Call
  deriving DecidableEq, Repr

/-- `a / b`; a zero divisor gives no rational. -/
def fdiv (a b : ℚ) : Except Fault ℚ :=
  if b = 0 then .error Fault.divByZero else .ok (a / b)

/-- `margin` -/
def margin : ℚ := 12
/-- `tableX` -/
def tableX : ℚ := margin
/-- `tableY` -/
def tableY : ℚ := margin + 32
/-- `viewW = (float)GetScreenWidth() - margin * 2.0f` -/
def viewW (fr : Frame) : ℚ := (fr.screenWidth : ℚ) - margin * 2
/-- `viewH = (float)GetScreenHeight() - tableY - margin` -/
def viewH (fr : Frame) : ℚ := (fr.screenHeight : ℚ) - tableY - margin

/-- `for (c = 0; c < colCount; c++) contentW += colWidths[c]` from slot `c`
with `n` passes left. -/
def sumWidths (colWidths : List ℚ) : Nat → Nat → ℚ → Except Fault ℚ
  | 0, _, acc => .ok acc
  | n + 1, c, acc =>
    match colWidths.get? c with
    | none => .error Fault.outOfRange
    | some w => sumWidths colWidths n (c + 1) (acc + w)

/-- `contentW` of `handle_input`. -/
def contentW (t : Table) : Except Fault ℚ := sumWidths t.colWidths t.colCount 0 0

/-- `contentH = HEADER_HEIGHT + ROW_HEIGHT * t->rowCount` -/
def contentH (t : Table) : ℚ := HEADER_HEIGHT + ROW_HEIGHT * (t.rowCount : ℚ)

/-- `scrollX` after the wheel step and the clamp statements of `handle_input`
that assign it, in the order of the source. -/
def clampScrollX (t : Table) (fr : Frame) (cW : ℚ) : ℚ :=
  let x := if fr.shiftDown then t.scrollX - fr.wheel * 40 else t.scrollX
  let x := if x < 0 then 0 else x
  let x := if x > cW - viewW fr then cW - viewW fr else x
  if cW < viewW fr then 0 else x

/-- `scrollY` after the wheel step and the clamp statements of `handle_input`
that assign it, in the order of the source. -/
def clampScrollY (t : Table) (fr : Frame) (cH : ℚ) : ℚ :=
  let y := if fr.shiftDown then t.scrollY else t.scrollY - fr.wheel * 40
  let y := if y < 0 then 0 else y
  let y := if y > cH - viewH fr then cH - viewH fr else y
  if cH < viewH fr then 0 else y

/-- The wheel step and the six clamp statements of `handle_input`. -/
def scrollStep (t : Table) (fr : Frame) (cW cH : ℚ) : Table :=
  { t with scrollX := clampScrollX t fr cW, scrollY := clampScrollY t fr cH }

/-- `thumbW`/`thumbH`: `has ? view * (view / content) : 0`, raised to 24 when
below it and the bar exists. -/
def thumbLen (has : Bool) (view content : ℚ) : Except Fault ℚ :=
  if has then
    match fdiv view content with
    | .error e => .error e
    | .ok q => .ok (if view * q < 24 then 24 else view * q)
  else .ok 0

/-- `CheckCollisionPointRec(point, rec)` of raylib: the point lies in the
rectangle, the left and top edges included, the right and bottom excluded. -/
def CheckCollisionPointRec (px py x y w h : ℚ) : Bool :=
  decide (px ≥ x ∧ px < x + w ∧ py ≥ y ∧ py < y + h)

/-- Release of both drags when the button is not held. -/
def releaseStep (t : Table) (fr : Frame) : Table :=
  if fr.buttonDown = false then { t with draggingH := false, draggingV := false } else t

/-- Grab of the horizontal thumb on a press edge. -/
def grabH (t : Table) (fr : Frame) (cW thumbW : ℚ) : Except Fault Table :=
  if decide (cW > viewW fr) && fr.buttonPressed then
    match fdiv t.scrollX (cW - viewW fr) with
    | .error e => .error e
    | .ok q =>
      let thumbX := tableX + q * (viewW fr - thumbW)
      if CheckCollisionPointRec fr.mouseX fr.mouseY thumbX (tableY + viewH fr - 10) thumbW 10 then
        .ok { t with draggingH := true, dragOffsetX := fr.mouseX - thumbX }
      else .ok t
  else .ok t

/-- Grab of the vertical thumb on a press edge. -/
def grabV (t : Table) (fr : Frame) (cH thumbH : ℚ) : Except Fault Table :=
  if decide (cH > viewH fr) && fr.buttonPressed then
    match fdiv t.scrollY (cH - viewH fr) with
    | .error e => .error e
    | .ok q =>
      let thumbY := tableY + q * (viewH fr - thumbH)
      if CheckCollisionPointRec fr.mouseX fr.mouseY (tableX + viewW fr - 10) thumbY 10 thumbH then
        .ok { t with draggingV := true, dragOffsetY := fr.mouseY - thumbY }
      else .ok t
  else .ok t

/-- The two clamp statements on a thumb position. -/
def clampThumb (p lo hi : ℚ) : ℚ :=
  let p := if p < lo then lo else p
  if p > hi then hi else p

/-- Scroll set from the horizontal thumb while it is dragged. -/
def dragH (t : Table) (fr : Frame) (cW thumbW : ℚ) : Except Fault Table :=
  if t.draggingH && decide (cW > viewW fr) then
    let thumbX := clampThumb (fr.mouseX - t.dragOffsetX) tableX (tableX + viewW fr - thumbW)
    match fdiv (thumbX - tableX) (viewW fr - thumbW) with
    | .error e => .error e
    | .ok ratio => .ok { t with scrollX := ratio * (cW - viewW fr) }
  else .ok t

/-- Scroll set from the vertical thumb while it is dragged. -/
def dragV (t : Table) (fr : Frame) (cH thumbH : ℚ) : Except Fault Table :=
  if t.draggingV && decide (cH > viewH fr) then
    let thumbY := clampThumb (fr.mouseY - t.dragOffsetY) tableY (tableY + viewH fr - thumbH)
    match fdiv (thumbY - tableY) (viewH fr - thumbH) with
    | .error e => .error e
    | .ok ratio => .ok { t with scrollY := ratio * (cH - viewH fr) }
  else .ok t

/-- `handle_input` from its first statement to the end of the drag handling
(the statement before `if (t->draggingH || t->draggingV) return;`). -/
def dragPhase (t : Table) (fr : Frame) : Except Fault Table :=
  match contentW t with
  | .error e => .error e
  | .ok cW =>
    let cH := contentH t
    let t1 := scrollStep t fr cW cH
    match thumbLen (decide (cW > viewW fr)) (viewW fr) cW with
    | .error e => .error e
    | .ok thumbW =>
      match thumbLen (decide (cH > viewH fr)) (viewH fr) cH with
      | .error e => .error e
      | .ok thumbH =>
        match grabH (releaseStep t1 fr) fr cW thumbW with
        | .error e => .error e
        | .ok t2 =>
          match grabV t2 fr cH thumbH with
          | .error e => .error e
          | .ok t3 =>
            match dragH t3 fr cW thumbW with
            | .error e => .error e
            | .ok t4 => dragV t4 fr cH thumbH

/-- The row loop of the hover detection: first `r` from `r` on, with `n` passes
left, whose band `[rowY, rowY + ROW_HEIGHT]` holds `mouseY`. -/
def rowScan (mouseY startY : ℚ) : Nat → Nat → Option Nat
  | 0, _ => none
  | n + 1, r =>
    if mouseY ≥ startY + ROW_HEIGHT * (r : ℚ) ∧ mouseY ≤ startY + ROW_HEIGHT * (r : ℚ) + ROW_HEIGHT
    then some r
    else rowScan mouseY startY n (r + 1)

/-- The column loop of hover detection and of the header click: first column
from `c` on, with `n` passes left, whose span `[cx, cx + w]` holds `mouseX`. -/
def colScan (colWidths : List ℚ) (mouseX : ℚ) : Nat → Nat → ℚ → Except Fault (Option Nat)
  | 0, _, _ => .ok none
  | n + 1, c, cx =>
    match colWidths.get? c with
    | none => .error Fault.outOfRange
    | some w =>
      if mouseX ≥ cx ∧ mouseX ≤ cx + w then .ok (some c)
      else colScan colWidths mouseX n (c + 1) (cx + w)

/-- The pointer is inside the grid viewport. -/
def inViewport (fr : Frame) : Bool :=
  decide (fr.mouseX ≥ tableX ∧ fr.mouseX ≤ tableX + viewW fr ∧
          fr.mouseY ≥ tableY ∧ fr.mouseY ≤ tableY + viewH fr)

/-- Hover detection: the pair stored in `hoverRow`, `hoverCol`. -/
def hoverScan (t : Table) (fr : Frame) : Except Fault (Int × Int) :=
  if inViewport fr then
    match rowScan fr.mouseY (tableY + HEADER_HEIGHT - t.scrollY) t.rowCount 0 with
    | none => .ok (-1, -1)
    | some r =>
      match colScan t.colWidths fr.mouseX t.colCount 0 (tableX - t.scrollX) with
      | .error e => .error e
      | .ok none => .ok (-1, -1)
      | .ok (some c) => .ok ((r : Int), (c : Int))
  else .ok (-1, -1)

/-- Hover detection followed by the hover fade. -/
def hoverStep (t : Table) (fr : Frame) : Except Fault Table :=
  match hoverScan t fr with
  | .error e => .error e
  | .ok (r, c) =>
    let target : ℚ := if r ≥ 0 ∧ c ≥ 0 then 1 else 0
    .ok { t with hoverRow := r, hoverCol := c,
                 hoverAlpha := t.hoverAlpha + (target - t.hoverAlpha) * (1 / 5) }

/-- The pointer is on the reset button (`btnW = 110`, `btnH = 26`). -/
def resetHit (fr : Frame) : Bool :=
  CheckCollisionPointRec fr.mouseX fr.mouseY (viewW fr + margin - 110) (margin - 4) 110 26

/-- Header click: the column whose span holds the pointer, if the pointer is in
the header band and between the viewport sides. -/
def headerHit (t : Table) (fr : Frame) : Except Fault (Option Nat) :=
  if fr.mouseY ≥ tableY - t.scrollY ∧ fr.mouseY ≤ tableY - t.scrollY + HEADER_HEIGHT ∧
      fr.mouseX ≥ tableX ∧ fr.mouseX ≤ tableX + viewW fr then
    colScan t.colWidths fr.mouseX t.colCount 0 (tableX - t.scrollX)
  else .ok none

/-- Cell click: clipboard write and status message for the hovered cell. -/
def copyCell (t : Table) (fr : Frame) : Except Fault (Table × List Call) :=
  if t.hoverRow ≥ 0 ∧ t.hoverCol ≥ 0 then
    match readRow t.rows t.hoverRow.toNat with
    | .error e => .error e
    | .ok row =>
      match readCell row.cells t.hoverCol.toNat with
      | .error e => .error e
      | .ok (Cell.str text) =>
        .ok ({ t with message := ((lit "Copied: " ++ text.take 60).take 199).take 255,
                      messageUntil := fr.time + 9 / 5 },
             [Call.SetClipboardText text])
      | .ok _ => .error Fault.badPointer
  else .ok (t, [])

/-- Click dispatch: the block `if (IsMouseButtonPressed(MOUSE_LEFT_BUTTON))`. -/
def clickStep (qsort : Qsort) (t : Table) (fr : Frame) : Except Fault (Table × List Call) :=
  if fr.buttonPressed then
    if resetHit fr then
      match restore_original fr.time t with
      | .error e => .error e
      | .ok t1 => .ok (t1, [Call.restore_original])
    else
      match headerHit t fr with
      | .error e => .error e
      | .ok (some c) => .ok (sort_by qsort t (c : Int), [Call.sort_by c])
      | .ok none => copyCell t fr
  else .ok (t, [])

/-- `handle_input(t)` for one frame: the table afterwards and the calls made by
the click dispatch. -/
def handle_input (qsort : Qsort) (t : Table) (fr : Frame) : Except Fault (Table × List Call) :=
  match dragPhase t fr with
  | .error e => .error e
  | .ok t1 =>
    if t1.draggingH || t1.draggingV then .ok (t1, [])
    else
      match hoverStep t1 fr with
      | .error e => .error e
      | .ok t2 => clickStep qsort t2 fr

/-- The frame loop of `main` over the frames `frames`: `handle_input` once for
each, the table handed on. -/
def runFrames (qsort : Qsort) : Table → List Frame → Except Fault Table
  | t, [] => .ok t
  | t, fr :: frames =>
    match handle_input qsort t fr with
    | .error e => .error e
    | .ok (t1, _) => runFrames qsort t1 frames

/-! ## Notions used to state the properties -/

/-- Cells joined with a TAB between neighbours. -/
def joinTab : List (List Nat) → List Nat
  | [] => []
  | [f] => f
  | f :: g :: fs => f ++ TAB :: joinTab (g :: fs)

/-- A byte that ends a line: LF or CR. -/
def isTerminator (b : Nat) : Bool := b == LF || b == CR

/-- The line without its trailing line terminators. -/
def stripTerminators (line : List Nat) : List Nat := line.rdropWhile isTerminator

/-- A byte at which the scan of `split_tsv_line` goes on. -/
def scanned (b : Nat) : Bool := !(b == NUL || b == LF || b == CR)

/-- Fields of `cur ++ xs` cut at each TAB of `xs`. -/
def fieldsFrom : List Nat → List Nat → List (List Nat)
  | cur, [] => [cur]
  | cur, b :: rest => if b = TAB then cur :: fieldsFrom [] rest else fieldsFrom (cur ++ [b]) rest

/-- Lines of a byte stream: each ends after its LF; bytes after the last LF
form a last line. -/
def streamLines : List Nat → List (List Nat)
  | [] => []
  | b :: rest =>
    if b = LF then [b] :: streamLines rest
    else
      match streamLines rest with
      | [] => [[b]]
      | l :: ls => (b :: l) :: ls

/-- Number of fields `split_tsv_line` finds in a line. -/
def fieldCount (line : List Nat) : Nat := (split_tsv_line line).2

/-- Row stored by `load_tsv` for a data line. -/
def rowOfLine (line : List Nat) : Row :=
  { cells := (split_tsv_line line).1, cellCount := (split_tsv_line line).2 }

/-- Largest field count among the lines. -/
def maxFieldCount (lines : List (List Nat)) : Nat := (lines.map fieldCount).foldl max 0

/-- The cell points to a C string: bytes without a NUL among them. -/
def Cell.isText : Cell → Bool
  | Cell.str s => decide (NUL ∉ s)
  | _ => false

/-- The table is in the shape `pad_rows` leaves: `rowCount` rows, each with
`colCount` cells that are strings. -/
structure Padded (t : Table) : Prop where
  rows_length : t.rows.length = t.rowCount
  row_ok : ∀ r ∈ t.rows, r.cellCount = t.colCount ∧ r.cells.length = t.colCount ∧
    ∀ c ∈ r.cells, c.isText = true

/-- `load_tsv(stdin, &t)` followed by `pad_rows(&t)` as in `main`. -/
def loadPadded (uninit : Nat → Nat → Cell) (stdin : List Nat) : Table :=
  pad_rows uninit (load_tsv stdin initTable).2

/-- A line of 8192 bytes `'a'` without LF. -/
def longLine : List Nat := List.replicate 8192 97

/-- Plain lexicographic comparison of byte strings: `a` is at most `b`. -/
def lexLe : List Nat → List Nat → Bool
  | [], _ => true
  | _ :: _, [] => false
  | a :: as, b :: bs => decide (a < b) || (decide (a = b) && lexLe as bs)

/-- The cells of rows `a` and `b` at column `c` are strings, the first at most
the second in lexicographic byte order. -/
def CellLe (c : Nat) (a b : Row) : Prop :=
  ∃ sa sb, a.cells.get? c = some (Cell.str sa) ∧ b.cells.get? c = some (Cell.str sb) ∧
    lexLe sa sb = true

/-- `a` must stand before `b` in a block sorted by `cmp`. -/
def Before (cmp : Row → Row → Option Int) (a b : Row) : Prop :=
  ∃ v, cmp a b = some v ∧ v < 0

/-- Direction `sort_by(t, col)` sorts in: flipped if `col` is the active sort
column, ascending otherwise. -/
def nextAsc (t : Table) (col : Int) : Bool :=
  if t.sortCol = col then !t.sortAsc else true

/-- The table of the specification's example after `load_tsv` and `pad_rows`:
headers Name, Age and the rows Bob/30, Alice/25. -/
def exampleTable : Table :=
  { initTable with
    headers := [Cell.str (lit "Name"), Cell.str (lit "Age")]
    rows := [{ cells := [Cell.str (lit "Bob"), Cell.str (lit "30")], cellCount := 2 },
             { cells := [Cell.str (lit "Alice"), Cell.str (lit "25")], cellCount := 2 }]
    rowCount := 2
    colCount := 2 }

/-- `t'` differs from `t` at most in the scroll offsets and the drag fields. -/
structure SameGrid (t t' : Table) : Prop where
  headers : t'.headers = t.headers
  rows : t'.rows = t.rows
  original : t'.original = t.original
  rowCount : t'.rowCount = t.rowCount
  colCount : t'.colCount = t.colCount
  colWidths : t'.colWidths = t.colWidths
  sortCol : t'.sortCol = t.sortCol
  sortAsc : t'.sortAsc = t.sortAsc
  hoverRow : t'.hoverRow = t.hoverRow
  hoverCol : t'.hoverCol = t.hoverCol
  hoverAlpha : t'.hoverAlpha = t.hoverAlpha
  message : t'.message = t.message
  messageUntil : t'.messageUntil = t.messageUntil

/-- A frame of 1200 by 800 pixels in which the button goes down on the cell of
row 0 and column 0. -/
def clickFrame : Frame :=
  { screenWidth := 1200, screenHeight := 800, wheel := 0, shiftDown := false,
    mouseX := 50, mouseY := 102, buttonDown := true, buttonPressed := true, time := 0 }

/-- The example table with its snapshot and the widths `measure_col_widths`
gives at least (80 for each column). -/
def gridTable : Table :=
  { exampleTable with original := exampleTable.rows, colWidths := [80, 80] }

/-- A frame in a window 48 pixels wide in which the button goes down on the
horizontal thumb. -/
def narrowFrame : Frame :=
  { screenWidth := 48, screenHeight := 800, wheel := 0, shiftDown := false,
    mouseX := 20, mouseY := 780, buttonDown := true, buttonPressed := true, time := 0 }

deriving instance DecidableEq for Except

/-- Text of a slot that holds a string. -/
def cellText : Cell → List Nat
  | Cell.str s => s
  | _ => []

/-- The largest measured width over `header[c]` and every cell of column `c`. -/
def maxMeasured (measure : List Nat → ℚ) (t : Table) (c : Nat) : ℚ :=
  (t.rows.map fun r => measure (cellText ((r.cells.get? c).getD Cell.null))).foldl max
    (measure (cellText ((t.headers.get? c).getD Cell.null)))

/-- All header slots hold strings and there are `colCount` of them. -/
def HeadersOK (t : Table) : Prop :=
  t.headers.length = t.colCount ∧ ∀ h ∈ t.headers, h.isText = true

/-- A text measurement: ten units for each byte. -/
def tenPerByte (s : List Nat) : ℚ := 10 * (s.length : ℚ)

/-- Row `r` after the row loop of `pad_rows` for `colCount` columns, as the
claim describes it: the parsed cells, then empty strings, `cellCount = colCount`. -/
def paddedRow (colCount : Nat) (r : Row) : Row :=
  { cells := r.cells ++ List.replicate (colCount - r.cells.length) (Cell.str []),
    cellCount := colCount }

/-- What `load_tsv` maintains about its locals: `rowCount` rows are stored,
each with `cellCount` written cells and `cellCount ≤ colCount`. -/
def LoadInv (st : LoadState) : Prop :=
  st.rows.length = st.t.rowCount ∧
  ∀ r ∈ st.rows, r.cells.length = r.cellCount ∧ r.cellCount ≤ st.colCount

/-- `t'` differs from `t` at most in the rows, the sort state and the status
message: what the click dispatch may change. -/
structure ClickKeeps (t t' : Table) : Prop where
  headers : t'.headers = t.headers
  original : t'.original = t.original
  rowCount : t'.rowCount = t.rowCount
  colCount : t'.colCount = t.colCount
  colWidths : t'.colWidths = t.colWidths
  scrollX : t'.scrollX = t.scrollX
  scrollY : t'.scrollY = t.scrollY
  hoverRow : t'.hoverRow = t.hoverRow
  hoverCol : t'.hoverCol = t.hoverCol
  hoverAlpha : t'.hoverAlpha = t.hoverAlpha
  draggingH : t'.draggingH = t.draggingH
  draggingV : t'.draggingV = t.draggingV

/-- A frame of 400 by 150 pixels in which the button goes down on the vertical
thumb of the example grid. -/
def dragFrame : Frame :=
  { screenWidth := 400, screenHeight := 150, wheel := 0, shiftDown := false,
    mouseX := 380, mouseY := 50, buttonDown := true, buttonPressed := true, time := 0 }

/-- The example grid in the middle of a hover fade. -/
def fadedTable : Table := { gridTable with hoverAlpha := 1 / 2 }

/-- Left edge of column `c` when column 0 starts at `x0`: `x0` plus the widths
of the columns before `c`. -/
def colLeft (colWidths : List ℚ) (x0 : ℚ) : Nat → ℚ
  | 0 => x0
  | c + 1 => colLeft colWidths x0 c + (colWidths.get? c).getD 0

/-- The pointer is inside the horizontal span of column `c`. -/
def inColSpan (t : Table) (fr : Frame) (c : Nat) : Bool :=
  match t.colWidths.get? c with
  | some w =>
    decide (c < t.colCount ∧ fr.mouseX ≥ colLeft t.colWidths (tableX - t.scrollX) c ∧
      fr.mouseX ≤ colLeft t.colWidths (tableX - t.scrollX) c + w)
  | none => false

/-- The pointer is inside the header band: the vertical extent of the header row. -/
def inHeaderBand (t : Table) (fr : Frame) : Bool :=
  decide (fr.mouseY ≥ tableY - t.scrollY ∧ fr.mouseY ≤ tableY - t.scrollY + HEADER_HEIGHT)

/-- The pointer is between the left and the right side of the viewport. -/
def betweenViewSides (fr : Frame) : Bool :=
  decide (fr.mouseX ≥ tableX ∧ fr.mouseX ≤ tableX + viewW fr)

/-- A frame of 100 by 800 pixels in which the button goes down on the header
cell of column 0, in the margin right of the viewport. -/
def marginFrame : Frame :=
  { screenWidth := 100, screenHeight := 800, wheel := 0, shiftDown := false,
    mouseX := 90, mouseY := 50, buttonDown := true, buttonPressed := true, time := 0 }

/-- A frame of 1200 by 800 pixels in which the button goes down on the header
cell of column 0. -/
def headerFrame : Frame :=
  { screenWidth := 1200, screenHeight := 800, wheel := 0, shiftDown := false,
    mouseX := 50, mouseY := 60, buttonDown := true, buttonPressed := true, time := 0 }

/-- Left edge of the horizontal thumb for the scroll offset `scrollX`. -/
def thumbPos (track scroll content view thumb : ℚ) : ℚ :=
  track + scroll / (content - view) * (view - thumb)

/-- A frame of 40 by 800 pixels (the view is 16 wide, shorter than the thumb)
in which the button goes down on the horizontal thumb. -/
def tinyFrame : Frame :=
  { screenWidth := 40, screenHeight := 800, wheel := 0, shiftDown := false,
    mouseX := 20, mouseY := 780, buttonDown := true, buttonPressed := true, time := 0 }

/-- A frame of 400 by 150 pixels in which one wheel notch scrolls the example
grid to its end and the button goes down on the vertical thumb. -/
def wheelGrabFrame : Frame :=
  { screenWidth := 400, screenHeight := 150, wheel := -1, shiftDown := false,
    mouseX := 380, mouseY := 100, buttonDown := true, buttonPressed := true, time := 0 }

/-- The pointer is inside the square of 10 by 10 pixels in the lower right
corner of the viewport, where the two scrollbar tracks cross. -/
def inTrackCorner (fr : Frame) : Bool :=
  decide (fr.mouseX ≥ tableX + viewW fr - 10 ∧ fr.mouseX < tableX + viewW fr ∧
          fr.mouseY ≥ tableY + viewH fr - 10 ∧ fr.mouseY < tableY + viewH fr)

/-- States reached from `t0` by frames of `handle_input` that complete, each
frame satisfying `allowed`.  The flag is `IsMouseButtonDown` of the last frame;
raylib reports a press edge exactly when the button is down and was up in the
frame before. -/
inductive FrameReach (qsort : Qsort) (allowed : Frame → Prop) (t0 : Table) : Table → Bool → Prop
  | start : FrameReach qsort allowed t0 t0 false
  | frame (t t1 : Table) (d : Bool) (fr : Frame) (calls : List Call) :
      FrameReach qsort allowed t0 t d → allowed fr →
      fr.buttonPressed = (fr.buttonDown && !d) →
      handle_input qsort t fr = .ok (t1, calls) →
      FrameReach qsort allowed t0 t1 fr.buttonDown

/-- A grid of 30 rows and 20 columns of width 80, larger than a window of 1200
by 800 pixels on both axes. -/
def wideTable : Table :=
  { initTable with
    headers := List.replicate 20 (Cell.str (lit "h"))
    rows := List.replicate 30 { cells := List.replicate 20 (Cell.str (lit "x")), cellCount := 20 }
    original := List.replicate 30 { cells := List.replicate 20 (Cell.str (lit "x")), cellCount := 20 }
    rowCount := 30
    colCount := 20
    colWidths := List.replicate 20 80 }

/-- A frame of 1200 by 800 pixels: the wheel with shift held scrolls to the
right end, no button. -/
def scrollRightFrame : Frame :=
  { screenWidth := 1200, screenHeight := 800, wheel := -100, shiftDown := true,
    mouseX := 0, mouseY := 0, buttonDown := false, buttonPressed := false, time := 0 }

/-- A frame of 1200 by 800 pixels: the wheel scrolls to the bottom and the
button goes down in the corner where the two scrollbars meet. -/
def cornerPressFrame : Frame :=
  { screenWidth := 1200, screenHeight := 800, wheel := -100, shiftDown := false,
    mouseX := 1183, mouseY := 783, buttonDown := true, buttonPressed := true, time := 1 }

/-- States reached from `t0` by calls of `sort_by`, `restore_original` and
`handle_input` that complete, in any order. -/
inductive OpReach (qsort : Qsort) (t0 : Table) : Table → Prop
  | start : OpReach qsort t0 t0
  | sort (t : Table) (col : Int) : OpReach qsort t0 t → OpReach qsort t0 (sort_by qsort t col)
  | restore (t t1 : Table) (now : ℚ) :
      OpReach qsort t0 t → restore_original now t = .ok t1 → OpReach qsort t0 t1
  | frame (t t1 : Table) (fr : Frame) (calls : List Call) :
      OpReach qsort t0 t → handle_input qsort t fr = .ok (t1, calls) → OpReach qsort t0 t1

/-- The snapshot of `t` is the one of `t0`, the counts are those of `t0`, and
the rows of `t` are a rearrangement of that snapshot. -/
structure SnapshotInv (t0 t : Table) : Prop where
  original : t.original = t0.original
  rowCount : t.rowCount = t0.rowCount
  colCount : t.colCount = t0.colCount
  perm : t.rows.Perm t0.original

/-- The hover indices are both the sentinel -1 or both valid indices. -/
def HoverOK (t : Table) : Prop :=
  (t.hoverRow = -1 ∧ t.hoverCol = -1) ∨
  (0 ≤ t.hoverRow ∧ t.hoverRow < (t.rowCount : Int) ∧
   0 ≤ t.hoverCol ∧ t.hoverCol < (t.colCount : Int))

/-- The table at the first frame for the input `"Name\tAge\n"`, a header line
without data lines, with both columns at the minimum width. -/
def headerOnlyTable : Table :=
  { initTable with
    headers := [Cell.str (lit "Name"), Cell.str (lit "Age")]
    colCount := 2
    colWidths := [80, 80] }

/-- A frame of 100 by 800 pixels in which the button goes down on the
horizontal thumb. -/
def thumbPressFrame : Frame :=
  { screenWidth := 100, screenHeight := 800, wheel := 0, shiftDown := false,
    mouseX := 20, mouseY := 780, buttonDown := true, buttonPressed := true, time := 0 }

/-- A frame of 1200 by 80 pixels (the view is 24 high) in which the button goes
down on the vertical thumb. -/
def shortFrame : Frame :=
  { screenWidth := 1200, screenHeight := 80, wheel := 0, shiftDown := false,
    mouseX := 1180, mouseY := 50, buttonDown := true, buttonPressed := true, time := 0 }

/-- The table is as `main` hands it to the frame loop: padded rows, a snapshot
of the same shape, and a width of at least 80 for each of its columns, of which
there is at least one. -/
structure Ready (t : Table) : Prop where
  padded : Padded t
  original_length : t.original.length = t.rowCount
  original_ok : ∀ r ∈ t.original, r.cellCount = t.colCount ∧ r.cells.length = t.colCount ∧
    ∀ c ∈ r.cells, c.isText = true
  widths_length : t.colWidths.length = t.colCount
  widths_min : ∀ w ∈ t.colWidths, (80 : ℚ) ≤ w
  cols : 1 ≤ t.colCount

/-- One input line of 20 fields, each the text `s`. -/
def wideLine (s : List Nat) : List Nat :=
  joinTab (List.replicate 20 s) ++ [10]

/-- An input of a header line and 30 data lines of 20 fields each. -/
def wideInput : List Nat :=
  wideLine (lit "h") ++ (List.replicate 30 (wideLine (lit "x"))).flatten

/-- What the loop of `load_tsv` keeps besides `LoadInv`: the stored cells are
strings, and a column is counted once a line has been read. -/
def LoadText (st : LoadState) : Prop :=
  (∀ r ∈ st.rows, ∀ c ∈ r.cells, c.isText = true) ∧ (st.lineIndex ≠ 0 → 1 ≤ st.colCount)

/-! ## Ingestion: proofs -/

theorem fieldsFrom_ne_nil (xs : List Nat) : ∀ cur, fieldsFrom cur xs ≠ [] := by
  induction xs with
  | nil => intro cur; simp [fieldsFrom]
  | cons b rest ih =>
    intro cur
    by_cases h : b = TAB <;> simp [fieldsFrom, h, ih]

theorem joinTab_cons (f : List Nat) (fs : List (List Nat)) (h : fs ≠ []) :
    joinTab (f :: fs) = f ++ TAB :: joinTab fs := by
  cases fs with
  | nil => exact absurd rfl h
  | cons g gs => rfl

theorem joinTab_fieldsFrom (xs : List Nat) : ∀ cur, joinTab (fieldsFrom cur xs) = cur ++ xs := by
  induction xs with
  | nil => intro cur; simp [fieldsFrom, joinTab]
  | cons b rest ih =>
    intro cur
    by_cases h : b = TAB
    · simp [fieldsFrom, h, joinTab_cons _ _ (fieldsFrom_ne_nil rest []), ih]
    · simp [fieldsFrom, h, ih]

theorem length_fieldsFrom (xs : List Nat) : ∀ cur, (fieldsFrom cur xs).length = xs.count TAB + 1 := by
  induction xs with
  | nil => intro cur; simp [fieldsFrom]
  | cons b rest ih =>
    intro cur
    by_cases h : b = TAB
    · simp [fieldsFrom, h, ih]
    · have h' : ¬ (TAB = b) := fun e => h e.symm
      simp [fieldsFrom, h, ih, List.count_cons, h']

theorem splitLoop_eq (line : List Nat) : ∀ cur cells count,
    splitLoop line cur cells count =
      (cells ++ (fieldsFrom cur (line.takeWhile scanned)).map Cell.str,
       count + (fieldsFrom cur (line.takeWhile scanned)).length) := by
  induction line with
  | nil => intro cur cells count; simp [splitLoop, fieldsFrom]
  | cons b rest ih =>
    intro cur cells count
    by_cases hs : b = NUL ∨ b = LF ∨ b = CR
    · have : scanned b = false := by
        rcases hs with h | h | h <;> simp [scanned, h]
      simp [splitLoop, hs, List.takeWhile_cons, this, fieldsFrom]
    · have hsc : scanned b = true := by
        simp only [not_or] at hs
        simp [scanned, hs]
      by_cases ht : b = TAB
      · subst ht
        rw [splitLoop, if_pos (Or.inl rfl), if_neg hs, ih, List.takeWhile_cons, hsc]
        simp [fieldsFrom, Nat.add_assoc, Nat.add_comm]
      · simp [splitLoop, hs, ht, List.takeWhile_cons, hsc, fieldsFrom, ih]

theorem split_tsv_line_eq (line : List Nat) :
    split_tsv_line line =
      ((fieldsFrom [] (line.takeWhile scanned)).map Cell.str,
       (line.takeWhile scanned).count TAB + 1) := by
  simp [split_tsv_line, splitLoop_eq, length_fieldsFrom]

theorem takeWhile_scanned_eq_strip (line : List Nat)
    (h : ∀ b ∈ stripTerminators line, b ≠ NUL ∧ b ≠ LF ∧ b ≠ CR) :
    line.takeWhile scanned = stripTerminators line := by
  have hsplit : line = stripTerminators line ++ line.rtakeWhile isTerminator := by
    simp [stripTerminators, List.rdropWhile, List.rtakeWhile, ← List.reverse_append]
  have hpos : ∀ b ∈ stripTerminators line, scanned b = true := by
    intro b hb
    obtain ⟨h1, h2, h3⟩ := h b hb
    simp [scanned, h1, h2, h3]
  have htail : (line.rtakeWhile isTerminator).takeWhile scanned = [] := by
    rw [List.takeWhile_eq_nil_iff]
    intro hpos'
    have hmem : (line.rtakeWhile isTerminator)[0] ∈ (line.reverse.takeWhile isTerminator) := by
      have : (line.rtakeWhile isTerminator)[0] ∈ line.rtakeWhile isTerminator := List.getElem_mem _
      simp [List.rtakeWhile] at this ⊢
    have hterm := List.mem_takeWhile_imp hmem
    intro hsc
    simp [isTerminator] at hterm
    rcases hterm with h1 | h1 <;> simp [scanned, h1] at hsc
  conv_lhs => rw [hsplit]
  rw [List.takeWhile_append_of_pos hpos, htail, List.append_nil]

theorem streamLines_eq_nil (f : List Nat) : streamLines f = [] ↔ f = [] := by
  cases f with
  | nil => simp [streamLines]
  | cons b rest =>
    by_cases h : b = LF
    · simp [streamLines, h]
    · cases hr : streamLines rest <;> simp [streamLines, h, hr]

theorem fgetsLoop_nil (n : Nat) : fgetsLoop n [] = ([], []) := by
  cases n <;> rfl

theorem length_fgetsLoop_rest (n : Nat) : ∀ f, (fgetsLoop n f).2.length ≤ f.length := by
  induction n with
  | zero => intro f; simp [fgetsLoop]
  | succ n ih =>
    intro f
    cases f with
    | nil => simp [fgetsLoop]
    | cons b rest =>
      by_cases h : b = LF
      · simp [fgetsLoop, h]
      · simp only [fgetsLoop, h, if_false, List.length_cons]
        exact Nat.le_succ_of_le (ih rest)

theorem length_fgetsLoop_rest_lt (n b : Nat) (rest : List Nat) :
    (fgetsLoop (n + 1) (b :: rest)).2.length < (b :: rest).length := by
  by_cases h : b = LF
  · simp [fgetsLoop, h]
  · simp only [fgetsLoop, h, if_false, List.length_cons]
    exact Nat.lt_succ_of_le (length_fgetsLoop_rest n rest)

theorem streamLines_eq_fgetsLoop (f : List Nat) : ∀ n l ls, streamLines f = l :: ls →
    l.length ≤ n → l = (fgetsLoop n f).1 ∧ ls = streamLines (fgetsLoop n f).2 := by
  induction f with
  | nil => intro n l ls h; simp [streamLines] at h
  | cons b rest ih =>
    intro n l ls h hn
    by_cases hb : b = LF
    · simp only [streamLines, hb, if_true, List.cons.injEq] at h
      obtain ⟨h1, h2⟩ := h
      subst h1 h2
      cases n with
      | zero => simp at hn
      | succ n => simp [fgetsLoop, hb]
    · cases hr : streamLines rest with
      | nil =>
        have hrest : rest = [] := (streamLines_eq_nil rest).1 hr
        subst hrest
        simp only [streamLines, hb, if_false, List.cons.injEq] at h
        obtain ⟨h1, h2⟩ := h
        subst h1 h2
        cases n with
        | zero => simp at hn
        | succ n => simp [fgetsLoop, hb, fgetsLoop_nil, streamLines]
      | cons l' ls' =>
        simp only [streamLines, hb, if_false, hr, List.cons.injEq] at h
        obtain ⟨h1, h2⟩ := h
        subst h1 h2
        cases n with
        | zero => simp at hn
        | succ n =>
          have hn' : l'.length ≤ n := by simpa using hn
          obtain ⟨e1, e2⟩ := ih n l' ls' hr hn'
          simp only [fgetsLoop, hb, if_false]
          exact ⟨by rw [← e1], e2⟩

theorem loadLoop_eq_foldl (fuel : Nat) : ∀ (f : List Nat) (st : LoadState), f.length ≤ fuel →
    (∀ l ∈ streamLines f, l.length < MAX_LINE_LEN) →
    loadLoop fuel f st = (streamLines f).foldl (fun st l => loadLine l st) st := by
  induction fuel with
  | zero =>
    intro f st hf _
    have : f = [] := List.length_eq_zero.mp (Nat.le_zero.mp hf)
    subst this
    simp [loadLoop, streamLines]
  | succ fuel ih =>
    intro f st hf hl
    cases f with
    | nil => simp [loadLoop, fgets, streamLines]
    | cons b rest =>
      cases hs : streamLines (b :: rest) with
      | nil => simp [streamLines_eq_nil] at hs
      | cons l ls =>
        have hlen : l.length ≤ MAX_LINE_LEN - 1 := by
          have := hl l (by simp [hs])
          omega
        obtain ⟨e1, e2⟩ := streamLines_eq_fgetsLoop (b :: rest) (MAX_LINE_LEN - 1) l ls hs hlen
        have hlt : (fgetsLoop (MAX_LINE_LEN - 1) (b :: rest)).2.length < (b :: rest).length :=
          length_fgetsLoop_rest_lt (MAX_LINE_LEN - 2) b rest
        have hfuel : (fgetsLoop (MAX_LINE_LEN - 1) (b :: rest)).2.length ≤ fuel := by
          simp only [List.length_cons] at hf hlt
          omega
        have hl' : ∀ l ∈ streamLines (fgetsLoop (MAX_LINE_LEN - 1) (b :: rest)).2,
            l.length < MAX_LINE_LEN := by
          intro l' hl'
          apply hl
          rw [hs, e2]
          exact List.mem_cons_of_mem _ hl'
        simp only [loadLoop, fgets, List.foldl_cons]
        rw [ih _ _ hfuel hl', ← e1, ← e2]

theorem foldl_loadLine_data (ls : List (List Nat)) : ∀ st : LoadState, st.lineIndex ≠ 0 →
    ls.foldl (fun st l => loadLine l st) st =
      { lineIndex := st.lineIndex + ls.length,
        colCount := (ls.map fieldCount).foldl max st.colCount,
        rows := st.rows ++ ls.map rowOfLine,
        t := { st.t with rowCount := st.t.rowCount + ls.length } } := by
  induction ls with
  | nil => intro st _; simp
  | cons l ls ih =>
    intro st hst
    have hstep : loadLine l st =
        { lineIndex := st.lineIndex + 1, colCount := max st.colCount (fieldCount l),
          rows := st.rows ++ [rowOfLine l],
          t := { st.t with rowCount := st.t.rowCount + 1 } } := by
      simp only [loadLine, if_neg hst, fieldCount, rowOfLine]
      congr 1
      rcases Nat.lt_or_ge st.colCount (split_tsv_line l).2 with h | h
      · rw [if_pos h, Nat.max_eq_right (Nat.le_of_lt h)]
      · rw [if_neg (Nat.not_lt.mpr h), Nat.max_eq_left h]
    rw [List.foldl_cons, hstep, ih _ (by simp)]
    simp [Nat.add_assoc, Nat.add_comm 1]

theorem load_tsv_lines (f header : List Nat) (data : List (List Nat)) (t : Table)
    (hs : streamLines f = header :: data)
    (hl : ∀ l ∈ header :: data, l.length < MAX_LINE_LEN) :
    load_tsv f t =
      (true, { t with headers := (split_tsv_line header).1,
                      rowCount := t.rowCount + data.length,
                      colCount := maxFieldCount (header :: data),
                      rows := data.map rowOfLine }) := by
  have hloop := loadLoop_eq_foldl f.length f
    { lineIndex := 0, colCount := 0, rows := [], t := t } (le_refl _) (by rw [hs]; exact hl)
  rw [hs, List.foldl_cons] at hloop
  have hfirst : loadLine header { lineIndex := 0, colCount := 0, rows := [], t := t } =
      { lineIndex := 1, colCount := max 0 (fieldCount header), rows := [],
        t := { t with headers := (split_tsv_line header).1 } } := by
    simp only [loadLine, fieldCount, if_true]
    congr 1
    by_cases h : (split_tsv_line header).2 > 0
    · rw [if_pos h]; simp
    · rw [if_neg h]; simp at h; simp [h]
  rw [hfirst, foldl_loadLine_data _ _ (by simp)] at hloop
  simp only [load_tsv, hloop]
  simp [maxFieldCount]

theorem getElem?_foldl_set (v : Cell) (k : Nat) : ∀ (a : Nat) (L : List Cell) (i : Nat),
    ((List.range' a k).foldl (fun cells c => cells.set c v) L)[i]? =
      if a ≤ i ∧ i < a + k ∧ i < L.length then some v else L[i]? := by
  induction k with
  | zero =>
    intro a L i
    have : ¬ (a ≤ i ∧ i < a + 0 ∧ i < L.length) := by omega
    rw [if_neg this]
    rfl
  | succ k ih =>
    intro a L i
    rw [List.range'_succ, List.foldl_cons, ih]
    simp only [List.length_set, List.getElem?_set]
    by_cases h1 : a = i
    · subst h1
      by_cases h2 : a < L.length
      · simp [h2]
      · simp [h2, List.getElem?_eq_none (Nat.not_lt.mp h2)]
    · by_cases h3 : a + 1 ≤ i ∧ i < a + 1 + k ∧ i < L.length
      · have : a ≤ i ∧ i < a + (k + 1) ∧ i < L.length := by omega
        simp [h3, this]
      · have : ¬ (a ≤ i ∧ i < a + (k + 1) ∧ i < L.length) := by omega
        simp [h3, this, h1]

theorem getElem?_realloc (junk : Nat → Cell) (block : List Cell) (n i : Nat) :
    (realloc junk block n)[i]? = if i < n then some ((block.get? i).getD (junk i)) else none := by
  unfold realloc
  by_cases h : i < n
  · simp [h, List.getElem?_map, List.getElem?_range h]
  · simp [h, List.getElem?_eq_none]
    omega

theorem length_realloc (junk : Nat → Cell) (block : List Cell) (n : Nat) :
    (realloc junk block n).length = n := by
  simp [realloc]

/-- The row loop of `pad_rows` keeps the parsed cells and appends empty strings. -/
theorem padRow_eq (junk : Nat → Cell) (n : Nat) (r : Row)
    (hlen : r.cells.length = r.cellCount) (hle : r.cellCount ≤ n) :
    padRow junk n r =
      { cells := r.cells ++ List.replicate (n - r.cellCount) (Cell.str []), cellCount := n } := by
  unfold padRow
  congr 1
  apply List.ext_getElem?
  intro i
  rw [getElem?_foldl_set, length_realloc, getElem?_realloc]
  by_cases h1 : i < r.cellCount
  · have h2 : ¬ (r.cellCount ≤ i ∧ i < r.cellCount + (n - r.cellCount) ∧ i < n) := by omega
    have h3 : i < n := by omega
    have h4 : i < r.cells.length := by omega
    rw [if_neg h2, if_pos h3, List.getElem?_append_left h4]
    simp [List.getElem?_eq_getElem h4]
  · by_cases h3 : i < n
    · have h2 : r.cellCount ≤ i ∧ i < r.cellCount + (n - r.cellCount) ∧ i < n := by omega
      rw [if_pos h2, List.getElem?_append_right (by omega)]
      rw [List.getElem?_replicate]
      simp; omega
    · have h2 : ¬ (r.cellCount ≤ i ∧ i < r.cellCount + (n - r.cellCount) ∧ i < n) := by omega
      rw [if_neg h2, if_neg h3]
      symm
      apply List.getElem?_eq_none
      simp; omega

theorem mem_fieldsFrom (xs : List Nat) : ∀ cur, ∀ f ∈ fieldsFrom cur xs, ∀ b ∈ f, b ∈ cur ∨ b ∈ xs := by
  induction xs with
  | nil =>
    intro cur f hf b hb
    simp [fieldsFrom] at hf
    subst hf
    exact Or.inl hb
  | cons x rest ih =>
    intro cur f hf b hb
    by_cases h : x = TAB
    · simp only [fieldsFrom, h, if_true, List.mem_cons] at hf
      rcases hf with hf | hf
      · subst hf; exact Or.inl hb
      · rcases ih [] f hf b hb with h1 | h1
        · simp at h1
        · exact Or.inr (List.mem_cons_of_mem _ h1)
    · simp only [fieldsFrom, h, if_false] at hf
      rcases ih _ f hf b hb with h1 | h1
      · rcases List.mem_append.mp h1 with h2 | h2
        · exact Or.inl h2
        · simp at h2; subst h2; exact Or.inr (List.mem_cons_self _ _)
      · exact Or.inr (List.mem_cons_of_mem _ h1)

/-- Every slot `split_tsv_line` writes holds a C string, and `count` slots are written. -/
theorem split_tsv_line_cells (line : List Nat) :
    (split_tsv_line line).1.length = (split_tsv_line line).2 ∧
      ∀ c ∈ (split_tsv_line line).1, c.isText = true := by
  rw [split_tsv_line_eq]
  refine ⟨by simp [length_fieldsFrom], ?_⟩
  intro c hc
  simp only [List.mem_map] at hc
  obtain ⟨f, hf, rfl⟩ := hc
  simp only [Cell.isText, decide_eq_true_eq]
  intro hmem
  rcases mem_fieldsFrom _ [] f hf NUL hmem with h | h
  · simp at h
  · have := List.mem_takeWhile_imp h
    simp [scanned] at this

theorem le_foldl_max (xs : List Nat) : ∀ init, init ≤ xs.foldl max init ∧ ∀ x ∈ xs, x ≤ xs.foldl max init := by
  induction xs with
  | nil => intro init; simp
  | cons y ys ih =>
    intro init
    obtain ⟨h1, h2⟩ := ih (max init y)
    refine ⟨le_trans (Nat.le_max_left _ _) h1, ?_⟩
    intro x hx
    rcases List.mem_cons.mp hx with h | h
    · subst h; exact le_trans (Nat.le_max_right _ _) h1
    · exact h2 x h

theorem fieldCount_le_max (lines : List (List Nat)) (l : List Nat) (h : l ∈ lines) :
    fieldCount l ≤ maxFieldCount lines :=
  (le_foldl_max _ 0).2 _ (List.mem_map_of_mem _ h)

theorem isText_eq_str (c : Cell) (h : c.isText = true) : ∃ s, c = Cell.str s := by
  cases c with
  | null => simp [Cell.isText] at h
  | str s => exact ⟨s, rfl⟩
  | wild b => simp [Cell.isText] at h

/-- Rows after `pad_rows` on a table in which `rowCount` rows are stored, each
with `cellCount` written string cells and `cellCount ≤ colCount`. -/
theorem pad_rows_padded (uninit : Nat → Nat → Cell) (t : Table)
    (hlen : t.rows.length = t.rowCount)
    (hrow : ∀ r ∈ t.rows, r.cells.length = r.cellCount ∧ r.cellCount ≤ t.colCount ∧
      ∀ c ∈ r.cells, c.isText = true) :
    Padded (pad_rows uninit t) := by
  constructor
  · simp [pad_rows, hlen]
  · intro r hr
    simp only [pad_rows, List.mem_mapIdx] at hr
    obtain ⟨i, hi, rfl⟩ := hr
    have hi' : i < t.rowCount := by omega
    obtain ⟨h1, h2, h3⟩ := hrow _ (List.getElem_mem hi)
    simp only [pad_rows, if_pos hi', padRow_eq _ _ _ h1 h2]
    refine ⟨trivial, by simp [h1]; omega, ?_⟩
    intro c hc
    rcases List.mem_append.mp hc with h | h
    · exact h3 c h
    · rw [List.eq_of_mem_replicate h]; rfl

/-- The table after `load_tsv` and `pad_rows` for a stream whose lines fit the buffer. -/
theorem loadPadded_lines (uninit : Nat → Nat → Cell) (f header : List Nat) (data : List (List Nat))
    (hs : streamLines f = header :: data)
    (hl : ∀ l ∈ header :: data, l.length < MAX_LINE_LEN) :
    Padded (loadPadded uninit f) ∧ (loadPadded uninit f).rowCount = data.length ∧
      (loadPadded uninit f).colCount = maxFieldCount (header :: data) := by
  unfold loadPadded
  rw [load_tsv_lines f header data initTable hs hl]
  refine ⟨?_, by simp [pad_rows, initTable], by simp [pad_rows]⟩
  apply pad_rows_padded
  · simp [initTable]
  · intro r hr
    simp only [List.mem_map] at hr
    obtain ⟨l, hl', rfl⟩ := hr
    obtain ⟨h1, h2⟩ := split_tsv_line_cells l
    exact ⟨h1, fieldCount_le_max _ l (List.mem_cons_of_mem _ hl'), h2⟩

/-- C1 (amended): for every input stream made of a header line followed by N
data lines, each line at most 8191 bytes long (its LF included), `load_tsv`
followed by `pad_rows` gives a table with `rowCount = N` stored rows, `colCount`
the largest field count over the header and the data lines, and every row
holding exactly `colCount` cells, each of them a string (none NULL or unset). -/
theorem load_pad_rows_shape (uninit : Nat → Nat → Cell) (f header : List Nat)
    (data : List (List Nat)) (hs : streamLines f = header :: data)
    (hl : ∀ l ∈ header :: data, l.length < MAX_LINE_LEN) :
    (load_tsv f initTable).1 = true ∧
    (loadPadded uninit f).rowCount = data.length ∧
    (loadPadded uninit f).rows.length = data.length ∧
    (loadPadded uninit f).colCount = maxFieldCount (header :: data) ∧
    ∀ r ∈ (loadPadded uninit f).rows,
      r.cellCount = (loadPadded uninit f).colCount ∧
      r.cells.length = (loadPadded uninit f).colCount ∧
      ∀ c ∈ r.cells, ∃ s, c = Cell.str s := by
  obtain ⟨hp, hr, hc⟩ := loadPadded_lines uninit f header data hs hl
  refine ⟨by rw [load_tsv_lines f header data initTable hs hl], hr, by rw [hp.rows_length, hr], hc, ?_⟩
  intro r hmem
  obtain ⟨h1, h2, h3⟩ := hp.row_ok r hmem
  exact ⟨h1, h2, fun c hc' => isText_eq_str c (h3 c hc')⟩

/-- Instance of `load_pad_rows_shape`: a header and two data lines, one ragged. -/
theorem load_pad_rows_shape_witness :
    streamLines (lit "Name\tAge\nBob\t30\nAlice\n") =
      [lit "Name\tAge\n", lit "Bob\t30\n", lit "Alice\n"] ∧
    (∀ l ∈ [lit "Name\tAge\n", lit "Bob\t30\n", lit "Alice\n"], l.length < MAX_LINE_LEN) ∧
    (loadPadded (fun _ _ => Cell.wild 1) (lit "Name\tAge\nBob\t30\nAlice\n")).rowCount = 2 ∧
    (loadPadded (fun _ _ => Cell.wild 1) (lit "Name\tAge\nBob\t30\nAlice\n")).colCount = 2 ∧
    ∀ r ∈ (loadPadded (fun _ _ => Cell.wild 1) (lit "Name\tAge\nBob\t30\nAlice\n")).rows,
      r.cells.length = 2 ∧ ∀ c ∈ r.cells, ∃ s, c = Cell.str s :=
  have h := load_pad_rows_shape (fun _ _ => Cell.wild 1) (lit "Name\tAge\nBob\t30\nAlice\n")
    (lit "Name\tAge\n") [lit "Bob\t30\n", lit "Alice\n"] (by decide) (by decide)
  ⟨by decide, by decide, h.2.1, by decide,
    fun r hr => ⟨((h.2.2.2.2 r hr).2.1).trans (by decide), (h.2.2.2.2 r hr).2.2⟩⟩

theorem streamLines_replicate (n : Nat) : streamLines (List.replicate (n + 1) 97) = [List.replicate (n + 1) 97] := by
  induction n with
  | zero => decide
  | succ n ih =>
    rw [List.replicate_succ, streamLines, ih]
    simp [LF]

theorem fgetsLoop_replicate (n m : Nat) :
    fgetsLoop n (List.replicate (n + m) 97) = (List.replicate n 97, List.replicate m 97) := by
  induction n with
  | zero => simp [fgetsLoop]
  | succ n ih =>
    have h : n + 1 + m = (n + m) + 1 := by omega
    rw [h, List.replicate_succ, fgetsLoop, ih]
    simp [LF, List.replicate_succ]

theorem loadLoop_succ (fuel : Nat) (f : List Nat) (st : LoadState) :
    loadLoop (fuel + 1) f st =
      match fgets MAX_LINE_LEN f with
      | none => st
      | some (buf, rest) => loadLoop fuel rest (loadLine buf st) := rfl

theorem loadLine_lineIndex (buf : List Nat) (st : LoadState) :
    (loadLine buf st).lineIndex = st.lineIndex + 1 := by
  unfold loadLine
  by_cases h : st.lineIndex = 0 <;> simp [h]

theorem loadLine_rowCount (buf : List Nat) (st : LoadState) :
    (loadLine buf st).t.rowCount = if st.lineIndex = 0 then st.t.rowCount else st.t.rowCount + 1 := by
  unfold loadLine
  by_cases h : st.lineIndex = 0 <;> simp [h]

theorem pad_rows_rowCount (uninit : Nat → Nat → Cell) (t : Table) :
    (pad_rows uninit t).rowCount = t.rowCount := rfl

theorem fgets_replicate (n : Nat) :
    fgets (n + 2) (List.replicate (n + 2) 97) = some (List.replicate (n + 1) 97, [97]) := by
  have h := fgetsLoop_replicate (n + 1) 1
  rw [List.replicate_succ] at h ⊢
  simp only [fgets]
  rw [show n + 2 - 1 = n + 1 from rfl, h]
  rfl

theorem loadLoop_replicate (n : Nat) (st : LoadState) (hn : MAX_LINE_LEN = n + 2) :
    loadLoop (n + 2) (List.replicate (n + 2) 97) st =
      loadLine [97] (loadLine (List.replicate (n + 1) 97) st) := by
  have hread2 : fgets MAX_LINE_LEN [97] = some ([97], []) := by
    rw [hn]; simp [fgets, fgetsLoop, LF, fgetsLoop_nil]
  rw [loadLoop_succ, hn, fgets_replicate]
  simp only []
  rw [loadLoop_succ, hread2]
  cases n <;> simp [loadLoop, fgets]

/-- C1 fails as stated: a stream that is one header line of 8192 bytes and no
data line (N = 0) is read by `fgets` in two parts, and the table gets one row. -/
theorem long_header_gives_row :
    streamLines longLine = [longLine] ∧
    (loadPadded (fun _ _ => Cell.null) longLine).rowCount = 1 := by
  refine ⟨streamLines_replicate 8191, ?_⟩
  have hlen : longLine.length = 8190 + 2 := List.length_replicate _ _
  have hloop := loadLoop_replicate 8190
    { lineIndex := 0, colCount := 0, rows := [], t := initTable } rfl
  simp only [loadPadded, pad_rows_rowCount, load_tsv, hlen]
  rw [show longLine = List.replicate (8190 + 2) 97 from rfl, hloop]
  rw [if_neg (by rw [loadLine_lineIndex]; exact Nat.succ_ne_zero _)]
  simp only [loadLine_rowCount, loadLine_lineIndex]
  rfl

/-- C2 (amended): for every input line whose content before its trailing line
terminators holds no CR, LF or NUL byte, `split_tsv_line` returns exactly the
tab-separated fields of the line with its trailing terminators (LF, CR-LF)
removed: the returned cells joined with a tab give the stripped line, and the
field count is the number of tabs in the stripped line plus one. -/
theorem split_tsv_line_fields (line : List Nat)
    (h : ∀ b ∈ stripTerminators line, b ≠ NUL ∧ b ≠ LF ∧ b ≠ CR) :
    ∃ fields : List (List Nat),
      (split_tsv_line line).1 = fields.map Cell.str ∧
      joinTab fields = stripTerminators line ∧
      fields.length = (split_tsv_line line).2 ∧
      (split_tsv_line line).2 = (stripTerminators line).count TAB + 1 := by
  refine ⟨fieldsFrom [] (stripTerminators line), ?_, ?_, ?_, ?_⟩
  · rw [split_tsv_line_eq, takeWhile_scanned_eq_strip line h]
  · rw [joinTab_fieldsFrom]; rfl
  · rw [split_tsv_line_eq, takeWhile_scanned_eq_strip line h, length_fieldsFrom]
  · rw [split_tsv_line_eq, takeWhile_scanned_eq_strip line h]

/-- Instance of `split_tsv_line_fields`: a CR-LF terminated line of two fields. -/
theorem split_tsv_line_fields_witness :
    (∀ b ∈ stripTerminators (lit "Name\tAge\r\n"), b ≠ NUL ∧ b ≠ LF ∧ b ≠ CR) ∧
    ∃ fields : List (List Nat),
      (split_tsv_line (lit "Name\tAge\r\n")).1 = fields.map Cell.str ∧
      joinTab fields = stripTerminators (lit "Name\tAge\r\n") ∧
      fields.length = (split_tsv_line (lit "Name\tAge\r\n")).2 ∧
      (split_tsv_line (lit "Name\tAge\r\n")).2 =
        (stripTerminators (lit "Name\tAge\r\n")).count TAB + 1 :=
  ⟨by decide, split_tsv_line_fields (lit "Name\tAge\r\n") (by decide)⟩

/-- C2 fails as stated: on the line `"a\rb\tc\n"` the scan ends at the CR in the
middle, so one cell `"a"` is returned although the stripped line `"a\rb\tc"`
holds a tab. -/
theorem split_tsv_line_stops_at_cr :
    stripTerminators (lit "a\rb\tc\n") = lit "a\rb\tc" ∧
    split_tsv_line (lit "a\rb\tc\n") = ([Cell.str (lit "a")], 1) ∧
    (split_tsv_line (lit "a\rb\tc\n")).2 ≠ (stripTerminators (lit "a\rb\tc\n")).count TAB + 1 := by
  decide

/-- C3 fails on the code: with the header `"a"` and the data line `"b\tc"`,
and a non-null bit pattern in the unwritten slot 1 of the header block, the
test `t->headers[c] == NULL` is false and the slot keeps that pattern; the
claim asks for the string `"Col 2"`. -/
theorem pad_rows_keeps_unwritten_header :
    (loadPadded (fun _ _ => Cell.wild 1) (lit "a\nb\tc\n")).colCount = 2 ∧
    (split_tsv_line (lit "a\n")).2 = 1 ∧
    (loadPadded (fun _ _ => Cell.wild 1) (lit "a\nb\tc\n")).headers =
      [Cell.str (lit "a"), Cell.wild 1] ∧
    (loadPadded (fun _ _ => Cell.wild 1) (lit "a\nb\tc\n")).headers.get? 1 ≠
      some (Cell.str (lit "Col " ++ (Nat.toDigits 10 2).map Char.toNat)) := by
  decide

theorem loadLoop_lineIndex (fuel : Nat) : ∀ (f : List Nat) (st : LoadState),
    st.lineIndex ≤ (loadLoop fuel f st).lineIndex := by
  induction fuel with
  | zero => intro f st; simp [loadLoop]
  | succ fuel ih =>
    intro f st
    rw [loadLoop_succ]
    cases hf : fgets MAX_LINE_LEN f with
    | none => simp
    | some p =>
      obtain ⟨buf, rest⟩ := p
      simp only []
      have hstep := loadLine_lineIndex buf st
      exact le_trans (by omega) (ih rest (loadLine buf st))

theorem load_tsv_false_iff (f : List Nat) (t : Table) : (load_tsv f t).1 = false ↔ f = [] := by
  cases f with
  | nil => simp [load_tsv, loadLoop]
  | cons b rest =>
    have h : 1 ≤ (loadLoop (b :: rest).length (b :: rest)
        { lineIndex := 0, colCount := 0, rows := [], t := t }).lineIndex := by
      rw [List.length_cons, loadLoop_succ]
      simp only [fgets]
      have hstep := loadLine_lineIndex (fgetsLoop (MAX_LINE_LEN - 1) (b :: rest)).1
        { lineIndex := 0, colCount := 0, rows := [], t := t }
      exact le_trans (by omega) (loadLoop_lineIndex _ _ _)
    simp only [load_tsv]
    rw [if_neg (by omega)]
    simp

/-- C4: `load_tsv` returns false exactly when the input stream yields no line
(so a stream of a single blank line or of ragged lines is accepted), and
`main` returns the failure code 1, with its diagnostic and before `InitWindow`
or any table content, exactly in that case. -/
theorem load_tsv_fails_iff_no_line (uninit : Nat → Nat → Cell) (f : List Nat) (t : Table) :
    ((load_tsv f t).1 = false ↔ streamLines f = []) ∧
    ((load_tsv f t).1 = true ↔ streamLines f ≠ []) ∧
    (main_startup uninit f = Startup.exit 1 (lit "No TSV data on stdin.\n") ↔
      streamLines f = []) ∧
    ((∃ code err, main_startup uninit f = Startup.exit code err) ↔ streamLines f = []) ∧
    (load_tsv [LF] t).1 = true := by
  have h1 := load_tsv_false_iff f t
  have h2 := load_tsv_false_iff f initTable
  have h3 := streamLines_eq_nil f
  refine ⟨h1.trans h3.symm, ?_, ?_, ?_, ?_⟩
  · rw [Ne, h3, ← h1]; simp
  · rw [h3, ← h2]
    unfold main_startup
    by_cases h : (load_tsv f initTable).1 = false
    · simp [h]
    · simp only [h, if_false, iff_false]
      cases copy_original (pad_rows uninit (load_tsv f initTable).2) <;> simp
  · rw [h3, ← h2]
    unfold main_startup
    by_cases h : (load_tsv f initTable).1 = false
    · simp [h]
    · simp only [h, if_false, iff_false]
      cases copy_original (pad_rows uninit (load_tsv f initTable).2) <;> simp
  · have := load_tsv_false_iff [LF] t
    simp at this
    exact this

/-! ## Header padding: proofs -/

theorem getElem?_foldl_name (k : Nat) : ∀ (a : Nat) (L : List Cell) (i : Nat),
    ((List.range' a k).foldl
      (fun hs c => if hs.get? c = some Cell.null then hs.set c (Cell.str (colName c)) else hs) L)[i]? =
      if a ≤ i ∧ i < a + k ∧ L[i]? = some Cell.null then some (Cell.str (colName i)) else L[i]? := by
  induction k with
  | zero =>
    intro a L i
    have : ¬ (a ≤ i ∧ i < a + 0 ∧ L[i]? = some Cell.null) := by omega
    rw [if_neg this]; rfl
  | succ k ih =>
    intro a L i
    rw [List.range'_succ, List.foldl_cons, ih]
    by_cases hnull : L.get? a = some Cell.null
    · rw [if_pos hnull]
      have hlt : a < L.length := by
        by_contra hge
        rw [List.get?_eq_getElem?, List.getElem?_eq_none (Nat.not_lt.mp hge)] at hnull
        cases hnull
      rw [List.get?_eq_getElem?] at hnull
      by_cases h1 : a = i
      · subst h1
        have h2 : ¬ (a + 1 ≤ a ∧ a < a + 1 + k ∧ (L.set a (Cell.str (colName a)))[a]? = some Cell.null) := by omega
        have h3 : a ≤ a ∧ a < a + (k + 1) ∧ L[a]? = some Cell.null := ⟨le_refl _, by omega, hnull⟩
        rw [if_neg h2, if_pos h3]
        simp [hlt]
      · have hset : (L.set a (Cell.str (colName a)))[i]? = L[i]? := by
          rw [List.getElem?_set]; simp [h1]
        rw [hset]
        by_cases h3 : a ≤ i ∧ i < a + (k + 1) ∧ L[i]? = some Cell.null
        · have : a + 1 ≤ i ∧ i < a + 1 + k ∧ L[i]? = some Cell.null := ⟨by omega, by omega, h3.2.2⟩
          rw [if_pos this, if_pos h3]
        · have : ¬ (a + 1 ≤ i ∧ i < a + 1 + k ∧ L[i]? = some Cell.null) := by
            intro h; exact h3 ⟨by omega, by omega, h.2.2⟩
          rw [if_neg this, if_neg h3]
    · rw [if_neg hnull]
      rw [List.get?_eq_getElem?] at hnull
      by_cases h3 : a ≤ i ∧ i < a + (k + 1) ∧ L[i]? = some Cell.null
      · have hne : a ≠ i := by
          intro h; subst h; exact hnull h3.2.2
        have : a + 1 ≤ i ∧ i < a + 1 + k ∧ L[i]? = some Cell.null := ⟨by omega, by omega, h3.2.2⟩
        rw [if_pos this, if_pos h3]
      · have : ¬ (a + 1 ≤ i ∧ i < a + 1 + k ∧ L[i]? = some Cell.null) := by
          intro h; exact h3 ⟨by omega, by omega, h.2.2⟩
        rw [if_neg this, if_neg h3]

/-- Slot `i` of the header block after `pad_rows`: a written slot keeps its
value unless it is NULL, an unwritten slot shows what the memory held, and
only a slot that reads as NULL gets the name `"Col N"`. -/
theorem getElem?_padHeaders (junk : Nat → Cell) (n : Nat) (headers : List Cell) (i : Nat)
    (hi : i < n) :
    (padHeaders junk n headers)[i]? =
      if (headers.get? i).getD (junk i) = Cell.null then some (Cell.str (colName i))
      else some ((headers.get? i).getD (junk i)) := by
  unfold padHeaders
  rw [List.range_eq_range', getElem?_foldl_name, getElem?_realloc, if_pos hi]
  by_cases h : (headers.get? i).getD (junk i) = Cell.null
  · rw [if_pos ⟨Nat.zero_le _, by omega, by rw [h]⟩, if_pos h]
  · rw [if_neg (fun hh => h (Option.some.inj hh.2.2)), if_neg h]

theorem length_padHeaders (junk : Nat → Cell) (n : Nat) (headers : List Cell) :
    (padHeaders junk n headers).length = n := by
  unfold padHeaders
  have : ∀ (xs : List Nat) (L : List Cell),
      (xs.foldl (fun hs c => if hs.get? c = some Cell.null then hs.set c (Cell.str (colName c)) else hs) L).length
        = L.length := by
    intro xs
    induction xs with
    | nil => intro L; rfl
    | cons x xs ih =>
      intro L
      rw [List.foldl_cons, ih]
      split <;> simp
  rw [this, length_realloc]

/-- What `pad_rows` makes of the headers, for a stream whose lines fit the
buffer: the block has `colCount` slots, the header line's fields come first,
and a slot past them holds `"Col N"` if the unwritten memory reads as NULL and
keeps the memory's content otherwise. -/
theorem loadPadded_headers (uninit : Nat → Nat → Cell) (f header : List Nat)
    (data : List (List Nat)) (hs : streamLines f = header :: data)
    (hl : ∀ l ∈ header :: data, l.length < MAX_LINE_LEN) :
    (loadPadded uninit f).headers.length = (loadPadded uninit f).colCount ∧
    (∀ c, c < fieldCount header →
      (loadPadded uninit f).headers[c]? = (split_tsv_line header).1[c]?) ∧
    (∀ c, fieldCount header ≤ c → c < (loadPadded uninit f).colCount →
      (loadPadded uninit f).headers[c]? =
        some (if uninit 0 c = Cell.null then Cell.str (colName c) else uninit 0 c)) := by
  have hcol : (loadPadded uninit f).colCount = maxFieldCount (header :: data) :=
    (loadPadded_lines uninit f header data hs hl).2.2
  have hk : fieldCount header ≤ maxFieldCount (header :: data) :=
    fieldCount_le_max _ _ (List.mem_cons_self _ _)
  obtain ⟨hlen, htext⟩ := split_tsv_line_cells header
  have hhead : (loadPadded uninit f).headers =
      padHeaders (uninit 0) (maxFieldCount (header :: data)) (split_tsv_line header).1 := by
    unfold loadPadded
    rw [load_tsv_lines f header data initTable hs hl]
    rfl
  rw [hhead, hcol]
  refine ⟨length_padHeaders _ _ _, ?_, ?_⟩
  · intro c hc
    have hc' : c < (split_tsv_line header).1.length := by rw [hlen]; exact hc
    rw [getElem?_padHeaders _ _ _ _ (lt_of_lt_of_le hc hk)]
    have hget : (split_tsv_line header).1.get? c = some ((split_tsv_line header).1[c]) := by
      rw [List.get?_eq_getElem?, List.getElem?_eq_getElem hc']
    have hne : (split_tsv_line header).1[c] ≠ Cell.null := by
      intro h
      have := htext _ (List.getElem_mem hc')
      rw [h] at this
      simp [Cell.isText] at this
    rw [hget, Option.getD_some, if_neg hne, List.getElem?_eq_getElem hc']
  · intro c hc hc2
    have hc' : (split_tsv_line header).1.length ≤ c := by rw [hlen]; exact hc
    rw [getElem?_padHeaders _ _ _ _ hc2]
    have hget : (split_tsv_line header).1.get? c = none := by
      rw [List.get?_eq_getElem?, List.getElem?_eq_none hc']
    rw [hget, Option.getD_none]
    split <;> rfl

/-! ## Sort engine: proofs -/

theorem strcmp_antisymm (a : List Nat) : ∀ b, strcmp b a = -(strcmp a b) := by
  induction a with
  | nil =>
    intro b
    cases b with
    | nil => simp [strcmp]
    | cons y ys => simp [strcmp]
  | cons x xs ih =>
    intro b
    cases b with
    | nil => simp [strcmp]
    | cons y ys =>
      by_cases h : x = y
      · subst h; simp [strcmp, ih]
      · have h' : ¬ y = x := fun e => h e.symm
        simp [strcmp, h, h']

theorem strcmp_le_iff (a : List Nat) (ha : NUL ∉ a) : ∀ b, strcmp a b ≤ 0 ↔ lexLe a b = true := by
  induction a with
  | nil =>
    intro b
    cases b with
    | nil => simp [strcmp, lexLe]
    | cons y ys => simp [strcmp, lexLe, NUL]
  | cons x xs ih =>
    intro b
    have hx : x ≠ 0 := by
      intro h; apply ha; simp [NUL, h]
    have hxs : NUL ∉ xs := fun h => ha (List.mem_cons_of_mem _ h)
    cases b with
    | nil =>
      simp only [strcmp, lexLe, NUL]
      constructor
      · intro h; omega
      · intro h; cases h
    | cons y ys =>
      by_cases h : x = y
      · subst h; simp [strcmp, lexLe, ih hxs]
      · simp only [strcmp, lexLe, h, if_false, decide_False, Bool.false_and, Bool.or_false,
          decide_eq_true_eq]
        omega

theorem strcmp_eq_zero (a : List Nat) (ha : NUL ∉ a) : ∀ b, NUL ∉ b → strcmp a b = 0 → a = b := by
  induction a with
  | nil =>
    intro b hb h
    cases b with
    | nil => rfl
    | cons y ys =>
      have hy : y ≠ 0 := by intro e; apply hb; simp [NUL, e]
      simp only [strcmp, NUL] at h
      omega
  | cons x xs ih =>
    intro b hb h
    have hx : x ≠ 0 := by intro e; apply ha; simp [NUL, e]
    have hxs : NUL ∉ xs := fun h => ha (List.mem_cons_of_mem _ h)
    cases b with
    | nil => simp only [strcmp, NUL] at h; omega
    | cons y ys =>
      have hys : NUL ∉ ys := fun h => hb (List.mem_cons_of_mem _ h)
      by_cases hxy : x = y
      · subst hxy
        simp only [strcmp, if_true] at h
        rw [ih hxs ys hys h]
      · simp only [strcmp, hxy, if_false] at h
        omega

theorem lexLe_trans (a : List Nat) : ∀ b c, lexLe a b = true → lexLe b c = true → lexLe a c = true := by
  induction a with
  | nil => intro b c _ _; simp [lexLe]
  | cons x xs ih =>
    intro b c hab hbc
    cases b with
    | nil => simp [lexLe] at hab
    | cons y ys =>
      cases c with
      | nil => simp [lexLe] at hbc
      | cons z zs =>
        simp only [lexLe, Bool.or_eq_true, Bool.and_eq_true, decide_eq_true_eq] at hab hbc ⊢
        rcases hab with h1 | ⟨h1, h2⟩
        · rcases hbc with h3 | ⟨h3, _⟩
          · exact Or.inl (by omega)
          · exact Or.inl (by omega)
        · rcases hbc with h3 | ⟨h3, h4⟩
          · exact Or.inl (by omega)
          · exact Or.inr ⟨by omega, ih ys zs h2 h4⟩

theorem strcmp_trans (a b c : List Nat) (ha : NUL ∉ a) (hb : NUL ∉ b)
    (h1 : strcmp a b ≤ 0) (h2 : strcmp b c ≤ 0) : strcmp a c ≤ 0 :=
  (strcmp_le_iff a ha c).2
    (lexLe_trans a b c ((strcmp_le_iff a ha b).1 h1) ((strcmp_le_iff b hb c).1 h2))

theorem perm_insertRow (cmp : Row → Row → Option Int) (a : Row) :
    ∀ l, (insertRow cmp a l).Perm (a :: l) := by
  intro l
  induction l with
  | nil => exact List.Perm.refl _
  | cons b l ih =>
    unfold insertRow
    cases h : cmp a b with
    | none => exact List.Perm.refl _
    | some v =>
      simp only []
      by_cases hv : v ≤ 0
      · rw [if_pos hv]
      · rw [if_neg hv]
        exact (List.Perm.cons b ih).trans (List.Perm.swap a b l)

theorem perm_insertionQsort (cmp : Row → Row → Option Int) :
    ∀ xs, (insertionQsort cmp xs).Perm xs := by
  intro xs
  induction xs with
  | nil => exact List.Perm.refl _
  | cons a xs ih =>
    exact (perm_insertRow cmp a _).trans (List.Perm.cons a ih)

theorem pairwise_insertRow (cmp : Row → Row → Option Int) (xs : List Row)
    (hc : Consistent cmp xs) (a : Row) (ha : a ∈ xs) :
    ∀ l, (∀ x ∈ l, x ∈ xs) → l.Pairwise (InOrder cmp) → (insertRow cmp a l).Pairwise (InOrder cmp) := by
  intro l
  induction l with
  | nil => intro _ _; simp [insertRow]
  | cons b l ih =>
    intro hl hp
    have hb : b ∈ xs := hl b (List.mem_cons_self _ _)
    have hl' : ∀ x ∈ l, x ∈ xs := fun x hx => hl x (List.mem_cons_of_mem _ hx)
    obtain ⟨hbl, hpl⟩ := List.pairwise_cons.mp hp
    obtain ⟨v, hv⟩ := hc.defined a ha b hb
    unfold insertRow
    rw [hv]
    simp only []
    by_cases hle : v ≤ 0
    · rw [if_pos hle]
      refine List.pairwise_cons.mpr ⟨?_, hp⟩
      intro x hx
      rcases List.mem_cons.mp hx with h | h
      · subst h; exact ⟨v, hv, hle⟩
      · obtain ⟨w, hw, hwle⟩ := hbl x h
        obtain ⟨u, hu⟩ := hc.defined a ha x (hl' x h)
        exact ⟨u, hu, hc.trans a ha b hb x (hl' x h) v w u hv hw hu hle hwle⟩
    · rw [if_neg hle]
      refine List.pairwise_cons.mpr ⟨?_, ih hl' hpl⟩
      intro x hx
      rcases List.mem_cons.mp ((perm_insertRow cmp a l).subset hx) with h | h
      · subst h
        obtain ⟨u, hu⟩ := hc.defined b hb x ha
        have := hc.antisymm b hb x ha u v hu hv
        exact ⟨u, hu, le_of_lt (this.2 (by omega))⟩
      · exact hbl x h

theorem consistent_of_subset (cmp : Row → Row → Option Int) (xs ys : List Row)
    (hc : Consistent cmp xs) (h : ∀ y ∈ ys, y ∈ xs) : Consistent cmp ys :=
  { defined := fun a ha b hb => hc.defined a (h a ha) b (h b hb)
    antisymm := fun a ha b hb => hc.antisymm a (h a ha) b (h b hb)
    trans := fun a ha b hb c hcm => hc.trans a (h a ha) b (h b hb) c (h c hcm) }

theorem pairwise_insertionQsort (cmp : Row → Row → Option Int) :
    ∀ xs, Consistent cmp xs → (insertionQsort cmp xs).Pairwise (InOrder cmp) := by
  intro xs
  induction xs with
  | nil => intro _; exact List.Pairwise.nil
  | cons a xs ih =>
    intro hc
    have hc' : Consistent cmp xs :=
      consistent_of_subset cmp _ _ hc (fun y hy => List.mem_cons_of_mem _ hy)
    exact pairwise_insertRow cmp (a :: xs) hc a (List.mem_cons_self _ _) _
      (fun x hx => List.mem_cons_of_mem _ ((perm_insertionQsort cmp xs).subset hx)) (ih hc')

/-- Insertion sort meets the contract of `qsort`. -/
theorem insertionQsort_spec : QsortSpec insertionQsort :=
  { perm := fun cmp xs _ => perm_insertionQsort cmp xs
    sorted := fun cmp xs hc => pairwise_insertionQsort cmp xs hc }

theorem isText_iff (c : Cell) : c.isText = true ↔ ∃ s, c = Cell.str s ∧ NUL ∉ s := by
  cases c with
  | null => simp [Cell.isText]
  | str s => simp [Cell.isText]
  | wild b => simp [Cell.isText]

/-- In a padded row the comparator's operand at a valid column is the cell's string. -/
theorem sortKey_padded (n c : Nat) (r : Row) (hc : c < n) (hcount : r.cellCount = n)
    (hlen : r.cells.length = n) (htext : ∀ x ∈ r.cells, x.isText = true) :
    ∃ s, r.cells.get? c = some (Cell.str s) ∧ NUL ∉ s ∧ sortKey (c : Int) r = some s := by
  have hlt : c < r.cells.length := by omega
  obtain ⟨s, hs, hnul⟩ := (isText_iff _).1 (htext _ (List.getElem_mem hlt))
  have hget : r.cells.get? c = some (Cell.str s) := by
    rw [List.get?_eq_getElem?, List.getElem?_eq_getElem hlt, hs]
  refine ⟨s, hget, hnul, ?_⟩
  unfold sortKey
  have h1 : (c : Int) < (r.cellCount : Int) := by omega
  have h2 : ¬ ((c : Int) < 0) := by omega
  rw [if_pos h1, if_neg h2, Int.toNat_ofNat, hget]

theorem cmp_rows_global_of_keys (g : Table) (a b : Row) (sa sb : List Nat)
    (ha : sortKey g.sortCol a = some sa) (hb : sortKey g.sortCol b = some sb) :
    cmp_rows_global (some g) a b = some (if g.sortAsc then strcmp sa sb else -(strcmp sa sb)) := by
  simp only [cmp_rows_global, ha, hb]

/-- On padded rows `cmp_rows_global` is a comparator `qsort` may be called with. -/
theorem consistent_cmp_rows_global (g : Table) (n c : Nat) (xs : List Row) (hg : g.sortCol = (c : Int))
    (hc : c < n)
    (hrows : ∀ r ∈ xs, r.cellCount = n ∧ r.cells.length = n ∧ ∀ x ∈ r.cells, x.isText = true) :
    Consistent (cmp_rows_global (some g)) xs := by
  have key : ∀ r ∈ xs, ∃ s, NUL ∉ s ∧ sortKey g.sortCol r = some s := by
    intro r hr
    obtain ⟨h1, h2, h3⟩ := hrows r hr
    obtain ⟨s, _, hs1, hs2⟩ := sortKey_padded n c r hc h1 h2 h3
    exact ⟨s, hs1, by rw [hg]; exact hs2⟩
  constructor
  · intro a ha b hb
    obtain ⟨sa, _, hsa⟩ := key a ha
    obtain ⟨sb, _, hsb⟩ := key b hb
    exact ⟨_, cmp_rows_global_of_keys g a b sa sb hsa hsb⟩
  · intro a ha b hb u v hu hv
    obtain ⟨sa, _, hsa⟩ := key a ha
    obtain ⟨sb, _, hsb⟩ := key b hb
    rw [cmp_rows_global_of_keys g a b sa sb hsa hsb] at hu
    rw [cmp_rows_global_of_keys g b a sb sa hsb hsa, strcmp_antisymm sa sb] at hv
    cases Option.some.inj hu
    cases Option.some.inj hv
    cases g.sortAsc <;> simp
  · intro a ha b hb c' hc' u v w hu hv hw hule hvle
    obtain ⟨sa, hna, hsa⟩ := key a ha
    obtain ⟨sb, hnb, hsb⟩ := key b hb
    obtain ⟨sc, hnc, hsc⟩ := key c' hc'
    rw [cmp_rows_global_of_keys g a b sa sb hsa hsb] at hu
    rw [cmp_rows_global_of_keys g b c' sb sc hsb hsc] at hv
    rw [cmp_rows_global_of_keys g a c' sa sc hsa hsc] at hw
    cases Option.some.inj hu
    cases Option.some.inj hv
    cases Option.some.inj hw
    cases hasc : g.sortAsc
    · simp only [hasc] at hule hvle ⊢
      have h1 : strcmp sb sa ≤ 0 := by rw [strcmp_antisymm sa sb]; simpa using hule
      have h2 : strcmp sc sb ≤ 0 := by rw [strcmp_antisymm sb sc]; simpa using hvle
      have h3 := strcmp_trans sc sb sa hnc hnb h2 h1
      rw [strcmp_antisymm sa sc] at h3
      simpa using h3
    · simp only [hasc] at hule hvle ⊢
      exact strcmp_trans sa sb sc hna hnb hule hvle

/-- `sort_by` on a padded table and a valid column. -/
theorem sort_by_eq (qsort : Qsort) (t : Table) (c : Nat) (hp : Padded t) (hc : c < t.colCount) :
    sort_by qsort t (c : Int) =
      { t with sortCol := (c : Int), sortAsc := nextAsc t c,
               rows := qsort (cmp_rows_global
                 (some { t with sortCol := (c : Int), sortAsc := nextAsc t c })) t.rows } := by
  have h1 : ¬ ((c : Int) < 0 ∨ (c : Int) ≥ (t.colCount : Int)) := by omega
  unfold sort_by
  rw [if_neg h1]
  by_cases h2 : t.sortCol = (c : Int)
  · simp only [h2, if_true, nextAsc]
    rw [← hp.rows_length]
    simp only [List.take_length, List.drop_length, List.append_nil]
  · simp only [h2, if_false, nextAsc]
    rw [← hp.rows_length]
    simp only [List.take_length, List.drop_length, List.append_nil]

theorem exampleTable_padded : Padded exampleTable :=
  { rows_length := by decide
    row_ok := by decide }

theorem padded_of_perm (t : Table) (rows : List Row) (hp : Padded t) (h : rows.Perm t.rows) :
    ∀ r ∈ rows, r.cellCount = t.colCount ∧ r.cells.length = t.colCount ∧
      ∀ x ∈ r.cells, x.isText = true :=
  fun r hr => hp.row_ok r (h.subset hr)

/-- Rows and sort state after `sort_by` on a padded table, for a `qsort` that
meets its contract. -/
theorem sort_by_rows (qsort : Qsort) (hq : QsortSpec qsort) (t : Table) (c : Nat)
    (hp : Padded t) (hc : c < t.colCount) :
    (sort_by qsort t (c : Int)).rows.Perm t.rows ∧
    (sort_by qsort t (c : Int)).rows.Pairwise
      (InOrder (cmp_rows_global (some { t with sortCol := (c : Int), sortAsc := nextAsc t c }))) ∧
    (sort_by qsort t (c : Int)).sortCol = (c : Int) ∧
    (sort_by qsort t (c : Int)).sortAsc = nextAsc t c ∧
    (sort_by qsort t (c : Int)).rowCount = t.rowCount ∧
    (sort_by qsort t (c : Int)).colCount = t.colCount := by
  have hcons : Consistent
      (cmp_rows_global (some { t with sortCol := (c : Int), sortAsc := nextAsc t c })) t.rows :=
    consistent_cmp_rows_global _ t.colCount c t.rows rfl hc hp.row_ok
  rw [sort_by_eq qsort t c hp hc]
  exact ⟨hq.perm _ _ hcons, hq.sorted _ _ hcons, rfl, rfl, rfl, rfl⟩

theorem sort_by_padded (qsort : Qsort) (hq : QsortSpec qsort) (t : Table) (c : Nat)
    (hp : Padded t) (hc : c < t.colCount) : Padded (sort_by qsort t (c : Int)) := by
  obtain ⟨h1, _, _, _, h5, h6⟩ := sort_by_rows qsort hq t c hp hc
  constructor
  · rw [h1.length_eq, h5]; exact hp.rows_length
  · intro r hr
    rw [h6]
    exact hp.row_ok r (h1.subset hr)

/-- What `InOrder` under `cmp_rows_global` says about two padded rows. -/
theorem inOrder_cmp_rows_global (g : Table) (n c : Nat) (a b : Row) (hg : g.sortCol = (c : Int))
    (hc : c < n)
    (ha : a.cellCount = n ∧ a.cells.length = n ∧ ∀ x ∈ a.cells, x.isText = true)
    (hb : b.cellCount = n ∧ b.cells.length = n ∧ ∀ x ∈ b.cells, x.isText = true)
    (h : InOrder (cmp_rows_global (some g)) a b) :
    ∃ sa sb, a.cells.get? c = some (Cell.str sa) ∧ b.cells.get? c = some (Cell.str sb) ∧
      NUL ∉ sa ∧ NUL ∉ sb ∧
      cmp_rows_global (some g) a b = some (if g.sortAsc then strcmp sa sb else -(strcmp sa sb)) ∧
      (if g.sortAsc then strcmp sa sb else -(strcmp sa sb)) ≤ 0 := by
  obtain ⟨sa, hsa, hna, hka⟩ := sortKey_padded n c a hc ha.1 ha.2.1 ha.2.2
  obtain ⟨sb, hsb, hnb, hkb⟩ := sortKey_padded n c b hc hb.1 hb.2.1 hb.2.2
  rw [← hg] at hka hkb
  have hcmp := cmp_rows_global_of_keys g a b sa sb hka hkb
  obtain ⟨v, hv, hle⟩ := h
  rw [hcmp] at hv
  cases Option.some.inj hv
  exact ⟨sa, sb, hsa, hsb, hna, hnb, hcmp, hle⟩

/-- C5: for every padded table and every column `c` with `0 ≤ c < colCount`,
after `sort_by(c)` (over a `qsort` that meets the library contract) the rows are
a permutation of the rows before the call and are ordered by plain
lexicographic byte comparison of their cell at column `c`: non-decreasing when
the resulting `sortAsc` is true, non-increasing when it is false. -/
theorem sort_by_orders_rows (qsort : Qsort) (hq : QsortSpec qsort) (t : Table) (c : Nat)
    (hp : Padded t) (hc : c < t.colCount) :
    (sort_by qsort t (c : Int)).rows.Perm t.rows ∧
    ((sort_by qsort t (c : Int)).sortAsc = true →
      (sort_by qsort t (c : Int)).rows.Pairwise (fun a b => CellLe c a b)) ∧
    ((sort_by qsort t (c : Int)).sortAsc = false →
      (sort_by qsort t (c : Int)).rows.Pairwise (fun a b => CellLe c b a)) := by
  obtain ⟨h1, h2, _, h4, _, _⟩ := sort_by_rows qsort hq t c hp hc
  have hrows := padded_of_perm t _ hp h1
  refine ⟨h1, ?_, ?_⟩
  · intro hasc
    rw [h4] at hasc
    refine h2.imp_of_mem ?_
    intro a b ha hb hab
    obtain ⟨sa, sb, e1, e2, n1, _, _, hle⟩ :=
      inOrder_cmp_rows_global _ t.colCount c a b rfl hc (hrows a ha) (hrows b hb) hab
    simp only [hasc, if_true] at hle
    exact ⟨sa, sb, e1, e2, (strcmp_le_iff sa n1 sb).1 hle⟩
  · intro hasc
    rw [h4] at hasc
    refine h2.imp_of_mem ?_
    intro a b ha hb hab
    obtain ⟨sa, sb, e1, e2, _, n2, _, hle⟩ :=
      inOrder_cmp_rows_global _ t.colCount c a b rfl hc (hrows a ha) (hrows b hb) hab
    simp only [hasc] at hle
    have hle' : strcmp sb sa ≤ 0 := by
      rw [strcmp_antisymm sa sb]; simpa using hle
    exact ⟨sb, sa, e2, e1, (strcmp_le_iff sb n2 sa).1 hle'⟩

/-- Instance of `sort_by_orders_rows`: the example table sorted on column 0
with insertion sort; Alice comes before Bob. -/
theorem sort_by_orders_rows_witness :
    QsortSpec insertionQsort ∧ Padded exampleTable ∧ 0 < exampleTable.colCount ∧
    (sort_by insertionQsort exampleTable ((0 : Nat) : Int)).rows =
      [{ cells := [Cell.str (lit "Alice"), Cell.str (lit "25")], cellCount := 2 },
       { cells := [Cell.str (lit "Bob"), Cell.str (lit "30")], cellCount := 2 }] ∧
    (sort_by insertionQsort exampleTable ((0 : Nat) : Int)).rows.Perm exampleTable.rows ∧
    ((sort_by insertionQsort exampleTable ((0 : Nat) : Int)).sortAsc = true →
      (sort_by insertionQsort exampleTable ((0 : Nat) : Int)).rows.Pairwise
        (fun a b => CellLe 0 a b)) :=
  have h := sort_by_orders_rows insertionQsort insertionQsort_spec exampleTable 0
    exampleTable_padded (by decide)
  ⟨insertionQsort_spec, exampleTable_padded, by decide, by decide, h.1, h.2.1⟩

/-- C6: for every table and every column `c` with `0 ≤ c < colCount`, after
`sort_by(c)` the field `sortCol` equals `c`; `sortAsc` is the negation of its
previous value when the previous `sortCol` was already `c`, and true otherwise. -/
theorem sort_by_sort_state (qsort : Qsort) (t : Table) (c : Int) (h0 : 0 ≤ c)
    (h1 : c < (t.colCount : Int)) :
    (sort_by qsort t c).sortCol = c ∧
    (t.sortCol = c → (sort_by qsort t c).sortAsc = !t.sortAsc) ∧
    (t.sortCol ≠ c → (sort_by qsort t c).sortAsc = true) := by
  have hguard : ¬ (c < 0 ∨ c ≥ (t.colCount : Int)) := by omega
  unfold sort_by
  rw [if_neg hguard]
  by_cases h : t.sortCol = c
  · simp [h]
  · simp [h]

/-- Instance of `sort_by_sort_state`: the example table, column 1, no active sort. -/
theorem sort_by_sort_state_witness :
    (0 : Int) ≤ 1 ∧ (1 : Int) < (exampleTable.colCount : Int) ∧
    (sort_by insertionQsort exampleTable 1).sortCol = 1 ∧
    (exampleTable.sortCol = 1 → (sort_by insertionQsort exampleTable 1).sortAsc = !exampleTable.sortAsc) ∧
    (exampleTable.sortCol ≠ 1 → (sort_by insertionQsort exampleTable 1).sortAsc = true) :=
  ⟨by decide, by decide, sort_by_sort_state insertionQsort exampleTable 1 (by decide) (by decide)⟩

theorem cmp_rows_global_swap (g : Table) (a b : Row) (u : Int)
    (h : cmp_rows_global (some g) a b = some u) : cmp_rows_global (some g) b a = some (-u) := by
  simp only [cmp_rows_global] at h ⊢
  cases ha : sortKey g.sortCol a with
  | none => simp [ha] at h
  | some sa =>
    cases hb : sortKey g.sortCol b with
    | none => simp [ha, hb] at h
    | some sb =>
      simp only [ha, hb, Option.some.injEq] at h ⊢
      rw [← h, strcmp_antisymm sa sb]
      cases g.sortAsc <;> simp

/-- Two arrangements of the same padded rows with distinct keys that are both
in the order of `cmp_rows_global` are equal. -/
theorem sorted_unique (g : Table) (n c : Nat) (l1 l2 : List Row) (hg : g.sortCol = (c : Int))
    (hc : c < n)
    (hrows : ∀ r ∈ l1, r.cellCount = n ∧ r.cells.length = n ∧ ∀ x ∈ r.cells, x.isText = true)
    (hperm : l1.Perm l2) (hd : (l1.map (fun r => r.cells.get? c)).Nodup)
    (h1 : l1.Pairwise (InOrder (cmp_rows_global (some g))))
    (h2 : l2.Pairwise (InOrder (cmp_rows_global (some g)))) : l1 = l2 := by
  haveI : IsAntisymm Row (Before (cmp_rows_global (some g))) :=
    ⟨fun a b hab hba => by
      obtain ⟨u, hu, hlt⟩ := hab
      obtain ⟨v, hv, hlt'⟩ := hba
      rw [cmp_rows_global_swap g a b u hu] at hv
      cases Option.some.inj hv
      omega⟩
  have strict : ∀ l : List Row, (∀ r ∈ l, r ∈ l1) → (l.map (fun r => r.cells.get? c)).Nodup →
      l.Pairwise (InOrder (cmp_rows_global (some g))) →
      l.Pairwise (Before (cmp_rows_global (some g))) := by
    intro l hsub hnd hord
    have hne : l.Pairwise (fun a b => a.cells.get? c ≠ b.cells.get? c) :=
      List.pairwise_map.mp hnd
    refine (hord.and hne).imp_of_mem ?_
    intro a b ha hb hab
    obtain ⟨sa, sb, e1, e2, n1, n2, hcmp, hle⟩ :=
      inOrder_cmp_rows_global g n c a b hg hc (hrows a (hsub a ha)) (hrows b (hsub b hb)) hab.1
    refine ⟨_, hcmp, lt_of_le_of_ne hle ?_⟩
    intro hzero
    have hz : strcmp sa sb = 0 := by
      cases hasc : g.sortAsc <;> simp [hasc] at hzero <;> exact hzero
    apply hab.2
    rw [e1, e2, strcmp_eq_zero sa n1 sb n2 hz]
  have hd2 : (l2.map (fun r => r.cells.get? c)).Nodup :=
    (List.Perm.nodup_iff (hperm.map _)).1 hd
  exact List.eq_of_perm_of_sorted hperm (strict l1 (fun r hr => hr) hd h1)
    (strict l2 (fun r hr => hperm.symm.subset hr) hd2 h2)

theorem nextAsc_sort_by (qsort : Qsort) (hq : QsortSpec qsort) (t : Table) (c : Nat)
    (hp : Padded t) (hc : c < t.colCount) :
    nextAsc (sort_by qsort t (c : Int)) c = !(nextAsc t c) := by
  obtain ⟨_, _, h3, h4, _, _⟩ := sort_by_rows qsort hq t c hp hc
  simp [nextAsc, h3, h4]

/-- C7: for every padded table whose rows have pairwise distinct keys in
column `c`, calling `sort_by(c)` twice in a row (over a `qsort` that meets the
library contract) yields, after the second call, exactly the reverse of the row
order obtained after the first call. -/
theorem sort_by_twice_reverses (qsort : Qsort) (hq : QsortSpec qsort) (t : Table) (c : Nat)
    (hp : Padded t) (hc : c < t.colCount)
    (hd : (t.rows.map (fun r => r.cells.get? c)).Nodup) :
    (sort_by qsort (sort_by qsort t (c : Int)) (c : Int)).rows =
      (sort_by qsort t (c : Int)).rows.reverse := by
  obtain ⟨p1, o1, sc1, sa1, _, cc1⟩ := sort_by_rows qsort hq t c hp hc
  have hp1 : Padded (sort_by qsort t (c : Int)) := sort_by_padded qsort hq t c hp hc
  have hc1 : c < (sort_by qsort t (c : Int)).colCount := by rw [cc1]; exact hc
  obtain ⟨p2, o2, _, _, _, _⟩ := sort_by_rows qsort hq (sort_by qsort t (c : Int)) c hp1 hc1
  have hflip := nextAsc_sort_by qsort hq t c hp hc
  have hrows1 : ∀ r ∈ (sort_by qsort t (c : Int)).rows,
      r.cellCount = t.colCount ∧ r.cells.length = t.colCount ∧ ∀ x ∈ r.cells, x.isText = true :=
    padded_of_perm t _ hp p1
  have hrev : (sort_by qsort t (c : Int)).rows.reverse.Pairwise
      (InOrder (cmp_rows_global (some { sort_by qsort t (c : Int) with
        sortCol := (c : Int), sortAsc := nextAsc (sort_by qsort t (c : Int)) c }))) := by
    rw [List.pairwise_reverse]
    refine o1.imp_of_mem ?_
    intro a b ha hb hab
    obtain ⟨sa, sb, e1, e2, n1, n2, hcmp, hle⟩ :=
      inOrder_cmp_rows_global _ t.colCount c a b rfl hc (hrows1 a ha) (hrows1 b hb) hab
    have hswap := cmp_rows_global_swap _ a b _ hcmp
    obtain ⟨ka, _, _, hka⟩ := sortKey_padded t.colCount c a hc (hrows1 a ha).1 (hrows1 a ha).2.1
      (hrows1 a ha).2.2
    obtain ⟨kb, _, _, hkb⟩ := sortKey_padded t.colCount c b hc (hrows1 b hb).1 (hrows1 b hb).2.1
      (hrows1 b hb).2.2
    have hcmp1 := cmp_rows_global_of_keys
      { t with sortCol := (c : Int), sortAsc := nextAsc t c } a b ka kb hka hkb
    have hcmp2 := cmp_rows_global_of_keys
      { sort_by qsort t (c : Int) with
        sortCol := (c : Int), sortAsc := nextAsc (sort_by qsort t (c : Int)) c } b a kb ka hkb hka
    obtain ⟨v, hv, hvle⟩ := hab
    rw [hcmp1] at hv
    cases Option.some.inj hv
    refine ⟨_, hcmp2, ?_⟩
    simp only [hflip] at hvle ⊢
    rw [strcmp_antisymm ka kb]
    cases hasc : nextAsc t c <;> simp [hasc] at hvle ⊢ <;> omega
  have hd1 : ((sort_by qsort t (c : Int)).rows.reverse.map (fun r => r.cells.get? c)).Nodup :=
    (List.Perm.nodup_iff (((List.reverse_perm _).trans p1).map _)).2 hd
  have hperm : (sort_by qsort t (c : Int)).rows.reverse.Perm
      (sort_by qsort (sort_by qsort t (c : Int)) (c : Int)).rows :=
    (List.reverse_perm _).trans p2.symm
  exact (sorted_unique _ t.colCount c _ _ rfl hc
    (fun r hr => hrows1 r (List.mem_reverse.mp hr)) hperm hd1 hrev o2).symm

/-- Instance of `sort_by_twice_reverses`: the example table sorted twice on column 0. -/
theorem sort_by_twice_reverses_witness :
    QsortSpec insertionQsort ∧ Padded exampleTable ∧ 0 < exampleTable.colCount ∧
    (exampleTable.rows.map (fun r => r.cells.get? 0)).Nodup ∧
    (sort_by insertionQsort (sort_by insertionQsort exampleTable ((0 : Nat) : Int))
        ((0 : Nat) : Int)).rows =
      (sort_by insertionQsort exampleTable ((0 : Nat) : Int)).rows.reverse ∧
    (sort_by insertionQsort (sort_by insertionQsort exampleTable ((0 : Nat) : Int))
        ((0 : Nat) : Int)).rows =
      [{ cells := [Cell.str (lit "Bob"), Cell.str (lit "30")], cellCount := 2 },
       { cells := [Cell.str (lit "Alice"), Cell.str (lit "25")], cellCount := 2 }] :=
  ⟨insertionQsort_spec, exampleTable_padded, by decide, by decide,
   sort_by_twice_reverses insertionQsort insertionQsort_spec exampleTable 0 exampleTable_padded
     (by decide) (by decide),
   by decide⟩

/-! ## Snapshot and reset: proofs -/

theorem forEach_ok {α β : Type} (f : α → Except Fault β) (g : α → β) :
    ∀ xs : List α, (∀ x ∈ xs, f x = .ok (g x)) → forEach f xs = .ok (xs.map g) := by
  intro xs
  induction xs with
  | nil => intro _; rfl
  | cons a as ih =>
    intro h
    have h1 := h a (List.mem_cons_self _ _)
    have h2 := ih (fun x hx => h x (List.mem_cons_of_mem _ hx))
    simp only [forEach, h1, h2, List.map_cons]

theorem map_range_getElem {α : Type} (l : List α) (d : α) :
    (List.range l.length).map (fun i => (l.get? i).getD d) = l := by
  apply List.ext_getElem?
  intro i
  by_cases h : i < l.length
  · simp [List.getElem?_map, List.getElem?_range h, List.getElem?_eq_getElem h]
  · have h' : l.length ≤ i := Nat.not_lt.mp h
    rw [List.getElem?_eq_none h', List.getElem?_eq_none (by simpa using h')]

/-- The copy loops return the source rows themselves when these are `rowCount`
rows of `colCount` string cells. -/
theorem copyRows_padded (rows : List Row) (rowCount colCount : Nat) (hlen : rows.length = rowCount)
    (hrows : ∀ r ∈ rows, r.cellCount = colCount ∧ r.cells.length = colCount ∧
      ∀ x ∈ r.cells, x.isText = true) :
    copyRows rows rowCount colCount = .ok rows := by
  unfold copyRows
  have hrow : ∀ i ∈ List.range rowCount,
      copyRow rows colCount i = .ok ((rows.get? i).getD { cells := [], cellCount := 0 }) := by
    intro i hi
    have hi' : i < rows.length := by rw [hlen]; exact List.mem_range.mp hi
    obtain ⟨h1, h2, h3⟩ := hrows _ (List.getElem_mem hi')
    have hread : readRow rows i = .ok rows[i] := by
      simp [readRow, List.getElem?_eq_getElem hi']
    have hcells : forEach (dupCell rows[i].cells) (List.range colCount) =
        .ok ((List.range colCount).map (fun c => (rows[i].cells.get? c).getD Cell.null)) := by
      apply forEach_ok
      intro c hc
      have hc' : c < rows[i].cells.length := by rw [h2]; exact List.mem_range.mp hc
      obtain ⟨s, hs, _⟩ := (isText_iff _).1 (h3 _ (List.getElem_mem hc'))
      simp [dupCell, readCell, List.getElem?_eq_getElem hc', hs, str_dup]
    unfold copyRow
    rw [hread]
    simp only []
    rw [hcells]
    simp only []
    rw [← h2, map_range_getElem, List.get?_eq_getElem?, List.getElem?_eq_getElem hi',
      Option.getD_some]
    congr 1
    cases hr : rows[i]
    rw [hr] at h1 h2
    simp only at h1 h2
    simp [h1, h2]
  rw [forEach_ok _ _ _ hrow, ← hlen, map_range_getElem]

theorem sort_by_keeps (qsort : Qsort) (t : Table) (col : Int) :
    (sort_by qsort t col).original = t.original ∧
    (sort_by qsort t col).rowCount = t.rowCount ∧
    (sort_by qsort t col).colCount = t.colCount := by
  unfold sort_by
  by_cases h : col < 0 ∨ col ≥ (t.colCount : Int)
  · rw [if_pos h]; exact ⟨rfl, rfl, rfl⟩
  · rw [if_neg h]
    by_cases h2 : t.sortCol = col <;> simp [h2]

theorem foldl_sort_by_keeps (qsort : Qsort) (cols : List Int) : ∀ t : Table,
    (cols.foldl (sort_by qsort) t).original = t.original ∧
    (cols.foldl (sort_by qsort) t).rowCount = t.rowCount ∧
    (cols.foldl (sort_by qsort) t).colCount = t.colCount := by
  induction cols with
  | nil => intro t; exact ⟨rfl, rfl, rfl⟩
  | cons c cs ih =>
    intro t
    obtain ⟨h1, h2, h3⟩ := ih (sort_by qsort t c)
    obtain ⟨k1, k2, k3⟩ := sort_by_keeps qsort t c
    rw [List.foldl_cons]
    exact ⟨h1.trans k1, h2.trans k2, h3.trans k3⟩

/-- C8: for every padded table whose snapshot is taken by `copy_original`, and
every finite sequence of `sort_by` calls on arbitrary columns (over any
`qsort`), a following `restore_original` leaves the rows cell for cell equal
to, and in the order of, the rows at load time, with `sortCol = -1` and
`sortAsc = true`. -/
theorem restore_original_after_sorts (qsort : Qsort) (t : Table) (cols : List Int) (now : ℚ)
    (hp : Padded t) :
    ∃ t0 t1, copy_original t = .ok t0 ∧
      restore_original now (cols.foldl (sort_by qsort) t0) = .ok t1 ∧
      t1.rows = t.rows ∧ t1.sortCol = -1 ∧ t1.sortAsc = true ∧ t1.original = t.rows := by
  have hcopy : copyRows t.rows t.rowCount t.colCount = .ok t.rows :=
    copyRows_padded t.rows t.rowCount t.colCount hp.rows_length hp.row_ok
  obtain ⟨k1, k2, k3⟩ := foldl_sort_by_keeps qsort cols { t with original := t.rows }
  have hrest : copyRows (cols.foldl (sort_by qsort) { t with original := t.rows }).original
      (cols.foldl (sort_by qsort) { t with original := t.rows }).rowCount
      (cols.foldl (sort_by qsort) { t with original := t.rows }).colCount = .ok t.rows := by
    rw [k1, k2, k3]; exact hcopy
  refine ⟨{ t with original := t.rows },
    { cols.foldl (sort_by qsort) { t with original := t.rows } with
      rows := t.rows, sortCol := -1, sortAsc := true,
      message := (lit "Sort reset").take 255, messageUntil := now + 6 / 5 }, ?_, ?_, rfl, rfl, rfl, k1⟩
  · simp only [copy_original, hcopy]
  · simp only [restore_original, hrest]

/-- Instance of `restore_original_after_sorts`: the example table sorted on
columns 0, 0 and 1 with insertion sort, then reset. -/
theorem restore_original_after_sorts_witness :
    Padded exampleTable ∧
    ∃ t0 t1, copy_original exampleTable = .ok t0 ∧
      restore_original 0 ([0, 0, 1].foldl (sort_by insertionQsort) t0) = .ok t1 ∧
      t1.rows = exampleTable.rows ∧ t1.sortCol = -1 ∧ t1.sortAsc = true ∧
      t1.original = exampleTable.rows :=
  ⟨exampleTable_padded,
   restore_original_after_sorts insertionQsort exampleTable [0, 0, 1] 0 exampleTable_padded⟩

/-! ## Interaction controller: proofs -/

theorem SameGrid.refl (t : Table) : SameGrid t t :=
  ⟨rfl, rfl, rfl, rfl, rfl, rfl, rfl, rfl, rfl, rfl, rfl, rfl, rfl⟩

theorem SameGrid.trans {a b c : Table} (h1 : SameGrid a b) (h2 : SameGrid b c) : SameGrid a c :=
  ⟨h2.headers.trans h1.headers, h2.rows.trans h1.rows, h2.original.trans h1.original,
   h2.rowCount.trans h1.rowCount, h2.colCount.trans h1.colCount, h2.colWidths.trans h1.colWidths,
   h2.sortCol.trans h1.sortCol, h2.sortAsc.trans h1.sortAsc, h2.hoverRow.trans h1.hoverRow,
   h2.hoverCol.trans h1.hoverCol, h2.hoverAlpha.trans h1.hoverAlpha, h2.message.trans h1.message,
   h2.messageUntil.trans h1.messageUntil⟩

theorem sameGrid_scrollStep (t : Table) (fr : Frame) (cW cH : ℚ) :
    SameGrid t (scrollStep t fr cW cH) := by
  exact ⟨rfl, rfl, rfl, rfl, rfl, rfl, rfl, rfl, rfl, rfl, rfl, rfl, rfl⟩

theorem sameGrid_releaseStep (t : Table) (fr : Frame) : SameGrid t (releaseStep t fr) := by
  unfold releaseStep
  split
  · exact ⟨rfl, rfl, rfl, rfl, rfl, rfl, rfl, rfl, rfl, rfl, rfl, rfl, rfl⟩
  · exact SameGrid.refl t

theorem sameGrid_grabH (t t' : Table) (fr : Frame) (cW thumbW : ℚ)
    (h : grabH t fr cW thumbW = .ok t') : SameGrid t t' := by
  unfold grabH at h
  split at h
  · split at h
    · cases h
    · simp only [] at h
      split at h
      · cases h; exact ⟨rfl, rfl, rfl, rfl, rfl, rfl, rfl, rfl, rfl, rfl, rfl, rfl, rfl⟩
      · cases h; exact SameGrid.refl t
  · cases h; exact SameGrid.refl t

theorem sameGrid_grabV (t t' : Table) (fr : Frame) (cH thumbH : ℚ)
    (h : grabV t fr cH thumbH = .ok t') : SameGrid t t' := by
  unfold grabV at h
  split at h
  · split at h
    · cases h
    · simp only [] at h
      split at h
      · cases h; exact ⟨rfl, rfl, rfl, rfl, rfl, rfl, rfl, rfl, rfl, rfl, rfl, rfl, rfl⟩
      · cases h; exact SameGrid.refl t
  · cases h; exact SameGrid.refl t

theorem sameGrid_dragH (t t' : Table) (fr : Frame) (cW thumbW : ℚ)
    (h : dragH t fr cW thumbW = .ok t') : SameGrid t t' := by
  unfold dragH at h
  split at h
  · simp only [] at h
    split at h
    · cases h
    · cases h; exact ⟨rfl, rfl, rfl, rfl, rfl, rfl, rfl, rfl, rfl, rfl, rfl, rfl, rfl⟩
  · cases h; exact SameGrid.refl t

theorem sameGrid_dragV (t t' : Table) (fr : Frame) (cH thumbH : ℚ)
    (h : dragV t fr cH thumbH = .ok t') : SameGrid t t' := by
  unfold dragV at h
  split at h
  · simp only [] at h
    split at h
    · cases h
    · cases h; exact ⟨rfl, rfl, rfl, rfl, rfl, rfl, rfl, rfl, rfl, rfl, rfl, rfl, rfl⟩
  · cases h; exact SameGrid.refl t

/-- A `dragPhase` that completes is the chain of its steps. -/
theorem dragPhase_ok (t t' : Table) (fr : Frame) (h : dragPhase t fr = .ok t') :
    ∃ cW thumbW thumbH t2 t3 t4,
      contentW t = .ok cW ∧
      thumbLen (decide (cW > viewW fr)) (viewW fr) cW = .ok thumbW ∧
      thumbLen (decide (contentH t > viewH fr)) (viewH fr) (contentH t) = .ok thumbH ∧
      grabH (releaseStep (scrollStep t fr cW (contentH t)) fr) fr cW thumbW = .ok t2 ∧
      grabV t2 fr (contentH t) thumbH = .ok t3 ∧
      dragH t3 fr cW thumbW = .ok t4 ∧
      dragV t4 fr (contentH t) thumbH = .ok t' := by
  unfold dragPhase at h
  cases hW : contentW t with
  | error e => rw [hW] at h; cases h
  | ok cW =>
    rw [hW] at h
    simp only [] at h
    cases h1 : thumbLen (decide (cW > viewW fr)) (viewW fr) cW with
    | error e => rw [h1] at h; cases h
    | ok thumbW =>
      rw [h1] at h
      simp only [] at h
      cases h2 : thumbLen (decide (contentH t > viewH fr)) (viewH fr) (contentH t) with
      | error e => rw [h2] at h; cases h
      | ok thumbH =>
        rw [h2] at h
        simp only [] at h
        cases h3 : grabH (releaseStep (scrollStep t fr cW (contentH t)) fr) fr cW thumbW with
        | error e => rw [h3] at h; cases h
        | ok t2 =>
          rw [h3] at h
          simp only [] at h
          cases h4 : grabV t2 fr (contentH t) thumbH with
          | error e => rw [h4] at h; cases h
          | ok t3 =>
            rw [h4] at h
            simp only [] at h
            cases h5 : dragH t3 fr cW thumbW with
            | error e => rw [h5] at h; cases h
            | ok t4 =>
              rw [h5] at h
              simp only [] at h
              refine ⟨cW, thumbW, thumbH, t2, t3, t4, ?_, ?_, ?_, ?_, ?_, ?_, ?_⟩ <;>
                first | rfl | assumption

theorem sameGrid_dragPhase (t t' : Table) (fr : Frame) (h : dragPhase t fr = .ok t') :
    SameGrid t t' := by
  obtain ⟨cW, thumbW, thumbH, t2, t3, t4, _, _, _, h3, h4, h5, h6⟩ := dragPhase_ok t t' fr h
  exact (((((sameGrid_scrollStep t fr cW (contentH t)).trans (sameGrid_releaseStep _ fr)).trans
    (sameGrid_grabH _ _ fr cW thumbW h3)).trans (sameGrid_grabV _ _ fr _ thumbH h4)).trans
    (sameGrid_dragH _ _ fr cW thumbW h5)).trans (sameGrid_dragV _ _ fr _ thumbH h6)

theorem rowScan_some (mouseY startY : ℚ) (n : Nat) : ∀ r0 r,
    rowScan mouseY startY n r0 = some r → r0 ≤ r ∧ r < r0 + n := by
  induction n with
  | zero => intro r0 r h; simp [rowScan] at h
  | succ n ih =>
    intro r0 r h
    unfold rowScan at h
    split at h
    · cases h; omega
    · have := ih (r0 + 1) r h; omega

theorem colScan_some (colWidths : List ℚ) (mouseX : ℚ) (n : Nat) : ∀ c0 cx c,
    colScan colWidths mouseX n c0 cx = .ok (some c) → c0 ≤ c ∧ c < c0 + n := by
  induction n with
  | zero => intro c0 cx c h; simp [colScan] at h
  | succ n ih =>
    intro c0 cx c h
    unfold colScan at h
    split at h
    · cases h
    · split at h
      · cases h; omega
      · have := ih (c0 + 1) _ c h; omega

/-- A hovered cell found by the hover detection has indices inside the grid. -/
theorem hoverScan_range (t : Table) (fr : Frame) (r c : Nat)
    (h : hoverScan t fr = .ok ((r : Int), (c : Int))) : r < t.rowCount ∧ c < t.colCount := by
  unfold hoverScan at h
  split at h
  · split at h
    · cases h
    · rename_i r' hr
      split at h
      · cases h
      · cases h
      · rename_i c' hc'
        simp only [Except.ok.injEq, Prod.mk.injEq, Nat.cast_inj] at h
        obtain ⟨h1, h2⟩ := h
        subst h1 h2
        have := rowScan_some _ _ _ _ _ hr
        have := colScan_some _ _ _ _ _ _ hc'
        omega
  · cases h

theorem headerHit_congr (t t' : Table) (fr : Frame) (h1 : t'.scrollX = t.scrollX)
    (h2 : t'.scrollY = t.scrollY) (h3 : t'.colWidths = t.colWidths) (h4 : t'.colCount = t.colCount) :
    headerHit t' fr = headerHit t fr := by
  unfold headerHit
  rw [h1, h2, h3, h4]

theorem take_message (text : List Nat) :
    ((lit "Copied: " ++ text.take 60).take 199).take 255 = lit "Copied: " ++ text.take 60 := by
  have hlen : (lit "Copied: " ++ text.take 60).length ≤ 68 := by
    have h1 : (lit "Copied: ").length = 8 := by decide
    have h2 : (text.take 60).length ≤ 60 := by simp
    rw [List.length_append, h1]; omega
  have e1 : (lit "Copied: " ++ text.take 60).take 199 = lit "Copied: " ++ text.take 60 :=
    List.take_of_length_le (by omega)
  rw [e1]
  exact List.take_of_length_le (by omega)

/-- The table after hover detection and hover fade when the scan gives `(r, c)`. -/
theorem hoverStep_of_scan (t : Table) (fr : Frame) (r c : Int)
    (h : hoverScan t fr = .ok (r, c)) :
    ∃ t2, hoverStep t fr = .ok t2 ∧ t2.hoverRow = r ∧ t2.hoverCol = c ∧
      t2.hoverAlpha = t.hoverAlpha + ((if r ≥ 0 ∧ c ≥ 0 then 1 else 0) - t.hoverAlpha) * (1 / 5) ∧
      t2.rows = t.rows ∧ t2.scrollX = t.scrollX ∧ t2.scrollY = t.scrollY ∧
      t2.colWidths = t.colWidths ∧ t2.colCount = t.colCount ∧ t2.rowCount = t.rowCount ∧
      t2.original = t.original ∧ t2.sortCol = t.sortCol ∧ t2.sortAsc = t.sortAsc ∧
      t2.message = t.message ∧ t2.messageUntil = t.messageUntil ∧
      t2.draggingH = t.draggingH ∧ t2.draggingV = t.draggingV := by
  refine ⟨{ t with
              hoverRow := r
              hoverCol := c
              hoverAlpha :=
                t.hoverAlpha + ((if r ≥ 0 ∧ c ≥ 0 then 1 else 0) - t.hoverAlpha) * (1 / 5) },
    by simp only [hoverStep, h], rfl, rfl, rfl, rfl, rfl, rfl, rfl, rfl, rfl, rfl, rfl, rfl,
    rfl, rfl, rfl, rfl⟩

/-- C10: for every frame of `handle_input` on a padded table with a press edge
in which no drag is active after the drag handling, the pointer is outside the
reset button and outside every header column span, and a cell `(r, c)` is
hovered, the text passed to the clipboard is exactly the full stored text of
`rows[r].cells[c]`, and the status message is `"Copied: "` followed by the
first 60 bytes of that text (all of it if it is shorter). -/
theorem click_copies_hovered_cell (qsort : Qsort) (t t1 : Table) (fr : Frame) (r c : Nat)
    (hp : Padded t) (hpress : fr.buttonPressed = true)
    (hdrag : dragPhase t fr = .ok t1)
    (hnoH : t1.draggingH = false) (hnoV : t1.draggingV = false)
    (hreset : resetHit fr = false)
    (hheader : headerHit t1 fr = .ok none)
    (hhover : hoverScan t1 fr = .ok ((r : Int), (c : Int))) :
    ∃ row text t',
      t.rows.get? r = some row ∧ row.cells.get? c = some (Cell.str text) ∧
      handle_input qsort t fr = .ok (t', [Call.SetClipboardText text]) ∧
      t'.message = lit "Copied: " ++ text.take 60 ∧
      t'.messageUntil = fr.time + 9 / 5 ∧
      t'.hoverRow = (r : Int) ∧ t'.hoverCol = (c : Int) ∧ t'.rows = t.rows := by
  have hsame := sameGrid_dragPhase t t1 fr hdrag
  obtain ⟨hr, hc⟩ := hoverScan_range t1 fr r c hhover
  rw [hsame.rowCount] at hr
  rw [hsame.colCount] at hc
  have hr' : r < t.rows.length := by rw [hp.rows_length]; exact hr
  obtain ⟨_, hlen, htext⟩ := hp.row_ok _ (List.getElem_mem hr')
  have hc' : c < (t.rows[r]).cells.length := by rw [hlen]; exact hc
  obtain ⟨text, htxt, _⟩ := (isText_iff _).1 (htext _ (List.getElem_mem hc'))
  have hrow : t.rows.get? r = some t.rows[r] := by
    rw [List.get?_eq_getElem?, List.getElem?_eq_getElem hr']
  have hcell : (t.rows[r]).cells.get? c = some (Cell.str text) := by
    rw [List.get?_eq_getElem?, List.getElem?_eq_getElem hc', htxt]
  obtain ⟨t2, hstep, h2r, h2c, _, h2rows, h2x, h2y, h2w, h2cc, _⟩ :=
    hoverStep_of_scan t1 fr (r : Int) (c : Int) hhover
  have hhead : headerHit t2 fr = .ok none := by
    rw [headerHit_congr t1 t2 fr h2x h2y h2w h2cc]; exact hheader
  have hnodrag : (t1.draggingH || t1.draggingV) = false := by rw [hnoH, hnoV]; rfl
  have hge : ((r : Int) ≥ 0 ∧ (c : Int) ≥ 0) := ⟨Int.natCast_nonneg r, Int.natCast_nonneg c⟩
  have hrow2 : t2.rows.get? r = some t.rows[r] := by rw [h2rows, hsame.rows]; exact hrow
  refine ⟨t.rows[r], text,
    { t2 with message := ((lit "Copied: " ++ text.take 60).take 199).take 255,
              messageUntil := fr.time + 9 / 5 }, hrow, hcell, ?_, take_message text, rfl, h2r, h2c,
    h2rows.trans hsame.rows⟩
  unfold handle_input
  rw [hdrag]
  simp only [hnodrag, Bool.false_eq_true, if_false]
  rw [hstep]
  simp only [clickStep, hpress, if_true, hreset, Bool.false_eq_true, if_false, hhead,
    copyCell, h2r, h2c, hge, and_self, Int.toNat_ofNat, readRow, hrow2, readCell, hcell]

/-! ## Scroll bounds: proofs -/

theorem clampScrollX_bounds (t : Table) (fr : Frame) (cW : ℚ) :
    0 ≤ clampScrollX t fr cW ∧ clampScrollX t fr cW ≤ max 0 (cW - viewW fr) := by
  unfold clampScrollX
  simp only []
  by_cases h3 : cW < viewW fr
  · rw [if_pos h3]; exact ⟨le_refl _, le_max_left _ _⟩
  · rw [if_neg h3]
    have h3' : 0 ≤ cW - viewW fr := by linarith
    split_ifs <;> constructor <;> first
      | exact le_max_right _ _
      | exact h3'
      | exact le_refl _
      | (apply le_trans _ (le_max_right _ _); linarith)
      | linarith

theorem clampScrollY_bounds (t : Table) (fr : Frame) (cH : ℚ) :
    0 ≤ clampScrollY t fr cH ∧ clampScrollY t fr cH ≤ max 0 (cH - viewH fr) := by
  unfold clampScrollY
  simp only []
  by_cases h3 : cH < viewH fr
  · rw [if_pos h3]; exact ⟨le_refl _, le_max_left _ _⟩
  · rw [if_neg h3]
    have h3' : 0 ≤ cH - viewH fr := by linarith
    split_ifs <;> constructor <;> first
      | exact le_max_right _ _
      | exact h3'
      | exact le_refl _
      | (apply le_trans _ (le_max_right _ _); linarith)
      | linarith

theorem clampThumb_spec (p lo hi : ℚ) :
    (lo ≤ hi → lo ≤ clampThumb p lo hi ∧ clampThumb p lo hi ≤ hi) ∧
    (hi < lo → clampThumb p lo hi = hi) := by
  unfold clampThumb
  simp only []
  constructor
  · intro h
    split_ifs <;> constructor <;> linarith
  · intro h
    split_ifs <;> first | rfl | linarith

/-- The ratio of the drag step lies in `[0, 1]` whenever its divisor is not zero. -/
theorem drag_ratio_bounds (p lo d ratio : ℚ)
    (h : fdiv (clampThumb p lo (lo + d) - lo) d = .ok ratio) : 0 ≤ ratio ∧ ratio ≤ 1 := by
  unfold fdiv at h
  split at h
  · cases h
  · rename_i hd
    cases h
    obtain ⟨h1, h2⟩ := clampThumb_spec p lo (lo + d)
    rcases lt_or_gt_of_ne hd with hneg | hpos
    · rw [h2 (by linarith)]
      have : lo + d - lo = d := by ring
      rw [this, div_self hd]
      exact ⟨zero_le_one, le_refl _⟩
    · obtain ⟨h3, h4⟩ := h1 (by linarith)
      constructor
      · exact div_nonneg (by linarith) (le_of_lt hpos)
      · rw [div_le_one hpos]; linarith

theorem scroll_grabH (t t' : Table) (fr : Frame) (cW thumbW : ℚ)
    (h : grabH t fr cW thumbW = .ok t') : t'.scrollX = t.scrollX ∧ t'.scrollY = t.scrollY := by
  unfold grabH at h
  split at h
  · split at h
    · cases h
    · simp only [] at h
      split at h <;> cases h <;> exact ⟨rfl, rfl⟩
  · cases h; exact ⟨rfl, rfl⟩

theorem scroll_grabV (t t' : Table) (fr : Frame) (cH thumbH : ℚ)
    (h : grabV t fr cH thumbH = .ok t') : t'.scrollX = t.scrollX ∧ t'.scrollY = t.scrollY := by
  unfold grabV at h
  split at h
  · split at h
    · cases h
    · simp only [] at h
      split at h <;> cases h <;> exact ⟨rfl, rfl⟩
  · cases h; exact ⟨rfl, rfl⟩

/-- Scroll offsets after the horizontal drag step: `scrollY` is kept, and
`scrollX` is kept or set to a value inside the clamp interval. -/
theorem scroll_dragH (t t' : Table) (fr : Frame) (cW thumbW : ℚ)
    (h : dragH t fr cW thumbW = .ok t') :
    t'.scrollY = t.scrollY ∧
    (t'.scrollX = t.scrollX ∨ (0 ≤ t'.scrollX ∧ t'.scrollX ≤ max 0 (cW - viewW fr))) := by
  unfold dragH at h
  split at h
  · rename_i hcond
    simp only [] at h
    split at h
    · cases h
    · rename_i ratio hratio
      cases h
      refine ⟨rfl, Or.inr ?_⟩
      have hhas : cW > viewW fr := by
        simp only [Bool.and_eq_true, decide_eq_true_eq] at hcond
        exact hcond.2
      have hhi : tableX + viewW fr - thumbW = tableX + (viewW fr - thumbW) := by ring
      rw [hhi] at hratio
      obtain ⟨h0, h1⟩ := drag_ratio_bounds _ _ _ _ hratio
      have hpos : 0 ≤ cW - viewW fr := by linarith
      simp only []
      constructor
      · exact mul_nonneg h0 hpos
      · apply le_trans _ (le_max_right _ _)
        calc ratio * (cW - viewW fr) ≤ 1 * (cW - viewW fr) :=
              mul_le_mul_of_nonneg_right h1 hpos
          _ = cW - viewW fr := one_mul _
  · cases h; exact ⟨rfl, Or.inl rfl⟩

theorem scroll_dragV (t t' : Table) (fr : Frame) (cH thumbH : ℚ)
    (h : dragV t fr cH thumbH = .ok t') :
    t'.scrollX = t.scrollX ∧
    (t'.scrollY = t.scrollY ∨ (0 ≤ t'.scrollY ∧ t'.scrollY ≤ max 0 (cH - viewH fr))) := by
  unfold dragV at h
  split at h
  · rename_i hcond
    simp only [] at h
    split at h
    · cases h
    · rename_i ratio hratio
      cases h
      refine ⟨rfl, Or.inr ?_⟩
      have hhas : cH > viewH fr := by
        simp only [Bool.and_eq_true, decide_eq_true_eq] at hcond
        exact hcond.2
      have hhi : tableY + viewH fr - thumbH = tableY + (viewH fr - thumbH) := by ring
      rw [hhi] at hratio
      obtain ⟨h0, h1⟩ := drag_ratio_bounds _ _ _ _ hratio
      have hpos : 0 ≤ cH - viewH fr := by linarith
      simp only []
      constructor
      · exact mul_nonneg h0 hpos
      · apply le_trans _ (le_max_right _ _)
        calc ratio * (cH - viewH fr) ≤ 1 * (cH - viewH fr) :=
              mul_le_mul_of_nonneg_right h1 hpos
          _ = cH - viewH fr := one_mul _
  · cases h; exact ⟨rfl, Or.inl rfl⟩

/-- Whenever the drag handling of a frame completes, both scroll offsets lie in
their clamp intervals. -/
theorem dragPhase_scroll_bounds (t t' : Table) (fr : Frame) (cW : ℚ)
    (hW : contentW t = .ok cW) (h : dragPhase t fr = .ok t') :
    0 ≤ t'.scrollX ∧ t'.scrollX ≤ max 0 (cW - viewW fr) ∧
    0 ≤ t'.scrollY ∧ t'.scrollY ≤ max 0 (contentH t - viewH fr) := by
  obtain ⟨cW', thumbW, thumbH, t2, t3, t4, hW', _, _, h3, h4, h5, h6⟩ := dragPhase_ok t t' fr h
  rw [hW] at hW'
  cases hW'
  obtain ⟨x2, y2⟩ := scroll_grabH _ _ _ _ _ h3
  obtain ⟨x3, y3⟩ := scroll_grabV _ _ _ _ _ h4
  obtain ⟨y4, x4⟩ := scroll_dragH _ _ _ _ _ h5
  obtain ⟨x5, y5⟩ := scroll_dragV _ _ _ _ _ h6
  have hrel : (releaseStep (scrollStep t fr cW (contentH t)) fr).scrollX = clampScrollX t fr cW ∧
      (releaseStep (scrollStep t fr cW (contentH t)) fr).scrollY =
        clampScrollY t fr (contentH t) := by
    unfold releaseStep scrollStep
    split <;> exact ⟨rfl, rfl⟩
  have hx0 := clampScrollX_bounds t fr cW
  have hy0 := clampScrollY_bounds t fr (contentH t)
  rw [← hrel.1] at hx0
  rw [← hrel.2] at hy0
  have hx : 0 ≤ t4.scrollX ∧ t4.scrollX ≤ max 0 (cW - viewW fr) := by
    rcases x4 with e | b
    · rw [e, x3, x2]; exact hx0
    · exact b
  have hy : 0 ≤ t'.scrollY ∧ t'.scrollY ≤ max 0 (contentH t - viewH fr) := by
    rcases y5 with e | b
    · rw [e, y4, y3, y2]; exact hy0
    · exact b
  rw [x5]
  exact ⟨hx.1, hx.2, hy.1, hy.2⟩

/-- A frame that completes is a drag handling followed either by the early
return or by hover detection and click dispatch. -/
theorem handle_input_ok (qsort : Qsort) (t t' : Table) (fr : Frame) (calls : List Call)
    (h : handle_input qsort t fr = .ok (t', calls)) :
    ∃ t1, dragPhase t fr = .ok t1 ∧
      (((t1.draggingH || t1.draggingV) = true ∧ t' = t1 ∧ calls = []) ∨
       ((t1.draggingH || t1.draggingV) = false ∧
          ∃ t2, hoverStep t1 fr = .ok t2 ∧ clickStep qsort t2 fr = .ok (t', calls))) := by
  unfold handle_input at h
  cases hd : dragPhase t fr with
  | error e => rw [hd] at h; cases h
  | ok t1 =>
    rw [hd] at h
    simp only [] at h
    refine ⟨t1, rfl, ?_⟩
    cases hdr : (t1.draggingH || t1.draggingV) with
    | true =>
      rw [hdr] at h
      simp only [if_true] at h
      cases h
      exact Or.inl ⟨rfl, rfl, rfl⟩
    | false =>
      rw [hdr] at h
      simp only [Bool.false_eq_true, if_false] at h
      cases hh : hoverStep t1 fr with
      | error e => rw [hh] at h; cases h
      | ok t2 =>
        rw [hh] at h
        exact Or.inr ⟨rfl, t2, rfl, h⟩

theorem scroll_hoverStep (t t' : Table) (fr : Frame) (h : hoverStep t fr = .ok t') :
    t'.scrollX = t.scrollX ∧ t'.scrollY = t.scrollY := by
  unfold hoverStep at h
  split at h
  · cases h
  · cases h; exact ⟨rfl, rfl⟩

theorem scroll_sort_by (qsort : Qsort) (t : Table) (col : Int) :
    (sort_by qsort t col).scrollX = t.scrollX ∧ (sort_by qsort t col).scrollY = t.scrollY := by
  unfold sort_by
  split
  · exact ⟨rfl, rfl⟩
  · simp only []
    split <;> exact ⟨rfl, rfl⟩

theorem scroll_restore_original (now : ℚ) (t t' : Table) (h : restore_original now t = .ok t') :
    t'.scrollX = t.scrollX ∧ t'.scrollY = t.scrollY := by
  unfold restore_original at h
  split at h
  · cases h
  · cases h; exact ⟨rfl, rfl⟩

theorem scroll_copyCell (t t' : Table) (fr : Frame) (calls : List Call)
    (h : copyCell t fr = .ok (t', calls)) :
    t'.scrollX = t.scrollX ∧ t'.scrollY = t.scrollY := by
  unfold copyCell at h
  split at h
  · split at h
    · cases h
    · split at h
      · cases h
      · cases h; exact ⟨rfl, rfl⟩
      · cases h
  · cases h; exact ⟨rfl, rfl⟩

theorem scroll_clickStep (qsort : Qsort) (t t' : Table) (fr : Frame) (calls : List Call)
    (h : clickStep qsort t fr = .ok (t', calls)) :
    t'.scrollX = t.scrollX ∧ t'.scrollY = t.scrollY := by
  unfold clickStep at h
  split at h
  · split at h
    · cases hr : restore_original fr.time t with
      | error e => rw [hr] at h; cases h
      | ok t1 => rw [hr] at h; cases h; exact scroll_restore_original _ _ _ hr
    · cases hh : headerHit t fr with
      | error e => rw [hh] at h; cases h
      | ok o =>
        rw [hh] at h
        cases o with
        | none => exact scroll_copyCell t t' fr calls h
        | some c => cases h; exact scroll_sort_by qsort t _
  · cases h; exact ⟨rfl, rfl⟩

/-- Whenever a frame of `handle_input` completes without a division by zero or
a bad read, `scrollX` and `scrollY` lie in their clamp intervals. -/
theorem handle_input_scroll_bounds (qsort : Qsort) (t t' : Table) (fr : Frame)
    (calls : List Call) (cW : ℚ) (hW : contentW t = .ok cW)
    (h : handle_input qsort t fr = .ok (t', calls)) :
    0 ≤ t'.scrollX ∧ t'.scrollX ≤ max 0 (cW - viewW fr) ∧
    0 ≤ t'.scrollY ∧ t'.scrollY ≤ max 0 (contentH t - viewH fr) := by
  obtain ⟨t1, hd, hcase⟩ := handle_input_ok qsort t t' fr calls h
  have hb := dragPhase_scroll_bounds t t1 fr cW hW hd
  rcases hcase with ⟨_, e, _⟩ | ⟨_, t2, hh, hc⟩
  · rw [e]; exact hb
  · obtain ⟨x2, y2⟩ := scroll_hoverStep t1 t2 fr hh
    obtain ⟨x3, y3⟩ := scroll_clickStep qsort t2 t' fr calls hc
    rw [x3, x2, y3, y2]; exact hb

theorem dragPhase_narrowFrame : dragPhase gridTable narrowFrame = .error Fault.divByZero := by
  decide!

/-- C9 fails on the code: in a window 48 pixels wide the view is 24 wide, the
horizontal thumb has its minimum length 24, and a press on the thumb makes the
drag step divide `thumbX - trackHX = 0` by `viewW - thumbW = 0`.  The quotient
has no value in exact arithmetic (NaN in `float`), so `scrollX` is not a number
of the interval `[0, contentW - viewW] = [0, 136]`. -/
theorem handle_input_drag_divides_by_zero (qsort : Qsort) :
    contentW gridTable = .ok 160 ∧ viewW narrowFrame = 24 ∧
    thumbLen (decide ((160 : ℚ) > viewW narrowFrame)) (viewW narrowFrame) 160 = .ok 24 ∧
    handle_input qsort gridTable narrowFrame = .error Fault.divByZero := by
  refine ⟨by decide!, by decide!, by decide!, ?_⟩
  unfold handle_input
  rw [dragPhase_narrowFrame]

theorem gridTable_padded : Padded gridTable :=
  { rows_length := by decide
    row_ok := by decide }

/-- Instance of `click_copies_hovered_cell`: a press on the cell `"Bob"` of
the example grid puts `"Bob"` on the clipboard. -/
theorem click_copies_hovered_cell_witness :
    Padded gridTable ∧ clickFrame.buttonPressed = true ∧
    dragPhase gridTable clickFrame = .ok gridTable ∧
    resetHit clickFrame = false ∧ headerHit gridTable clickFrame = .ok none ∧
    hoverScan gridTable clickFrame = .ok (((0 : Nat) : Int), ((0 : Nat) : Int)) ∧
    ∃ row text t',
      gridTable.rows.get? 0 = some row ∧ row.cells.get? 0 = some (Cell.str text) ∧
      handle_input insertionQsort gridTable clickFrame = .ok (t', [Call.SetClipboardText text]) ∧
      t'.message = lit "Copied: " ++ text.take 60 ∧
      t'.messageUntil = clickFrame.time + 9 / 5 ∧
      t'.hoverRow = ((0 : Nat) : Int) ∧ t'.hoverCol = ((0 : Nat) : Int) ∧
      t'.rows = gridTable.rows :=
  ⟨gridTable_padded, rfl, by decide!, by decide!, by decide!, by decide!,
   click_copies_hovered_cell insertionQsort gridTable gridTable clickFrame 0 0 gridTable_padded
     rfl (by decide!) rfl rfl (by decide!) (by decide!) (by decide!)⟩

theorem colMaxLoop_eq (measure : List Nat → ℚ) (rows : List Row) (c colCount : Nat)
    (hrows : ∀ r ∈ rows, r.cells.length = colCount ∧ ∀ x ∈ r.cells, x.isText = true)
    (hc : c < colCount) (n : Nat) :
    ∀ r0 m, r0 + n = rows.length →
      colMaxLoop measure rows c n r0 m =
        .ok (((rows.drop r0).map fun r => measure (cellText ((r.cells.get? c).getD Cell.null))).foldl
          max m) := by
  induction n with
  | zero =>
    intro r0 m h
    have : rows.drop r0 = [] := List.drop_eq_nil_of_le (by omega)
    simp [colMaxLoop, this]
  | succ n ih =>
    intro r0 m h
    have hr0 : r0 < rows.length := by omega
    obtain ⟨hlen, htext⟩ := hrows _ (List.getElem_mem hr0)
    have hc' : c < (rows[r0]).cells.length := by rw [hlen]; exact hc
    obtain ⟨s, hs, _⟩ := (isText_iff _).1 (htext _ (List.getElem_mem hc'))
    have hread : readRow rows r0 = .ok rows[r0] := by
      simp [readRow, List.getElem?_eq_getElem hr0]
    have hcell : readCell (rows[r0]).cells c = .ok (Cell.str s) := by
      simp [readCell, List.getElem?_eq_getElem hc', hs]
    have hget : ((rows[r0]).cells.get? c).getD Cell.null = Cell.str s := by
      simp [List.getElem?_eq_getElem hc', hs]
    have hdrop : rows.drop r0 = rows[r0] :: rows.drop (r0 + 1) := by
      rw [List.drop_eq_getElem_cons hr0]
    have hmax : (if measure s > m then measure s else m) = max m (measure s) := by
      rcases le_or_lt (measure s) m with h1 | h1
      · rw [if_neg (not_lt.mpr h1), max_eq_left h1]
      · rw [if_pos h1, max_eq_right (le_of_lt h1)]
    unfold colMaxLoop
    rw [hread]
    simp only []
    rw [hcell]
    simp only [measureCell]
    rw [ih (r0 + 1) _ (by omega), hdrop, List.map_cons, List.foldl_cons, hget, hmax]
    rfl

theorem spanOf_eq (m ind : ℚ) : spanOf m ind = max (max (m + 22) (m + ind + 22)) 80 := by
  unfold spanOf
  simp only []
  have h1 : (if m + ind + 22 > m + 22 then m + ind + 22 else m + 22) = max (m + 22) (m + ind + 22) := by
    rcases le_or_lt (m + ind + 22) (m + 22) with h | h
    · rw [if_neg (not_lt.mpr h), max_eq_left h]
    · rw [if_pos h, max_eq_right (le_of_lt h)]
  rw [h1]
  rcases le_or_lt 80 (max (m + 22) (m + ind + 22)) with h | h
  · rw [if_neg (not_lt.mpr h), max_eq_left h]
  · rw [if_pos h, max_eq_right (le_of_lt h)]

theorem colWidth_eq (measure : List Nat → ℚ) (t : Table) (ind : ℚ) (c : Nat)
    (hp : Padded t) (hh : HeadersOK t) (hc : c < t.colCount) :
    colWidth measure t ind c =
      .ok (max (max (maxMeasured measure t c + 22) (maxMeasured measure t c + ind + 22)) 80) := by
  have hc' : c < t.headers.length := by rw [hh.1]; exact hc
  obtain ⟨s, hs, _⟩ := (isText_iff _).1 (hh.2 _ (List.getElem_mem hc'))
  have hread : readCell t.headers c = .ok (Cell.str s) := by
    simp [readCell, List.getElem?_eq_getElem hc', hs]
  have hget : (t.headers.get? c).getD Cell.null = Cell.str s := by
    simp [List.getElem?_eq_getElem hc', hs]
  have hloop := colMaxLoop_eq measure t.rows c t.colCount
    (fun r hr => ⟨(hp.row_ok r hr).2.1, (hp.row_ok r hr).2.2⟩) hc t.rowCount 0 (measure s)
    (by rw [hp.rows_length]; omega)
  unfold colWidth
  rw [hread]
  simp only [measureCell]
  rw [hloop]
  simp only [List.drop_zero, spanOf_eq, maxMeasured, hget, cellText]

/-- C13 (amended): for every column `c`, with `m` the largest measured width
over `header[c]` and every cell of column `c`, the width computed by
`measure_col_widths` equals
`max(max(m + padding, m + indicatorWidth + padding), minimumWidth)`, where
`padding = 22`, `minimumWidth = 80` and `indicatorWidth` is the measured width
of the indicator text `" ^"`; the text measurement is an arbitrary function. -/
theorem measure_col_widths_width (measure : List Nat → ℚ) (t : Table)
    (hp : Padded t) (hh : HeadersOK t) :
    ∃ t1, measure_col_widths measure t = .ok t1 ∧
      t1.colWidths.length = t.colCount ∧ t1.rows = t.rows ∧ t1.colCount = t.colCount ∧
      ∀ c, c < t.colCount →
        t1.colWidths.get? c =
          some (max (max (maxMeasured measure t c + 22)
            (maxMeasured measure t c + measure (lit " ^") + 22)) 80) := by
  have hall : forEach (colWidth measure t (measure (lit " ^"))) (List.range t.colCount) =
      .ok ((List.range t.colCount).map fun c =>
        max (max (maxMeasured measure t c + 22)
          (maxMeasured measure t c + measure (lit " ^") + 22)) 80) := by
    apply forEach_ok
    intro c hc
    exact colWidth_eq measure t _ c hp hh (List.mem_range.mp hc)
  refine ⟨{ t with
             colWidths := (List.range t.colCount).map fun c =>
               max (max (maxMeasured measure t c + 22)
                 (maxMeasured measure t c + measure (lit " ^") + 22)) 80 },
    by simp only [measure_col_widths, hall], by simp, rfl, rfl, ?_⟩
  intro c hc
  simp [List.getElem?_map, List.getElem?_range hc]

theorem exampleTable_headers : HeadersOK exampleTable := ⟨by decide, by decide⟩

/-- Instance of `measure_col_widths_width`: the example table measured at ten
units per byte; column 0 gets `50 + 20 + 22 = 92`. -/
theorem measure_col_widths_width_witness :
    Padded exampleTable ∧ HeadersOK exampleTable ∧
    maxMeasured tenPerByte exampleTable 0 = 50 ∧
    ∃ t1, measure_col_widths tenPerByte exampleTable = .ok t1 ∧
      t1.colWidths.length = exampleTable.colCount ∧ t1.rows = exampleTable.rows ∧
      t1.colCount = exampleTable.colCount ∧
      ∀ c, c < exampleTable.colCount →
        t1.colWidths.get? c =
          some (max (max (maxMeasured tenPerByte exampleTable c + 22)
            (maxMeasured tenPerByte exampleTable c + tenPerByte (lit " ^") + 22)) 80) :=
  ⟨exampleTable_padded, exampleTable_headers, by decide!,
   measure_col_widths_width tenPerByte exampleTable exampleTable_padded exampleTable_headers⟩

/-- C13 fails as stated: with ten units per byte, column 0 of the example
table has `m = 50` and the indicator measures 20; `measure_col_widths` stores
`m + 20 + 22 = 92`, while `max(max(m + 22, 20 + 22), 80)` is 80. -/
theorem measure_col_widths_adds_indicator_to_text :
    maxMeasured tenPerByte exampleTable 0 = 50 ∧ tenPerByte (lit " ^") = 20 ∧
    (measure_col_widths tenPerByte exampleTable).map (fun t => t.colWidths) = .ok [92, 80] ∧
    (92 : ℚ) ≠ max (max (maxMeasured tenPerByte exampleTable 0 + 22)
      (tenPerByte (lit " ^") + 22)) 80 := by
  decide!

theorem loadLine_inv (buf : List Nat) (st : LoadState) (h : LoadInv st) :
    LoadInv (loadLine buf st) := by
  obtain ⟨h1, h2⟩ := h
  have hcol : st.colCount ≤ (if (split_tsv_line buf).2 > st.colCount then (split_tsv_line buf).2
      else st.colCount) ∧
      (split_tsv_line buf).2 ≤ (if (split_tsv_line buf).2 > st.colCount then (split_tsv_line buf).2
      else st.colCount) := by
    split <;> constructor <;> omega
  unfold loadLine
  by_cases h0 : st.lineIndex = 0
  · simp only [h0, if_true]
    exact ⟨h1, fun r hr => ⟨(h2 r hr).1, le_trans (h2 r hr).2 hcol.1⟩⟩
  · simp only [h0, if_false]
    refine ⟨by simp [h1], ?_⟩
    intro r hr
    rcases List.mem_append.mp hr with h | h
    · exact ⟨(h2 r h).1, le_trans (h2 r h).2 hcol.1⟩
    · simp only [List.mem_singleton] at h
      subst h
      exact ⟨(split_tsv_line_cells buf).1, hcol.2⟩

theorem loadLoop_inv (fuel : Nat) : ∀ (f : List Nat) (st : LoadState), LoadInv st →
    LoadInv (loadLoop fuel f st) := by
  induction fuel with
  | zero => intro f st h; exact h
  | succ fuel ih =>
    intro f st h
    rw [loadLoop_succ]
    cases hf : fgets MAX_LINE_LEN f with
    | none => exact h
    | some p =>
      obtain ⟨buf, rest⟩ := p
      exact ih rest _ (loadLine_inv buf st h)

/-- After `load_tsv` on the table of `main`, `rowCount` rows are stored, each
with `cellCount` written cells and `cellCount ≤ colCount`. -/
theorem load_tsv_inv (f : List Nat) :
    (load_tsv f initTable).2.rows.length = (load_tsv f initTable).2.rowCount ∧
    ∀ r ∈ (load_tsv f initTable).2.rows,
      r.cells.length = r.cellCount ∧ r.cellCount ≤ (load_tsv f initTable).2.colCount := by
  have h := loadLoop_inv f.length f { lineIndex := 0, colCount := 0, rows := [], t := initTable }
    ⟨rfl, fun r hr => by cases hr⟩
  unfold load_tsv
  simp only []
  split
  · rename_i h0
    have hrows : ∀ fuel (g : List Nat) (st : LoadState), st.t.rows = [] →
        (loadLoop fuel g st).t.rows = [] := by
      intro fuel
      induction fuel with
      | zero => intro g st hst; exact hst
      | succ fuel ih =>
        intro g st hst
        rw [loadLoop_succ]
        cases hf : fgets MAX_LINE_LEN g with
        | none => exact hst
        | some p =>
          obtain ⟨buf, rest⟩ := p
          apply ih
          unfold loadLine
          split <;> exact hst
    have hlen0 : ∀ fuel (g : List Nat) (st : LoadState), (loadLoop fuel g st).lineIndex = 0 →
        (loadLoop fuel g st) = st := by
      intro fuel
      induction fuel with
      | zero => intro g st _; rfl
      | succ fuel ih =>
        intro g st hz
        rw [loadLoop_succ] at hz ⊢
        cases hf : fgets MAX_LINE_LEN g with
        | none => rfl
        | some p =>
          obtain ⟨buf, rest⟩ := p
          rw [hf] at hz
          simp only [] at hz
          have h1 := loadLoop_lineIndex fuel rest (loadLine buf st)
          have h2 := loadLine_lineIndex buf st
          omega
    rw [hlen0 _ _ _ h0]
    exact ⟨rfl, fun r hr => by cases hr⟩
  · exact ⟨by rw [h.1], h.2⟩

theorem mapIdx_eq_map {α β : Type} (l : List α) (f : Nat → α → β) (g : α → β)
    (h : ∀ i (hi : i < l.length), f i l[i] = g l[i]) : l.mapIdx f = l.map g := by
  apply List.ext_getElem?
  intro i
  rw [List.getElem?_mapIdx, List.getElem?_map]
  by_cases hi : i < l.length
  · rw [List.getElem?_eq_getElem hi]
    simp only [Option.map_some']
    rw [h i hi]
  · rw [List.getElem?_eq_none (Nat.not_lt.mp hi)]
    rfl

/-- C19: for every table after `load_tsv`, `pad_rows` leaves each row's
already-parsed cells unchanged and in order, appends only empty-string cells on
the right, and sets every row's `cellCount` to `colCount`; a row that already
had `colCount` fields is unchanged. -/
theorem pad_rows_keeps_parsed_cells (uninit : Nat → Nat → Cell) (f : List Nat) :
    (pad_rows uninit (load_tsv f initTable).2).rows =
      (load_tsv f initTable).2.rows.map (paddedRow (load_tsv f initTable).2.colCount) ∧
    (∀ r ∈ (pad_rows uninit (load_tsv f initTable).2).rows,
      r.cellCount = (load_tsv f initTable).2.colCount ∧
      r.cells.length = (load_tsv f initTable).2.colCount) ∧
    (∀ r ∈ (load_tsv f initTable).2.rows,
      r.cellCount = (load_tsv f initTable).2.colCount →
        paddedRow (load_tsv f initTable).2.colCount r = r) := by
  obtain ⟨hlen, hrows⟩ := load_tsv_inv f
  have hmap : (pad_rows uninit (load_tsv f initTable).2).rows =
      (load_tsv f initTable).2.rows.map (paddedRow (load_tsv f initTable).2.colCount) := by
    unfold pad_rows
    simp only []
    apply mapIdx_eq_map
    intro i hi
    obtain ⟨h1, h2⟩ := hrows _ (List.getElem_mem hi)
    rw [if_pos (by rw [← hlen]; exact hi), padRow_eq _ _ _ h1 h2, paddedRow, h1]
  refine ⟨hmap, ?_, ?_⟩
  · intro r hr
    rw [hmap] at hr
    obtain ⟨r0, hr0, rfl⟩ := List.mem_map.mp hr
    obtain ⟨h1, h2⟩ := hrows r0 hr0
    refine ⟨rfl, ?_⟩
    simp only [paddedRow, List.length_append, List.length_replicate]
    omega
  · intro r hr hfull
    obtain ⟨h1, _⟩ := hrows r hr
    cases r with
    | mk cells cellCount =>
      simp only at h1 hfull
      simp [paddedRow, h1, hfull]

theorem clickKeeps_refl (t : Table) : ClickKeeps t t :=
  ⟨rfl, rfl, rfl, rfl, rfl, rfl, rfl, rfl, rfl, rfl, rfl, rfl⟩

theorem clickKeeps_restore_original (now : ℚ) (t t' : Table)
    (h : restore_original now t = .ok t') : ClickKeeps t t' := by
  unfold restore_original at h
  split at h
  · cases h
  · cases h; exact ⟨rfl, rfl, rfl, rfl, rfl, rfl, rfl, rfl, rfl, rfl, rfl, rfl⟩

theorem clickKeeps_sort_by (qsort : Qsort) (t : Table) (col : Int) :
    ClickKeeps t (sort_by qsort t col) := by
  unfold sort_by
  split
  · exact clickKeeps_refl t
  · simp only []
    split <;> exact ⟨rfl, rfl, rfl, rfl, rfl, rfl, rfl, rfl, rfl, rfl, rfl, rfl⟩

theorem clickKeeps_copyCell (t t' : Table) (fr : Frame) (calls : List Call)
    (h : copyCell t fr = .ok (t', calls)) : ClickKeeps t t' ∧ t'.rows = t.rows ∧
      t'.sortCol = t.sortCol ∧ t'.sortAsc = t.sortAsc ∧
      (calls = [] ∨ ∃ text, calls = [Call.SetClipboardText text]) := by
  unfold copyCell at h
  split at h
  · split at h
    · cases h
    · split at h
      · cases h
      · cases h
        exact ⟨⟨rfl, rfl, rfl, rfl, rfl, rfl, rfl, rfl, rfl, rfl, rfl, rfl⟩, rfl, rfl, rfl,
          Or.inr ⟨_, rfl⟩⟩
      · cases h
  · cases h; exact ⟨clickKeeps_refl t, rfl, rfl, rfl, Or.inl rfl⟩

theorem clickKeeps_clickStep (qsort : Qsort) (t t' : Table) (fr : Frame) (calls : List Call)
    (h : clickStep qsort t fr = .ok (t', calls)) : ClickKeeps t t' := by
  unfold clickStep at h
  split at h
  · split at h
    · cases hr : restore_original fr.time t with
      | error e => rw [hr] at h; cases h
      | ok t1 => rw [hr] at h; cases h; exact clickKeeps_restore_original _ _ _ hr
    · cases hh : headerHit t fr with
      | error e => rw [hh] at h; cases h
      | ok o =>
        rw [hh] at h
        cases o with
        | none => exact (clickKeeps_copyCell t t' fr calls h).1
        | some c => cases h; exact clickKeeps_sort_by qsort t _
  · cases h; exact clickKeeps_refl t

/-- C14 (amended): in every frame of `handle_input` in which no scrollbar drag
is active after the drag handling, `hoverAlpha` is updated to
`hoverAlpha + 0.2 * (target - hoverAlpha)`, where `target` is 1 if a cell is
hovered (`hoverRow >= 0` and `hoverCol >= 0` after the hover detection) and 0
otherwise; in a frame in which a drag is active `hoverAlpha` is left unchanged. -/
theorem hover_alpha_update (qsort : Qsort) (t t' : Table) (fr : Frame) (calls : List Call)
    (h : handle_input qsort t fr = .ok (t', calls)) :
    ((t'.draggingH || t'.draggingV) = true → t'.hoverAlpha = t.hoverAlpha) ∧
    ((t'.draggingH || t'.draggingV) = false →
      t'.hoverAlpha = t.hoverAlpha +
        1 / 5 * ((if t'.hoverRow ≥ 0 ∧ t'.hoverCol ≥ 0 then 1 else 0) - t.hoverAlpha)) := by
  obtain ⟨t1, hd, hcase⟩ := handle_input_ok qsort t t' fr calls h
  have hsame := sameGrid_dragPhase t t1 fr hd
  rcases hcase with ⟨hdr, e, _⟩ | ⟨hdr, t2, hh, hc⟩
  · subst e
    constructor
    · intro _
      exact hsame.hoverAlpha
    · intro hno
      rw [hdr] at hno
      cases hno
  · have hk := clickKeeps_clickStep qsort t2 t' fr calls hc
    unfold hoverStep at hh
    split at hh
    · cases hh
    · rename_i r c hscan
      cases hh
      have hflags : (t'.draggingH || t'.draggingV) = false := by
        rw [hk.draggingH, hk.draggingV]; exact hdr
      constructor
      · intro hyes
        rw [hflags] at hyes
        cases hyes
      intro _
      rw [hk.hoverAlpha, hk.hoverRow, hk.hoverCol]
      simp only []
      rw [hsame.hoverAlpha]
      ring

/-- Instance of `hover_alpha_update`: the press on the cell `"Bob"`; the cell
is hovered and `hoverAlpha` goes from 0 to 1/5. -/
theorem hover_alpha_update_witness :
    ∃ t' calls, handle_input insertionQsort gridTable clickFrame = .ok (t', calls) ∧
      t'.hoverAlpha = 1 / 5 ∧
      ((t'.draggingH || t'.draggingV) = true → t'.hoverAlpha = gridTable.hoverAlpha) ∧
      ((t'.draggingH || t'.draggingV) = false →
        t'.hoverAlpha = gridTable.hoverAlpha +
          1 / 5 * ((if t'.hoverRow ≥ 0 ∧ t'.hoverCol ≥ 0 then 1 else 0) - gridTable.hoverAlpha)) :=
  ⟨{ gridTable with
       hoverAlpha := 1 / 5
       message := lit "Copied: Bob"
       messageUntil := 9 / 5 },
   [Call.SetClipboardText (lit "Bob")], by decide!, rfl,
   hover_alpha_update insertionQsort gridTable
     { gridTable with
       hoverAlpha := 1 / 5
       message := lit "Copied: Bob"
       messageUntil := 9 / 5 } clickFrame [Call.SetClipboardText (lit "Bob")] (by decide!)⟩

/-- C14 fails as stated: in the frame in which the vertical thumb is grabbed,
`handle_input` returns before the hover fade and `hoverAlpha` stays 1/2, which
is neither `1/2 + 0.2 * (1 - 1/2)` nor `1/2 + 0.2 * (0 - 1/2)`. -/
theorem hover_alpha_kept_while_dragging :
    handle_input insertionQsort fadedTable dragFrame =
      .ok ({ fadedTable with draggingV := true, dragOffsetY := 6 }, []) ∧
    fadedTable.hoverAlpha = 1 / 2 ∧
    (1 / 2 : ℚ) ≠ 1 / 2 + 1 / 5 * (1 - 1 / 2) ∧ (1 / 2 : ℚ) ≠ 1 / 2 + 1 / 5 * (0 - 1 / 2) := by
  decide!

/-- C17: for every frame of `handle_input` in which `draggingH` or `draggingV`
is true after the drag step, hover detection and click dispatch are skipped
entirely: `hoverRow`, `hoverCol`, `rows`, `sortCol`, `sortAsc`, the status
message and its expiry are unchanged by the frame and no clipboard write, sort
or reset occurs, even on a press edge. -/
theorem drag_skips_hover_and_click (qsort : Qsort) (t t1 : Table) (fr : Frame)
    (hdrag : dragPhase t fr = .ok t1) (hd : (t1.draggingH || t1.draggingV) = true) :
    handle_input qsort t fr = .ok (t1, []) ∧
    t1.hoverRow = t.hoverRow ∧ t1.hoverCol = t.hoverCol ∧ t1.rows = t.rows ∧
    t1.sortCol = t.sortCol ∧ t1.sortAsc = t.sortAsc ∧
    t1.message = t.message ∧ t1.messageUntil = t.messageUntil ∧
    t1.hoverAlpha = t.hoverAlpha ∧ t1.original = t.original := by
  have hsame := sameGrid_dragPhase t t1 fr hdrag
  refine ⟨?_, hsame.hoverRow, hsame.hoverCol, hsame.rows, hsame.sortCol, hsame.sortAsc,
    hsame.message, hsame.messageUntil, hsame.hoverAlpha, hsame.original⟩
  unfold handle_input
  rw [hdrag]
  simp only [hd, if_true]

/-- Instance of `drag_skips_hover_and_click`: the press on the vertical thumb. -/
theorem drag_skips_hover_and_click_witness :
    dragFrame.buttonPressed = true ∧
    dragPhase gridTable dragFrame = .ok { gridTable with draggingV := true, dragOffsetY := 6 } ∧
    handle_input insertionQsort gridTable dragFrame =
      .ok ({ gridTable with draggingV := true, dragOffsetY := 6 }, []) :=
  ⟨rfl, by decide!,
   (drag_skips_hover_and_click insertionQsort gridTable
     { gridTable with draggingV := true, dragOffsetY := 6 } dragFrame (by decide!) rfl).1⟩

/-- The column loop stops at the first column whose span holds the pointer. -/
theorem colScan_first (ws : List ℚ) (mx x0 : ℚ) (c : Nat) (w : ℚ)
    (hw : ws.get? c = some w)
    (hin : mx ≥ colLeft ws x0 c ∧ mx ≤ colLeft ws x0 c + w)
    (hfirst : ∀ c', c' < c → ∀ w', ws.get? c' = some w' →
      ¬ (mx ≥ colLeft ws x0 c' ∧ mx ≤ colLeft ws x0 c' + w')) (n : Nat) :
    ∀ c0, c0 ≤ c → c < c0 + n → colScan ws mx n c0 (colLeft ws x0 c0) = .ok (some c) := by
  have hlen : c < ws.length := by
    rw [List.get?_eq_getElem?] at hw
    by_contra hge
    rw [List.getElem?_eq_none (Nat.not_lt.mp hge)] at hw
    cases hw
  induction n with
  | zero => intro c0 h1 h2; omega
  | succ n ih =>
    intro c0 h1 h2
    unfold colScan
    rcases Nat.eq_or_lt_of_le h1 with heq | hlt
    · subst heq
      rw [hw]
      simp only []
      rw [if_pos hin]
    · have hc0 : c0 < ws.length := by omega
      have hw0 : ws.get? c0 = some ws[c0] := by
        rw [List.get?_eq_getElem?, List.getElem?_eq_getElem hc0]
      rw [hw0]
      simp only []
      rw [if_neg (hfirst c0 hlt _ hw0)]
      have hleft : colLeft ws x0 c0 + ws[c0] = colLeft ws x0 (c0 + 1) := by
        simp only [colLeft, hw0, Option.getD_some]
      rw [hleft]
      exact ih (c0 + 1) (by omega) (by omega)

/-- The column loop finds nothing when no column's span holds the pointer. -/
theorem colScan_none (ws : List ℚ) (mx x0 : ℚ) (n : Nat) :
    ∀ c0, c0 + n ≤ ws.length →
      (∀ c, c0 ≤ c → c < c0 + n → ∀ w, ws.get? c = some w →
        ¬ (mx ≥ colLeft ws x0 c ∧ mx ≤ colLeft ws x0 c + w)) →
      colScan ws mx n c0 (colLeft ws x0 c0) = .ok none := by
  induction n with
  | zero => intro c0 _ _; rfl
  | succ n ih =>
    intro c0 hlen hno
    have hc0 : c0 < ws.length := by omega
    have hw0 : ws.get? c0 = some ws[c0] := by
      rw [List.get?_eq_getElem?, List.getElem?_eq_getElem hc0]
    unfold colScan
    rw [hw0]
    simp only []
    rw [if_neg (hno c0 (le_refl _) (by omega) _ hw0)]
    have hleft : colLeft ws x0 c0 + ws[c0] = colLeft ws x0 (c0 + 1) := by
      simp only [colLeft, hw0, Option.getD_some]
    rw [hleft]
    exact ih (c0 + 1) (by omega) (fun c h1 h2 => hno c (by omega) (by omega))

theorem inColSpan_iff (t : Table) (fr : Frame) (c : Nat) :
    inColSpan t fr c = true ↔
      c < t.colCount ∧ ∃ w, t.colWidths.get? c = some w ∧
        fr.mouseX ≥ colLeft t.colWidths (tableX - t.scrollX) c ∧
        fr.mouseX ≤ colLeft t.colWidths (tableX - t.scrollX) c + w := by
  unfold inColSpan
  cases hw : t.colWidths.get? c with
  | none => simp
  | some w =>
    simp only [decide_eq_true_eq, Option.some.injEq, exists_eq_left']

/-- The header click reports the first column whose span holds the pointer,
when the pointer is in the header band and between the viewport sides. -/
theorem headerHit_first (t : Table) (fr : Frame) (c : Nat)
    (hband : inHeaderBand t fr = true) (hsides : betweenViewSides fr = true)
    (hc : inColSpan t fr c = true) (hfirst : ∀ c', c' < c → inColSpan t fr c' = false) :
    headerHit t fr = .ok (some c) := by
  obtain ⟨hlt, w, hw, hin⟩ := (inColSpan_iff t fr c).1 hc
  simp only [inHeaderBand, betweenViewSides, decide_eq_true_eq] at hband hsides
  unfold headerHit
  rw [if_pos ⟨hband.1, hband.2, hsides.1, hsides.2⟩]
  refine colScan_first t.colWidths fr.mouseX (tableX - t.scrollX) c w hw hin ?_ t.colCount 0
    (Nat.zero_le _) (by omega)
  intro c' hc' w' hw' hin'
  have := hfirst c' hc'
  rw [Bool.eq_false_iff] at this
  exact this ((inColSpan_iff t fr c').2 ⟨by omega, w', hw', hin'⟩)

/-- The header click reports nothing when the pointer is outside the header
band, outside the viewport sides or outside every column span. -/
theorem headerHit_none (t : Table) (fr : Frame) (hw : t.colCount ≤ t.colWidths.length)
    (h : ¬ (inHeaderBand t fr = true ∧ betweenViewSides fr = true ∧
      ∃ c, inColSpan t fr c = true)) :
    headerHit t fr = .ok none := by
  unfold headerHit
  split
  · rename_i hcond
    apply colScan_none t.colWidths fr.mouseX (tableX - t.scrollX) t.colCount 0 (by omega)
    intro c _ hc w hwc hin
    apply h
    refine ⟨by simp only [inHeaderBand, decide_eq_true_eq]; exact ⟨hcond.1, hcond.2.1⟩,
      by simp only [betweenViewSides, decide_eq_true_eq]; exact ⟨hcond.2.2.1, hcond.2.2.2⟩,
      c, (inColSpan_iff t fr c).2 ⟨by omega, w, hwc, hin⟩⟩
  · rfl

/-- C11 (amended): in every frame of `handle_input` with no active drag, click
dispatch is first-match-wins in the order reset, header sort, cell copy.  With
a press edge: if the pointer is inside the reset-button region then
`restore_original` runs and neither `sort_by` nor the clipboard write happens;
otherwise if the pointer is inside the header band, between the left and right
sides of the viewport, and inside some column's horizontal span, then `sort_by`
runs on the first such column and no clipboard write happens; only otherwise is
the hovered cell copied.  Without a press edge none of the three happens. -/
theorem click_dispatch_order (qsort : Qsort) (t t1 t2 : Table) (fr : Frame)
    (hdrag : dragPhase t fr = .ok t1) (hno : (t1.draggingH || t1.draggingV) = false)
    (hhover : hoverStep t1 fr = .ok t2) :
    (fr.buttonPressed = false → handle_input qsort t fr = .ok (t2, [])) ∧
    (fr.buttonPressed = true → resetHit fr = true →
      handle_input qsort t fr =
        (restore_original fr.time t2).map fun t3 => (t3, [Call.restore_original])) ∧
    (fr.buttonPressed = true → resetHit fr = false →
      ∀ c, inHeaderBand t2 fr = true → betweenViewSides fr = true → inColSpan t2 fr c = true →
        (∀ c', c' < c → inColSpan t2 fr c' = false) →
        handle_input qsort t fr = .ok (sort_by qsort t2 (c : Int), [Call.sort_by c])) ∧
    (fr.buttonPressed = true → resetHit fr = false → t2.colCount ≤ t2.colWidths.length →
      ¬ (inHeaderBand t2 fr = true ∧ betweenViewSides fr = true ∧
          ∃ c, inColSpan t2 fr c = true) →
      handle_input qsort t fr = copyCell t2 fr ∧
      ∀ t3 calls, copyCell t2 fr = .ok (t3, calls) →
        t3.rows = t2.rows ∧ t3.sortCol = t2.sortCol ∧ t3.sortAsc = t2.sortAsc ∧
        (calls = [] ∨ ∃ text, calls = [Call.SetClipboardText text])) := by
  have hframe : handle_input qsort t fr = clickStep qsort t2 fr := by
    unfold handle_input
    rw [hdrag]
    simp only [hno, Bool.false_eq_true, if_false]
    rw [hhover]
  rw [hframe]
  refine ⟨?_, ?_, ?_, ?_⟩
  · intro hp
    simp only [clickStep, hp, Bool.false_eq_true, if_false]
  · intro hp hr
    simp only [clickStep, hp, hr, if_true]
    cases restore_original fr.time t2 <;> rfl
  · intro hp hr c hband hsides hc hfirst
    simp only [clickStep, hp, hr, if_true, Bool.false_eq_true, if_false,
      headerHit_first t2 fr c hband hsides hc hfirst]
  · intro hp hr hw hnone
    refine ⟨?_, fun t3 calls hcopy => ?_⟩
    · simp only [clickStep, hp, hr, if_true, Bool.false_eq_true, if_false,
        headerHit_none t2 fr hw hnone]
    · obtain ⟨_, h1, h2, h3, h4⟩ := clickKeeps_copyCell t2 t3 fr calls hcopy
      exact ⟨h1, h2, h3, h4⟩

/-- Instance of `click_dispatch_order`: a press on the header cell of column 0
of the example grid sorts on column 0 and writes nothing to the clipboard. -/
theorem click_dispatch_order_witness :
    dragPhase gridTable headerFrame = .ok gridTable ∧
    (gridTable.draggingH || gridTable.draggingV) = false ∧
    hoverStep gridTable headerFrame = .ok { gridTable with hoverRow := -1, hoverCol := -1 } ∧
    headerFrame.buttonPressed = true ∧ resetHit headerFrame = false ∧
    handle_input insertionQsort gridTable headerFrame =
      .ok (sort_by insertionQsort { gridTable with hoverRow := -1, hoverCol := -1 } ((0 : Nat) : Int),
        [Call.sort_by 0]) :=
  ⟨by decide!, rfl, by decide!, rfl, by decide!,
   (click_dispatch_order insertionQsort gridTable gridTable
      { gridTable with hoverRow := -1, hoverCol := -1 } headerFrame (by decide!) rfl
      (by decide!)).2.2.1 rfl (by decide!) 0 (by decide!) (by decide!) (by decide!)
      (fun c' h => absurd h (Nat.not_lt_zero c'))⟩

/-- C11 fails as stated: a press at `(90, 50)` in a window 100 pixels wide is
outside the reset button, inside the header band and inside the span `[12, 92]`
of column 0, yet right of the viewport side `tableX + viewW = 88`; `sort_by`
does not run, and nothing else does. -/
theorem header_click_outside_view_sides :
    marginFrame.buttonPressed = true ∧ resetHit marginFrame = false ∧
    inHeaderBand gridTable marginFrame = true ∧ inColSpan gridTable marginFrame 0 = true ∧
    betweenViewSides marginFrame = false ∧
    handle_input insertionQsort gridTable marginFrame =
      .ok ({ gridTable with hoverRow := -1, hoverCol := -1 }, []) := by
  decide!

theorem drag_grabH (t t' : Table) (fr : Frame) (cW thumbW : ℚ)
    (h : grabH t fr cW thumbW = .ok t') :
    t'.draggingV = t.draggingV ∧ t'.dragOffsetY = t.dragOffsetY := by
  unfold grabH at h
  split at h
  · split at h
    · cases h
    · simp only [] at h
      split at h <;> cases h <;> exact ⟨rfl, rfl⟩
  · cases h; exact ⟨rfl, rfl⟩

theorem drag_grabV (t t' : Table) (fr : Frame) (cH thumbH : ℚ)
    (h : grabV t fr cH thumbH = .ok t') :
    t'.draggingH = t.draggingH ∧ t'.dragOffsetX = t.dragOffsetX := by
  unfold grabV at h
  split at h
  · split at h
    · cases h
    · simp only [] at h
      split at h <;> cases h <;> exact ⟨rfl, rfl⟩
  · cases h; exact ⟨rfl, rfl⟩

theorem drag_dragH (t t' : Table) (fr : Frame) (cW thumbW : ℚ)
    (h : dragH t fr cW thumbW = .ok t') :
    t'.draggingH = t.draggingH ∧ t'.draggingV = t.draggingV ∧
    t'.dragOffsetX = t.dragOffsetX ∧ t'.dragOffsetY = t.dragOffsetY := by
  unfold dragH at h
  split at h
  · simp only [] at h
    split at h
    · cases h
    · cases h; exact ⟨rfl, rfl, rfl, rfl⟩
  · cases h; exact ⟨rfl, rfl, rfl, rfl⟩

theorem drag_dragV (t t' : Table) (fr : Frame) (cH thumbH : ℚ)
    (h : dragV t fr cH thumbH = .ok t') :
    t'.draggingH = t.draggingH ∧ t'.draggingV = t.draggingV ∧
    t'.dragOffsetX = t.dragOffsetX ∧ t'.dragOffsetY = t.dragOffsetY := by
  unfold dragV at h
  split at h
  · simp only [] at h
    split at h
    · cases h
    · cases h; exact ⟨rfl, rfl, rfl, rfl⟩
  · cases h; exact ⟨rfl, rfl, rfl, rfl⟩

/-- A thumb grabbed at the position that belongs to the scroll offset maps
back to that offset, when the view is longer than the thumb. -/
theorem drag_back (track mouse scroll content view thumb ratio : ℚ)
    (h0 : 0 ≤ scroll) (h1 : scroll ≤ content - view) (hc : content > view) (hv : thumb < view)
    (h : fdiv (clampThumb (mouse - (mouse - thumbPos track scroll content view thumb)) track
      (track + view - thumb) - track) (view - thumb) = .ok ratio) :
    ratio * (content - view) = scroll := by
  have hd : 0 < view - thumb := by linarith
  have hcv : 0 < content - view := by linarith
  have hq0 : 0 ≤ scroll / (content - view) := div_nonneg h0 (le_of_lt hcv)
  have hq1 : scroll / (content - view) ≤ 1 := by rw [div_le_one hcv]; exact h1
  have hpos : mouse - (mouse - thumbPos track scroll content view thumb) =
      thumbPos track scroll content view thumb := by ring
  have hlo : track ≤ thumbPos track scroll content view thumb := by
    unfold thumbPos
    have := mul_nonneg hq0 (le_of_lt hd)
    linarith
  have hhi : thumbPos track scroll content view thumb ≤ track + view - thumb := by
    unfold thumbPos
    have : scroll / (content - view) * (view - thumb) ≤ 1 * (view - thumb) :=
      mul_le_mul_of_nonneg_right hq1 (le_of_lt hd)
    linarith
  have hclamp : clampThumb (thumbPos track scroll content view thumb) track
      (track + view - thumb) = thumbPos track scroll content view thumb := by
    unfold clampThumb
    simp only []
    rw [if_neg (not_lt.mpr hlo), if_neg (not_lt.mpr hhi)]
  rw [hpos, hclamp] at h
  unfold fdiv at h
  rw [if_neg (ne_of_gt hd)] at h
  cases h
  unfold thumbPos
  field_simp
  ring

/-- C20 (amended): for every frame of `handle_input` with a press edge whose
pointer lies inside the horizontal (resp. vertical) thumb rectangle, with
content > view on that axis and the view extent greater than the thumb length,
grabbing the thumb does not move the view: the drag flag of the axis is set and
the scroll offset on that axis after the frame equals its clamped value from
before the drag step (exact arithmetic). -/
theorem grab_keeps_scroll (qsort : Qsort) (t t' : Table) (fr : Frame) (cW thumbW thumbH : ℚ)
    (hpress : fr.buttonPressed = true) (hW : contentW t = .ok cW)
    (hlenW : thumbLen (decide (cW > viewW fr)) (viewW fr) cW = .ok thumbW)
    (hlenH : thumbLen (decide (contentH t > viewH fr)) (viewH fr) (contentH t) = .ok thumbH)
    (hdrag : dragPhase t fr = .ok t') :
    (cW > viewW fr → thumbW < viewW fr →
      CheckCollisionPointRec fr.mouseX fr.mouseY
        (thumbPos tableX (clampScrollX t fr cW) cW (viewW fr) thumbW)
        (tableY + viewH fr - 10) thumbW 10 = true →
      t'.draggingH = true ∧ t'.scrollX = clampScrollX t fr cW ∧
        handle_input qsort t fr = .ok (t', [])) ∧
    (contentH t > viewH fr → thumbH < viewH fr →
      CheckCollisionPointRec fr.mouseX fr.mouseY (tableX + viewW fr - 10)
        (thumbPos tableY (clampScrollY t fr (contentH t)) (contentH t) (viewH fr) thumbH)
        10 thumbH = true →
      t'.draggingV = true ∧ t'.scrollY = clampScrollY t fr (contentH t) ∧
        handle_input qsort t fr = .ok (t', [])) := by
  obtain ⟨cW', thumbW', thumbH', t2, t3, t4, hW', hl1, hl2, h3, h4, h5, h6⟩ :=
    dragPhase_ok t t' fr hdrag
  rw [hW] at hW'
  cases hW'
  rw [hlenW] at hl1
  cases hl1
  rw [hlenH] at hl2
  cases hl2
  have hframe : ∀ (hd : (t'.draggingH || t'.draggingV) = true),
      handle_input qsort t fr = .ok (t', []) := by
    intro hd
    unfold handle_input
    rw [hdrag]
    simp only [hd, if_true]
  have hrel : (releaseStep (scrollStep t fr cW (contentH t)) fr).scrollX = clampScrollX t fr cW ∧
      (releaseStep (scrollStep t fr cW (contentH t)) fr).scrollY =
        clampScrollY t fr (contentH t) := by
    unfold releaseStep scrollStep
    split <;> exact ⟨rfl, rfl⟩
  obtain ⟨x2, y2⟩ := scroll_grabH _ _ _ _ _ h3
  obtain ⟨x3, y3⟩ := scroll_grabV _ _ _ _ _ h4
  obtain ⟨y4, _⟩ := scroll_dragH _ _ _ _ _ h5
  obtain ⟨x5, _⟩ := scroll_dragV _ _ _ _ _ h6
  obtain ⟨gH3, oX3⟩ := drag_grabV _ _ _ _ _ h4
  obtain ⟨dH4, dV4, oX4, oY4⟩ := drag_dragH _ _ _ _ _ h5
  obtain ⟨dH5, dV5, _, _⟩ := drag_dragV _ _ _ _ _ h6
  have hbx := clampScrollX_bounds t fr cW
  have hby := clampScrollY_bounds t fr (contentH t)
  constructor
  · intro hhas hview hhit
    have hne : cW - viewW fr ≠ 0 := by linarith
    -- the grab
    have hg : t2.draggingH = true ∧ t2.dragOffsetX = fr.mouseX -
        thumbPos tableX (clampScrollX t fr cW) cW (viewW fr) thumbW := by
      unfold grabH at h3
      rw [if_pos (by simp [hhas, hpress])] at h3
      unfold fdiv at h3
      rw [if_neg hne] at h3
      simp only [] at h3
      rw [hrel.1] at h3
      unfold thumbPos at hhit ⊢
      rw [if_pos hhit] at h3
      cases h3
      exact ⟨rfl, rfl⟩
    have hflag : t'.draggingH = true := by rw [dH5, dH4, gH3]; exact hg.1
    have hscroll : t4.scrollX = clampScrollX t fr cW := by
      unfold dragH at h5
      rw [if_pos (by simp [gH3, hg.1, hhas])] at h5
      simp only [] at h5
      split at h5
      · cases h5
      · rename_i ratio hratio
        cases h5
        simp only []
        rw [oX3, hg.2] at hratio
        have hmax : clampScrollX t fr cW ≤ cW - viewW fr :=
          le_trans hbx.2 (max_le (by linarith) (le_refl _))
        exact drag_back tableX fr.mouseX _ cW (viewW fr) thumbW ratio hbx.1 hmax hhas hview hratio
    exact ⟨hflag, by rw [x5, hscroll], hframe (by rw [hflag]; rfl)⟩
  · intro hhas hview hhit
    have hne : contentH t - viewH fr ≠ 0 := by linarith
    have hg : t3.draggingV = true ∧ t3.dragOffsetY = fr.mouseY -
        thumbPos tableY (clampScrollY t fr (contentH t)) (contentH t) (viewH fr) thumbH := by
      unfold grabV at h4
      rw [if_pos (by simp [hhas, hpress])] at h4
      unfold fdiv at h4
      rw [if_neg hne] at h4
      simp only [] at h4
      rw [y2, hrel.2] at h4
      unfold thumbPos at hhit ⊢
      rw [if_pos hhit] at h4
      cases h4
      exact ⟨rfl, rfl⟩
    have hflag4 : t4.draggingV = true := by rw [dV4]; exact hg.1
    have hflag : t'.draggingV = true := by rw [dV5]; exact hflag4
    have hscroll : t'.scrollY = clampScrollY t fr (contentH t) := by
      unfold dragV at h6
      rw [if_pos (by simp [hflag4, hhas])] at h6
      simp only [] at h6
      split at h6
      · cases h6
      · rename_i ratio hratio
        cases h6
        simp only []
        rw [oY4, hg.2] at hratio
        have hmax : clampScrollY t fr (contentH t) ≤ contentH t - viewH fr :=
          le_trans hby.2 (max_le (by linarith) (le_refl _))
        exact drag_back tableY fr.mouseY _ (contentH t) (viewH fr) thumbH ratio hby.1 hmax hhas
          hview hratio
    exact ⟨hflag, hscroll, hframe (by rw [hflag]; simp)⟩

/-- Instance of `grab_keeps_scroll`: the wheel scrolls the example grid to
`scrollY = 34` and the press grabs the vertical thumb; `scrollY` stays 34. -/
theorem grab_keeps_scroll_witness :
    wheelGrabFrame.buttonPressed = true ∧ contentW gridTable = .ok 160 ∧
    contentH gridTable > viewH wheelGrabFrame ∧ (2209 / 32 : ℚ) < viewH wheelGrabFrame ∧
    clampScrollY gridTable wheelGrabFrame (contentH gridTable) = 34 ∧
    dragPhase gridTable wheelGrabFrame =
      .ok { gridTable with scrollY := 34, draggingV := true, dragOffsetY := 993 / 32 } ∧
    handle_input insertionQsort gridTable wheelGrabFrame =
      .ok ({ gridTable with scrollY := 34, draggingV := true, dragOffsetY := 993 / 32 }, []) :=
  ⟨rfl, by decide!, by decide!, by decide!, by decide!, by decide!,
   ((grab_keeps_scroll insertionQsort gridTable
      { gridTable with scrollY := 34, draggingV := true, dragOffsetY := 993 / 32 }
      wheelGrabFrame 160 0 (2209 / 32) rfl (by decide!) (by decide!) (by decide!)
      (by decide!)).2 (by decide!) (by decide!) (by decide!)).2.2⟩

/-- C20 fails as stated: in a window 40 pixels wide the view (16) differs from
the thumb length (24) and content (160) exceeds view, but the two clamp
statements of the drag step leave `thumbX = maxX`, the ratio is 1 and the grab
moves `scrollX` from its clamped value 0 to `contentW - viewW = 144`. -/
theorem grab_moves_scroll_in_tiny_view :
    tinyFrame.buttonPressed = true ∧ contentW gridTable = .ok 160 ∧
    viewW tinyFrame = 16 ∧
    thumbLen (decide ((160 : ℚ) > viewW tinyFrame)) (viewW tinyFrame) 160 = .ok 24 ∧
    CheckCollisionPointRec tinyFrame.mouseX tinyFrame.mouseY
      (thumbPos tableX (clampScrollX gridTable tinyFrame 160) 160 (viewW tinyFrame) 24)
      (tableY + viewH tinyFrame - 10) 24 10 = true ∧
    clampScrollX gridTable tinyFrame 160 = 0 ∧
    handle_input insertionQsort gridTable tinyFrame =
      .ok ({ gridTable with scrollX := 144, draggingH := true, dragOffsetX := 8 }, []) := by
  decide!

theorem flag_grabH (t t' : Table) (fr : Frame) (cW thumbW : ℚ)
    (h : grabH t fr cW thumbW = .ok t') (hf : t'.draggingH = true) :
    t.draggingH = true ∨
      (fr.buttonPressed = true ∧ fr.mouseY ≥ tableY + viewH fr - 10 ∧
        fr.mouseY < tableY + viewH fr) := by
  unfold grabH at h
  split at h
  · rename_i hcond
    simp only [Bool.and_eq_true, decide_eq_true_eq] at hcond
    split at h
    · cases h
    · simp only [] at h
      split at h
      · rename_i hhit
        simp only [CheckCollisionPointRec, decide_eq_true_eq] at hhit
        exact Or.inr ⟨hcond.2, hhit.2.2.1, by linarith [hhit.2.2.2]⟩
      · cases h; exact Or.inl hf
  · cases h; exact Or.inl hf

theorem flag_grabV (t t' : Table) (fr : Frame) (cH thumbH : ℚ)
    (h : grabV t fr cH thumbH = .ok t') (hf : t'.draggingV = true) :
    t.draggingV = true ∨
      (fr.buttonPressed = true ∧ fr.mouseX ≥ tableX + viewW fr - 10 ∧
        fr.mouseX < tableX + viewW fr) := by
  unfold grabV at h
  split at h
  · rename_i hcond
    simp only [Bool.and_eq_true, decide_eq_true_eq] at hcond
    split at h
    · cases h
    · simp only [] at h
      split at h
      · rename_i hhit
        simp only [CheckCollisionPointRec, decide_eq_true_eq] at hhit
        exact Or.inr ⟨hcond.2, hhit.1, by linarith [hhit.2.1]⟩
      · cases h; exact Or.inl hf
  · cases h; exact Or.inl hf

theorem flag_releaseStep (t : Table) (fr : Frame) :
    ((releaseStep t fr).draggingH = true → t.draggingH = true ∧ fr.buttonDown = true) ∧
    ((releaseStep t fr).draggingV = true → t.draggingV = true ∧ fr.buttonDown = true) := by
  unfold releaseStep
  cases hd : fr.buttonDown
  · simp
  · simp

/-- Where a drag flag that is set after the drag handling comes from: it was
set before and the button is held, or the button went down on the thumb's
track. -/
theorem flags_dragPhase (t t' : Table) (fr : Frame) (h : dragPhase t fr = .ok t') :
    (t'.draggingH = true →
      (t.draggingH = true ∧ fr.buttonDown = true) ∨
      (fr.buttonPressed = true ∧ fr.mouseY ≥ tableY + viewH fr - 10 ∧
        fr.mouseY < tableY + viewH fr)) ∧
    (t'.draggingV = true →
      (t.draggingV = true ∧ fr.buttonDown = true) ∨
      (fr.buttonPressed = true ∧ fr.mouseX ≥ tableX + viewW fr - 10 ∧
        fr.mouseX < tableX + viewW fr)) := by
  obtain ⟨cW, thumbW, thumbH, t2, t3, t4, _, _, _, h3, h4, h5, h6⟩ := dragPhase_ok t t' fr h
  obtain ⟨gV2, _⟩ := drag_grabH _ _ _ _ _ h3
  obtain ⟨gH3, _⟩ := drag_grabV _ _ _ _ _ h4
  obtain ⟨dH4, dV4, _, _⟩ := drag_dragH _ _ _ _ _ h5
  obtain ⟨dH5, dV5, _, _⟩ := drag_dragV _ _ _ _ _ h6
  have hrel := flag_releaseStep (scrollStep t fr cW (contentH t)) fr
  constructor
  · intro hf
    rw [dH5, dH4, gH3] at hf
    rcases flag_grabH _ _ _ _ _ h3 hf with h0 | h0
    · exact Or.inl (hrel.1 h0)
    · exact Or.inr h0
  · intro hf
    rw [dV5, dV4] at hf
    rcases flag_grabV _ _ _ _ _ h4 hf with h0 | h0
    · rw [gV2] at h0
      exact Or.inl (hrel.2 h0)
    · exact Or.inr h0

/-- Hover detection and hover fade change the hover fields only. -/
theorem keeps_hoverStep (t t' : Table) (fr : Frame) (h : hoverStep t fr = .ok t') :
    t'.rows = t.rows ∧ t'.original = t.original ∧ t'.rowCount = t.rowCount ∧
    t'.colCount = t.colCount ∧ t'.colWidths = t.colWidths ∧ t'.sortCol = t.sortCol ∧
    t'.sortAsc = t.sortAsc ∧ t'.draggingH = t.draggingH ∧ t'.draggingV = t.draggingV ∧
    t'.message = t.message ∧ t'.messageUntil = t.messageUntil ∧ t'.headers = t.headers := by
  unfold hoverStep at h
  split at h
  · cases h
  · cases h; exact ⟨rfl, rfl, rfl, rfl, rfl, rfl, rfl, rfl, rfl, rfl, rfl, rfl⟩

theorem flags_handle_input (qsort : Qsort) (t t' : Table) (fr : Frame) (calls : List Call)
    (h : handle_input qsort t fr = .ok (t', calls)) :
    ∃ t1, dragPhase t fr = .ok t1 ∧ t'.draggingH = t1.draggingH ∧
      t'.draggingV = t1.draggingV := by
  obtain ⟨t1, hd, hcase⟩ := handle_input_ok qsort t t' fr calls h
  refine ⟨t1, hd, ?_⟩
  rcases hcase with ⟨_, e, _⟩ | ⟨_, t2, hh, hc⟩
  · subst e; exact ⟨rfl, rfl⟩
  · have hk := clickKeeps_clickStep qsort t2 t' fr calls hc
    obtain ⟨_, _, _, _, _, _, _, f1, f2, _⟩ := keeps_hoverStep t1 t2 fr hh
    exact ⟨hk.draggingH.trans f1, hk.draggingV.trans f2⟩

/-- C12 (amended): `draggingH` and `draggingV` are two independent flags, and a
press edge with the pointer in the corner square common to the two scrollbar
tracks can set both.  In every state reachable from an idle table state by any
sequence of `handle_input` frames in which no press edge has the pointer in
that square, both flags are false whenever the button is not held, and they are
never both true. -/
theorem drag_flags_exclusive (qsort : Qsort) (t0 t : Table) (d : Bool)
    (h0 : t0.draggingH = false ∧ t0.draggingV = false)
    (hr : FrameReach qsort
      (fun fr => ¬ (fr.buttonPressed = true ∧ inTrackCorner fr = true)) t0 t d) :
    (d = false → t.draggingH = false ∧ t.draggingV = false) ∧
    ¬ (t.draggingH = true ∧ t.draggingV = true) := by
  induction hr with
  | start => exact ⟨fun _ => h0, by rw [h0.1]; intro h; cases h.1⟩
  | frame t t1 d fr calls _ hallow hbtn hstep ih =>
    obtain ⟨t2, hdrag, e1, e2⟩ := flags_handle_input qsort t t1 fr calls hstep
    obtain ⟨fH, fV⟩ := flags_dragPhase t t2 fr hdrag
    rw [e1, e2]
    have hpress : fr.buttonPressed = true → fr.buttonDown = true ∧ d = false := by
      intro hp
      rw [hp] at hbtn
      cases hdn : fr.buttonDown <;> cases hdd : d <;> simp [hdn, hdd] at hbtn ⊢
    constructor
    · intro hup
      constructor
      · cases hf : t2.draggingH
        · rfl
        · rcases fH hf with h | h
          · rw [hup] at h; cases h.2
          · have := (hpress h.1).1; rw [hup] at this; cases this
      · cases hf : t2.draggingV
        · rfl
        · rcases fV hf with h | h
          · rw [hup] at h; cases h.2
          · have := (hpress h.1).1; rw [hup] at this; cases this
    · intro hboth
      rcases fH hboth.1 with hH | hH <;> rcases fV hboth.2 with hV | hV
      · exact ih.2 ⟨hH.1, hV.1⟩
      · have := (ih.1 (hpress hV.1).2).1
        rw [hH.1] at this; cases this
      · have := (ih.1 (hpress hH.1).2).2
        rw [hV.1] at this; cases this
      · apply hallow
        refine ⟨hH.1, ?_⟩
        simp only [inTrackCorner, decide_eq_true_eq]
        exact ⟨hV.2.1, hV.2.2, hH.2.1, hH.2.2⟩

/-- Instance of `drag_flags_exclusive`: the example grid after the frame that
grabs the vertical thumb. -/
theorem drag_flags_exclusive_witness :
    (gridTable.draggingH = false ∧ gridTable.draggingV = false) ∧
    FrameReach insertionQsort (fun fr => ¬ (fr.buttonPressed = true ∧ inTrackCorner fr = true))
      gridTable { gridTable with draggingV := true, dragOffsetY := 6 } true ∧
    ¬ (({ gridTable with draggingV := true, dragOffsetY := 6 } : Table).draggingH = true ∧
       ({ gridTable with draggingV := true, dragOffsetY := 6 } : Table).draggingV = true) :=
  have hreach : FrameReach insertionQsort
      (fun fr => ¬ (fr.buttonPressed = true ∧ inTrackCorner fr = true))
      gridTable { gridTable with draggingV := true, dragOffsetY := 6 } true :=
    FrameReach.frame gridTable _ false dragFrame [] FrameReach.start (by decide!) rfl (by decide!)
  ⟨⟨rfl, rfl⟩, hreach,
   (drag_flags_exclusive insertionQsort gridTable _ true ⟨rfl, rfl⟩ hreach).2⟩

/-- C12 fails as stated: from the idle start state of a grid larger than the
window, one frame scrolls to the right end and the next scrolls to the bottom
and has its press edge in the corner where the two thumbs overlap; both grabs
fire and `draggingH` and `draggingV` are both true. -/
theorem corner_press_sets_both_flags :
    wideTable.draggingH = false ∧ wideTable.draggingV = false ∧
    scrollRightFrame.buttonPressed = (scrollRightFrame.buttonDown && !false) ∧
    cornerPressFrame.buttonPressed =
      (cornerPressFrame.buttonDown && !scrollRightFrame.buttonDown) ∧
    (runFrames insertionQsort wideTable [scrollRightFrame, cornerPressFrame]).map
      (fun t => (t.draggingH, t.draggingV, t.scrollX, t.scrollY)) =
      .ok (true, true, 424, 504) := by
  decide!

theorem padded_of_inv (t0 t : Table) (hp : Padded t0) (ho : t0.original = t0.rows)
    (h : SnapshotInv t0 t) : Padded t := by
  have hperm : t.rows.Perm t0.rows := by rw [← ho]; exact h.perm
  constructor
  · rw [hperm.length_eq, hp.rows_length, h.rowCount]
  · intro r hr
    rw [h.colCount]
    exact hp.row_ok r (hperm.subset hr)

theorem inv_sort_by (qsort : Qsort) (hq : QsortSpec qsort) (t0 t : Table) (col : Int)
    (hp : Padded t0) (ho : t0.original = t0.rows) (h : SnapshotInv t0 t) :
    SnapshotInv t0 (sort_by qsort t col) := by
  obtain ⟨k1, k2, k3⟩ := sort_by_keeps qsort t col
  refine ⟨k1.trans h.original, k2.trans h.rowCount, k3.trans h.colCount, ?_⟩
  by_cases hcol : col < 0 ∨ col ≥ (t.colCount : Int)
  · unfold sort_by
    rw [if_pos hcol]
    exact h.perm
  · have hnat : col = ((col.toNat : Nat) : Int) := by
      rw [Int.toNat_of_nonneg]; omega
    have hlt : col.toNat < t.colCount := by omega
    rw [hnat]
    exact (sort_by_rows qsort hq t col.toNat (padded_of_inv t0 t hp ho h) hlt).1.trans h.perm

theorem inv_restore_original (t0 t t1 : Table) (now : ℚ)
    (hp : Padded t0) (ho : t0.original = t0.rows) (h : SnapshotInv t0 t)
    (hr : restore_original now t = .ok t1) : SnapshotInv t0 t1 := by
  have hcopy : copyRows t.original t.rowCount t.colCount = .ok t0.original := by
    rw [h.original, h.rowCount, h.colCount, ho]
    exact copyRows_padded t0.rows t0.rowCount t0.colCount hp.rows_length hp.row_ok
  unfold restore_original at hr
  rw [hcopy] at hr
  cases hr
  exact ⟨h.original, h.rowCount, h.colCount, List.Perm.refl _⟩

theorem inv_handle_input (qsort : Qsort) (hq : QsortSpec qsort) (t0 t t1 : Table) (fr : Frame)
    (calls : List Call) (hp : Padded t0) (ho : t0.original = t0.rows) (h : SnapshotInv t0 t)
    (hf : handle_input qsort t fr = .ok (t1, calls)) : SnapshotInv t0 t1 := by
  obtain ⟨t2, hd, hcase⟩ := handle_input_ok qsort t t1 fr calls hf
  have hs := sameGrid_dragPhase t t2 fr hd
  have h2 : SnapshotInv t0 t2 :=
    ⟨hs.original.trans h.original, hs.rowCount.trans h.rowCount, hs.colCount.trans h.colCount,
      by rw [hs.rows]; exact h.perm⟩
  rcases hcase with ⟨_, e, _⟩ | ⟨_, t3, hh, hc⟩
  · subst e; exact h2
  · obtain ⟨k1, k2, k3, k4, _⟩ := keeps_hoverStep t2 t3 fr hh
    have h3 : SnapshotInv t0 t3 :=
      ⟨k2.trans h2.original, k3.trans h2.rowCount, k4.trans h2.colCount,
        by rw [k1]; exact h2.perm⟩
    unfold clickStep at hc
    split at hc
    · split at hc
      · cases hr : restore_original fr.time t3 with
        | error e => rw [hr] at hc; cases hc
        | ok t4 =>
          rw [hr] at hc
          cases hc
          exact inv_restore_original t0 t3 _ fr.time hp ho h3 hr
      · cases hhd : headerHit t3 fr with
        | error e => rw [hhd] at hc; cases hc
        | ok o =>
          rw [hhd] at hc
          cases o with
          | none =>
            obtain ⟨hk, hrows, _⟩ := clickKeeps_copyCell t3 t1 fr calls hc
            exact ⟨hk.original.trans h3.original, hk.rowCount.trans h3.rowCount,
              hk.colCount.trans h3.colCount, by rw [hrows]; exact h3.perm⟩
          | some c =>
            cases hc
            exact inv_sort_by qsort hq t0 t3 _ hp ho h3
    · cases hc; exact h3

/-- C16: in every state reachable from a loaded table (a padded table right
after `copy_original`) by any sequence of `sort_by`, `restore_original` and
`handle_input` calls, the snapshot `original` is cell for cell the one captured
by `copy_original`, and `rows` consists of `rowCount` rows of exactly
`colCount` cells that form a permutation of `original`. -/
theorem snapshot_kept_rows_permuted (qsort : Qsort) (hq : QsortSpec qsort) (tp t0 t : Table)
    (hp : Padded tp) (hcopy : copy_original tp = .ok t0) (hr : OpReach qsort t0 t) :
    t0.original = tp.rows ∧ t.original = t0.original ∧ t.rows.Perm t.original ∧
    t.rows.length = t.rowCount ∧ t.rowCount = tp.rowCount ∧ t.colCount = tp.colCount ∧
    ∀ r ∈ t.rows, r.cells.length = t.colCount ∧ r.cellCount = t.colCount := by
  have hc : copyRows tp.rows tp.rowCount tp.colCount = .ok tp.rows :=
    copyRows_padded tp.rows tp.rowCount tp.colCount hp.rows_length hp.row_ok
  unfold copy_original at hcopy
  rw [hc] at hcopy
  cases hcopy
  have hp0 : Padded { tp with original := tp.rows } := ⟨hp.rows_length, hp.row_ok⟩
  have hinv : SnapshotInv { tp with original := tp.rows } t := by
    induction hr with
    | start => exact ⟨rfl, rfl, rfl, List.Perm.refl _⟩
    | sort t col _ ih => exact inv_sort_by qsort hq _ t col hp0 rfl ih
    | restore t t1 now _ hres ih => exact inv_restore_original _ t t1 now hp0 rfl ih hres
    | frame t t1 fr calls _ hf ih => exact inv_handle_input qsort hq _ t t1 fr calls hp0 rfl ih hf
  have hpad := padded_of_inv _ t hp0 rfl hinv
  refine ⟨rfl, hinv.original, by rw [hinv.original]; exact hinv.perm, hpad.rows_length,
    hinv.rowCount, hinv.colCount, fun r hr => ?_⟩
  obtain ⟨h1, h2, _⟩ := hpad.row_ok r hr
  exact ⟨h2, h1⟩

/-- Instance of `snapshot_kept_rows_permuted`: the example table after its
snapshot, a sort on column 0 and a press on the header of column 1. -/
theorem snapshot_kept_rows_permuted_witness :
    QsortSpec insertionQsort ∧ Padded exampleTable ∧
    copy_original exampleTable = .ok { exampleTable with original := exampleTable.rows } ∧
    (sort_by insertionQsort { exampleTable with original := exampleTable.rows } 0).original =
      exampleTable.rows ∧
    (sort_by insertionQsort { exampleTable with original := exampleTable.rows } 0).rows.Perm
      (sort_by insertionQsort { exampleTable with original := exampleTable.rows } 0).original :=
  have h := snapshot_kept_rows_permuted insertionQsort insertionQsort_spec exampleTable
    { exampleTable with original := exampleTable.rows }
    (sort_by insertionQsort { exampleTable with original := exampleTable.rows } 0)
    exampleTable_padded (by decide!) (OpReach.sort _ 0 OpReach.start)
  ⟨insertionQsort_spec, exampleTable_padded, by decide!, h.2.1.trans h.1, h.2.2.1⟩

/-- The hover detection stores the sentinel pair or a pair of valid indices. -/
theorem hoverOK_hoverStep (t t' : Table) (fr : Frame) (h : hoverStep t fr = .ok t') :
    HoverOK t' := by
  obtain ⟨_, _, k3, k4, _⟩ := keeps_hoverStep t t' fr h
  unfold hoverStep at h
  split at h
  · cases h
  · rename_i r c hscan
    cases h
    unfold HoverOK
    simp only []
    unfold hoverScan at hscan
    split at hscan
    · split at hscan
      · cases hscan; exact Or.inl ⟨rfl, rfl⟩
      · rename_i r' hr
        split at hscan
        · cases hscan
        · cases hscan; exact Or.inl ⟨rfl, rfl⟩
        · rename_i c' hc
          cases hscan
          have h1 := rowScan_some _ _ _ _ _ hr
          have h2 := colScan_some _ _ _ _ _ _ hc
          refine Or.inr ⟨by omega, by omega, by omega, by omega⟩
    · cases hscan; exact Or.inl ⟨rfl, rfl⟩

/-- A frame keeps the property that the hover indices are the sentinel pair or
valid: the dragging path leaves them alone, the other path stores a fresh pair. -/
theorem hoverOK_handle_input (qsort : Qsort) (t t' : Table) (fr : Frame) (calls : List Call)
    (hok : HoverOK t) (h : handle_input qsort t fr = .ok (t', calls)) : HoverOK t' := by
  obtain ⟨t1, hd, hcase⟩ := handle_input_ok qsort t t' fr calls h
  have hs := sameGrid_dragPhase t t1 fr hd
  rcases hcase with ⟨_, e, _⟩ | ⟨_, t2, hh, hc⟩
  · subst e
    unfold HoverOK at hok ⊢
    rw [hs.hoverRow, hs.hoverCol, hs.rowCount, hs.colCount]
    exact hok
  · have hk := clickKeeps_clickStep qsort t2 t' fr calls hc
    have h2 := hoverOK_hoverStep t1 t2 fr hh
    unfold HoverOK at h2 ⊢
    rw [hk.hoverRow, hk.hoverCol, hk.rowCount, hk.colCount]
    exact h2

/-- If the start state has the sentinel pair or valid hover indices, so has
every state reached by frames of `handle_input`. -/
theorem hoverOK_reach (qsort : Qsort) (t0 t : Table) (d : Bool) (h0 : HoverOK t0)
    (hr : FrameReach qsort (fun _ => True) t0 t d) : HoverOK t := by
  induction hr with
  | start => exact h0
  | frame t t1 d fr calls _ _ _ hstep ih => exact hoverOK_handle_input qsort t t1 fr calls ih hstep

/-- The early return: after a drag handling that leaves a drag flag set, the
frame is over. -/
theorem handle_input_dragging (qsort : Qsort) (t t1 : Table) (fr : Frame)
    (hdrag : dragPhase t fr = .ok t1) (hd : (t1.draggingH || t1.draggingV) = true) :
    handle_input qsort t fr = .ok (t1, []) := by
  unfold handle_input
  rw [hdrag]
  simp only [hd, if_true]

/-- C18 fails on the code: `main` zero-initialises the table and sets
`sortCol = -1` but leaves `hoverRow = hoverCol = 0`.  For the input
`"Name\tAge\n"` (no data line, `rowCount = 0`) the start state has the hover
pair `(0, 0)`, which is neither `(-1, -1)` nor a valid pair, and it keeps that
pair through a frame that grabs the horizontal thumb. -/
theorem hover_indices_start_at_zero (qsort : Qsort) :
    main_setup (fun _ _ => Cell.null) (fun _ => 0) (lit "Name\tAge\n") =
      Startup.window headerOnlyTable ∧
    headerOnlyTable.rowCount = 0 ∧ headerOnlyTable.hoverRow = 0 ∧
    headerOnlyTable.hoverCol = 0 ∧ ¬ HoverOK headerOnlyTable ∧
    handle_input qsort headerOnlyTable thumbPressFrame =
      .ok ({ headerOnlyTable with draggingH := true, dragOffsetX := 8 }, []) ∧
    ¬ HoverOK { headerOnlyTable with draggingH := true, dragOffsetX := 8 } := by
  have hdrag : dragPhase headerOnlyTable thumbPressFrame =
      .ok { headerOnlyTable with draggingH := true, dragOffsetX := 8 } := by decide!
  refine ⟨by decide!, rfl, rfl, rfl, ?_, ?_, ?_⟩
  · unfold HoverOK headerOnlyTable initTable
    simp
  · exact handle_input_dragging qsort _ _ _ hdrag rfl
  · unfold HoverOK headerOnlyTable initTable
    simp

theorem sumWidths_ok (ws : List ℚ) (hmin : ∀ w ∈ ws, (80 : ℚ) ≤ w) (n : Nat) :
    ∀ c acc, c + n ≤ ws.length →
      ∃ s, sumWidths ws n c acc = .ok s ∧ acc + 80 * (n : ℚ) ≤ s := by
  induction n with
  | zero => intro c acc _; exact ⟨acc, rfl, by simp⟩
  | succ n ih =>
    intro c acc hlen
    have hc : c < ws.length := by omega
    have hw : ws.get? c = some ws[c] := by
      rw [List.get?_eq_getElem?, List.getElem?_eq_getElem hc]
    obtain ⟨s, hs, hle⟩ := ih (c + 1) (acc + ws[c]) (by omega)
    refine ⟨s, ?_, ?_⟩
    · unfold sumWidths
      rw [hw]
      exact hs
    · have := hmin _ (List.getElem_mem hc)
      push_cast
      linarith

theorem contentW_ok (t : Table) (hr : Ready t) : ∃ cW, contentW t = .ok cW ∧ (80 : ℚ) ≤ cW := by
  obtain ⟨s, hs, hle⟩ := sumWidths_ok t.colWidths hr.widths_min t.colCount 0 0
    (by rw [hr.widths_length]; omega)
  refine ⟨s, hs, ?_⟩
  have h1 : (1 : ℚ) ≤ (t.colCount : ℚ) := by exact_mod_cast hr.cols
  linarith

theorem contentH_pos (t : Table) : (0 : ℚ) < contentH t := by
  unfold contentH HEADER_HEIGHT ROW_HEIGHT
  have : (0 : ℚ) ≤ (t.rowCount : ℚ) := Nat.cast_nonneg _
  linarith

/-- The thumb length exists for a positive content extent, and differs from
the view extent unless the view extent is 24. -/
theorem thumbLen_ok (view content : ℚ) (hpos : 0 < content) :
    ∃ th, thumbLen (decide (content > view)) view content = .ok th ∧
      (content > view → view ≠ 24 → view - th ≠ 0) := by
  unfold thumbLen fdiv
  by_cases hhas : content > view
  · simp only [hhas, decide_True, if_true, if_neg (ne_of_gt hpos)]
    refine ⟨_, rfl, fun _ hview => ?_⟩
    split
    · intro h
      apply hview
      linarith
    · rename_i hbig
      intro h
      have hv : view = view * (view / content) := by linarith
      have hv0 : view ≠ 0 := by
        intro h0
        rw [h0] at hbig
        simp at hbig
      have hq : view / content = 1 := by
        have := mul_left_cancel₀ hv0 (show view * 1 = view * (view / content) by rw [mul_one]; exact hv)
        exact this.symm
      rw [div_eq_one_iff_eq (ne_of_gt hpos)] at hq
      linarith
  · simp only [hhas, decide_False, Bool.false_eq_true, if_false]
    exact ⟨0, rfl, fun h => h.elim⟩

theorem grabH_ok (t : Table) (fr : Frame) (cW thumbW : ℚ) :
    ∃ t', grabH t fr cW thumbW = .ok t' := by
  unfold grabH fdiv
  split
  · rename_i hcond
    simp only [Bool.and_eq_true, decide_eq_true_eq] at hcond
    rw [if_neg (by linarith [hcond.1])]
    simp only []
    split <;> exact ⟨_, rfl⟩
  · exact ⟨_, rfl⟩

theorem grabV_ok (t : Table) (fr : Frame) (cH thumbH : ℚ) :
    ∃ t', grabV t fr cH thumbH = .ok t' := by
  unfold grabV fdiv
  split
  · rename_i hcond
    simp only [Bool.and_eq_true, decide_eq_true_eq] at hcond
    rw [if_neg (by linarith [hcond.1])]
    simp only []
    split <;> exact ⟨_, rfl⟩
  · exact ⟨_, rfl⟩

theorem dragH_ok (t : Table) (fr : Frame) (cW thumbW : ℚ)
    (h : cW > viewW fr → viewW fr - thumbW ≠ 0) : ∃ t', dragH t fr cW thumbW = .ok t' := by
  unfold dragH fdiv
  split
  · rename_i hcond
    simp only [Bool.and_eq_true, decide_eq_true_eq] at hcond
    simp only []
    rw [if_neg (h hcond.2)]
    exact ⟨_, rfl⟩
  · exact ⟨_, rfl⟩

theorem dragV_ok (t : Table) (fr : Frame) (cH thumbH : ℚ)
    (h : cH > viewH fr → viewH fr - thumbH ≠ 0) : ∃ t', dragV t fr cH thumbH = .ok t' := by
  unfold dragV fdiv
  split
  · rename_i hcond
    simp only [Bool.and_eq_true, decide_eq_true_eq] at hcond
    simp only []
    rw [if_neg (h hcond.2)]
    exact ⟨_, rfl⟩
  · exact ⟨_, rfl⟩

/-- The drag handling completes on a ready table unless a view extent is 24. -/
theorem dragPhase_ok_of_view (t : Table) (fr : Frame) (hr : Ready t)
    (hw : viewW fr ≠ 24) (hh : viewH fr ≠ 24) : ∃ t1, dragPhase t fr = .ok t1 := by
  obtain ⟨cW, hcW, hmin⟩ := contentW_ok t hr
  obtain ⟨thW, hthW, hneW⟩ := thumbLen_ok (viewW fr) cW (by linarith)
  obtain ⟨thH, hthH, hneH⟩ := thumbLen_ok (viewH fr) (contentH t) (contentH_pos t)
  obtain ⟨t2, h2⟩ := grabH_ok (releaseStep (scrollStep t fr cW (contentH t)) fr) fr cW thW
  obtain ⟨t3, h3⟩ := grabV_ok t2 fr (contentH t) thH
  obtain ⟨t4, h4⟩ := dragH_ok t3 fr cW thW (fun h => hneW h hw)
  obtain ⟨t5, h5⟩ := dragV_ok t4 fr (contentH t) thH (fun h => hneH h hh)
  refine ⟨t5, ?_⟩
  unfold dragPhase
  rw [hcW]
  simp only []
  rw [hthW]
  simp only []
  rw [hthH]
  simp only []
  rw [h2]
  simp only []
  rw [h3]
  simp only []
  rw [h4]
  simp only []
  exact h5

theorem colScan_ok (ws : List ℚ) (mx : ℚ) (n : Nat) :
    ∀ c cx, c + n ≤ ws.length → ∃ o, colScan ws mx n c cx = .ok o := by
  induction n with
  | zero => intro c cx _; exact ⟨none, rfl⟩
  | succ n ih =>
    intro c cx hlen
    have hc : c < ws.length := by omega
    have hw : ws.get? c = some ws[c] := by
      rw [List.get?_eq_getElem?, List.getElem?_eq_getElem hc]
    unfold colScan
    rw [hw]
    simp only []
    split
    · exact ⟨_, rfl⟩
    · exact ih (c + 1) _ (by omega)

theorem hoverStep_ok (t : Table) (fr : Frame) (hw : t.colCount ≤ t.colWidths.length) :
    ∃ t', hoverStep t fr = .ok t' := by
  have hscan : ∃ p, hoverScan t fr = .ok p := by
    unfold hoverScan
    split
    · split
      · exact ⟨_, rfl⟩
      · obtain ⟨o, ho⟩ := colScan_ok t.colWidths fr.mouseX t.colCount 0 (tableX - t.scrollX)
          (by omega)
        rw [ho]
        cases o <;> exact ⟨_, rfl⟩
    · exact ⟨_, rfl⟩
  obtain ⟨p, hp⟩ := hscan
  unfold hoverStep
  rw [hp]
  exact ⟨_, rfl⟩

theorem headerHit_ok (t : Table) (fr : Frame) (hw : t.colCount ≤ t.colWidths.length) :
    ∃ o, headerHit t fr = .ok o := by
  unfold headerHit
  split
  · exact colScan_ok t.colWidths fr.mouseX t.colCount 0 _ (by omega)
  · exact ⟨_, rfl⟩

/-- The copy branch reads inside the grid when the hover pair is the sentinel
pair or valid and the rows are padded. -/
theorem copyCell_ok (t : Table) (fr : Frame) (hp : Padded t) (hh : HoverOK t) :
    ∃ res, copyCell t fr = .ok res := by
  unfold copyCell
  split
  · rename_i hge
    rcases hh with hs | hv
    · rw [hs.1] at hge
      omega
    · have hr : t.hoverRow.toNat < t.rows.length := by rw [hp.rows_length]; omega
      obtain ⟨_, hlen, htext⟩ := hp.row_ok _ (List.getElem_mem hr)
      have hc : t.hoverCol.toNat < (t.rows[t.hoverRow.toNat]).cells.length := by
        rw [hlen]; omega
      obtain ⟨s, hs, _⟩ := (isText_iff _).1 (htext _ (List.getElem_mem hc))
      have hrow : readRow t.rows t.hoverRow.toNat = .ok t.rows[t.hoverRow.toNat] := by
        simp [readRow, List.getElem?_eq_getElem hr]
      have hcell : readCell (t.rows[t.hoverRow.toNat]).cells t.hoverCol.toNat =
          .ok (Cell.str s) := by
        simp [readCell, List.getElem?_eq_getElem hc, hs]
      rw [hrow]
      simp only []
      rw [hcell]
      exact ⟨_, rfl⟩
  · exact ⟨_, rfl⟩

/-- Apart from the two divisions of the drag step, `handle_input` is total on
a ready table: it completes for every frame whose view extents are not 24. -/
theorem handle_input_ok_of_view (qsort : Qsort) (t : Table) (fr : Frame) (hr : Ready t)
    (hw : viewW fr ≠ 24) (hh : viewH fr ≠ 24) :
    ∃ t' calls, handle_input qsort t fr = .ok (t', calls) := by
  obtain ⟨t1, hd⟩ := dragPhase_ok_of_view t fr hr hw hh
  have hs := sameGrid_dragPhase t t1 fr hd
  unfold handle_input
  rw [hd]
  simp only []
  split
  · exact ⟨_, _, rfl⟩
  · obtain ⟨t2, h2⟩ := hoverStep_ok t1 fr (by rw [hs.colWidths, hs.colCount, hr.widths_length])
    obtain ⟨k1, k2, k3, k4, k5, _⟩ := keeps_hoverStep t1 t2 fr h2
    have hok2 := hoverOK_hoverStep t1 t2 fr h2
    have hp2 : Padded t2 := by
      constructor
      · rw [k1, k3, hs.rows, hs.rowCount]; exact hr.padded.rows_length
      · intro r hmem
        rw [k1, hs.rows] at hmem
        rw [k4, hs.colCount]
        exact hr.padded.row_ok r hmem
    rw [h2]
    simp only []
    unfold clickStep
    split
    · split
      · have hcopy : copyRows t2.original t2.rowCount t2.colCount = .ok t2.original := by
          apply copyRows_padded
          · rw [k2, k3, hs.original, hs.rowCount]; exact hr.original_length
          · intro r hmem
            rw [k2, hs.original] at hmem
            rw [k4, hs.colCount]
            exact hr.original_ok r hmem
        simp only [restore_original, hcopy]
        exact ⟨_, _, rfl⟩
      · obtain ⟨o, ho⟩ := headerHit_ok t2 fr
          (by rw [k5, k4, hs.colWidths, hs.colCount, hr.widths_length])
        rw [ho]
        cases o with
        | none =>
          obtain ⟨res, hres⟩ := copyCell_ok t2 fr hp2 hok2
          exact ⟨res.1, res.2, hres⟩
        | some c => exact ⟨_, _, rfl⟩
    · exact ⟨_, _, rfl⟩

/-- C15 fails on the code: for the table `main` builds from the example input,
a press on the vertical thumb in a window 80 pixels high (view height 24, thumb
at its minimum 24) divides by `viewH - thumbH = 0` in the drag step, and so
does a press on the horizontal thumb in a window 48 pixels wide with
`viewW - thumbW = 0`. -/
theorem handle_input_divides_by_zero_at_view_24 (qsort : Qsort) :
    main_setup (fun _ _ => Cell.null) (fun _ => 0) (lit "Name\tAge\nBob\t30\nAlice\t25\n") =
      Startup.window gridTable ∧
    viewH shortFrame = 24 ∧
    thumbLen (decide (contentH gridTable > viewH shortFrame)) (viewH shortFrame)
      (contentH gridTable) = .ok 24 ∧
    handle_input qsort gridTable shortFrame = .error Fault.divByZero ∧
    handle_input qsort gridTable narrowFrame = .error Fault.divByZero := by
  have h1 : dragPhase gridTable shortFrame = .error Fault.divByZero := by decide!
  refine ⟨by decide!, by decide!, by decide!, ?_, ?_⟩
  · unfold handle_input
    rw [h1]
  · unfold handle_input
    rw [dragPhase_narrowFrame]

set_option maxRecDepth 100000 in
/-- The grid `wideTable` is the table `main` builds from `wideInput`. -/
theorem main_setup_wideInput :
    main_setup (fun _ _ => Cell.null) (fun _ => 0) wideInput = Startup.window wideTable := by
  decide!

theorem loadLine_text (buf : List Nat) (st : LoadState) (h : LoadText st) :
    LoadText (loadLine buf st) := by
  obtain ⟨h1, _⟩ := h
  have hcount : 1 ≤ (split_tsv_line buf).2 := by
    rw [split_tsv_line_eq]
    omega
  have hcol : 1 ≤ (if (split_tsv_line buf).2 > st.colCount then (split_tsv_line buf).2
      else st.colCount) := by
    split <;> omega
  unfold loadLine
  by_cases h0 : st.lineIndex = 0
  · simp only [h0, if_true]
    exact ⟨h1, fun _ => hcol⟩
  · simp only [h0, if_false]
    refine ⟨?_, fun _ => hcol⟩
    intro r hr
    rcases List.mem_append.mp hr with h | h
    · exact h1 r h
    · simp only [List.mem_singleton] at h
      subst h
      exact (split_tsv_line_cells buf).2

theorem loadLoop_text (fuel : Nat) : ∀ (f : List Nat) (st : LoadState), LoadText st →
    LoadText (loadLoop fuel f st) := by
  induction fuel with
  | zero => intro f st h; exact h
  | succ fuel ih =>
    intro f st h
    rw [loadLoop_succ]
    cases hf : fgets MAX_LINE_LEN f with
    | none => exact h
    | some p =>
      obtain ⟨buf, rest⟩ := p
      exact ih rest _ (loadLine_text buf st h)

/-- After a `load_tsv` that returns true the stored cells are strings and
`colCount` is at least 1. -/
theorem load_tsv_text (f : List Nat) (hload : (load_tsv f initTable).1 = true) :
    (∀ r ∈ (load_tsv f initTable).2.rows, ∀ c ∈ r.cells, c.isText = true) ∧
    1 ≤ (load_tsv f initTable).2.colCount := by
  have h := loadLoop_text f.length f { lineIndex := 0, colCount := 0, rows := [], t := initTable }
    ⟨fun r hr => (by cases hr), fun h => absurd rfl h⟩
  unfold load_tsv at hload ⊢
  simp only [] at hload ⊢
  split
  · rename_i h0
    rw [if_pos h0] at hload
    cases hload
  · rename_i h0
    exact ⟨h.1, h.2 h0⟩

theorem forEach_length {α β : Type} (f : α → Except Fault β) :
    ∀ (xs : List α) (ys : List β), forEach f xs = .ok ys →
      ys.length = xs.length ∧ ∀ y ∈ ys, ∃ x ∈ xs, f x = .ok y := by
  intro xs
  induction xs with
  | nil =>
    intro ys h
    simp only [forEach, Except.ok.injEq] at h
    subst h
    exact ⟨rfl, fun y hy => by cases hy⟩
  | cons a as ih =>
    intro ys h
    unfold forEach at h
    cases ha : f a with
    | error e => rw [ha] at h; cases h
    | ok b =>
      rw [ha] at h
      simp only [] at h
      cases has : forEach f as with
      | error e => rw [has] at h; cases h
      | ok bs =>
        rw [has] at h
        simp only [Except.ok.injEq] at h
        subst h
        obtain ⟨hl, hm⟩ := ih bs has
        refine ⟨by simp [hl], ?_⟩
        intro y hy
        rcases List.mem_cons.mp hy with h | h
        · exact ⟨a, List.mem_cons_self _ _, by rw [h]; exact ha⟩
        · obtain ⟨x, hx, hfx⟩ := hm y h
          exact ⟨x, List.mem_cons_of_mem _ hx, hfx⟩

theorem spanOf_min (m ind : ℚ) : (80 : ℚ) ≤ spanOf m ind := by
  rw [spanOf_eq]
  exact le_max_right _ _

theorem colWidth_min (measure : List Nat → ℚ) (t : Table) (ind : ℚ) (c : Nat) (w : ℚ)
    (h : colWidth measure t ind c = .ok w) : (80 : ℚ) ≤ w := by
  unfold colWidth at h
  split at h
  · cases h
  · split at h
    · cases h
    · split at h
      · cases h
      · simp only [Except.ok.injEq] at h
        rw [← h]
        exact spanOf_min _ _

/-- Every table with which `main` enters its frame loop is ready, whatever the
input, the contents of fresh memory and the font. -/
theorem main_setup_ready (uninit : Nat → Nat → Cell) (measure : List Nat → ℚ)
    (stdin : List Nat) (t : Table) (h : main_setup uninit measure stdin = Startup.window t) :
    Ready t ∧ t.original = t.rows := by
  unfold main_setup at h
  cases hs : main_startup uninit stdin with
  | exit code err => rw [hs] at h; cases h
  | fault e => rw [hs] at h; cases h
  | window t0 =>
    rw [hs] at h
    simp only [] at h
    cases hm : measure_col_widths measure t0 with
    | error e => rw [hm] at h; cases h
    | ok t1 =>
      rw [hm] at h
      simp only [Startup.window.injEq] at h
      subst h
      unfold main_startup at hs
      split at hs
      · cases hs
      · rename_i hload
        have hload' : (load_tsv stdin initTable).1 = true := by
          cases hb : (load_tsv stdin initTable).1
          · exact absurd hb hload
          · rfl
        obtain ⟨htext, hcols⟩ := load_tsv_text stdin hload'
        obtain ⟨hlen, hrow⟩ := load_tsv_inv stdin
        have hp : Padded (pad_rows uninit (load_tsv stdin initTable).2) :=
          pad_rows_padded uninit _ hlen
            (fun r hr => ⟨(hrow r hr).1, (hrow r hr).2, htext r hr⟩)
        have hcopy := copyRows_padded _ _ _ hp.rows_length hp.row_ok
        unfold copy_original at hs
        rw [hcopy] at hs
        simp only [Startup.window.injEq] at hs
        unfold measure_col_widths at hm
        cases hw : forEach (colWidth measure t0 (measure (lit " ^"))) (List.range t0.colCount) with
        | error e => rw [hw] at hm; cases hm
        | ok widths =>
          rw [hw] at hm
          simp only [Except.ok.injEq] at hm
          obtain ⟨hwl, hwm⟩ := forEach_length _ _ _ hw
          subst hm
          subst hs
          refine ⟨?_, rfl⟩
          constructor
          · exact ⟨hp.rows_length, hp.row_ok⟩
          · exact hp.rows_length
          · exact hp.row_ok
          · simpa using hwl
          · intro w hmem
            obtain ⟨c, _, hc⟩ := hwm w hmem
            exact colWidth_min _ _ _ _ _ hc
          · exact hcols

theorem colWidths_handle_input (qsort : Qsort) (t t1 : Table) (fr : Frame) (calls : List Call)
    (hf : handle_input qsort t fr = .ok (t1, calls)) : t1.colWidths = t.colWidths := by
  obtain ⟨t2, hd, hcase⟩ := handle_input_ok qsort t t1 fr calls hf
  have hs := sameGrid_dragPhase t t2 fr hd
  rcases hcase with ⟨_, e, _⟩ | ⟨_, t3, hh, hc⟩
  · rw [e]; exact hs.colWidths
  · obtain ⟨_, _, _, _, k5, _⟩ := keeps_hoverStep t2 t3 fr hh
    rw [(clickKeeps_clickStep qsort t3 t1 fr calls hc).colWidths, k5]
    exact hs.colWidths

/-- Frames keep the table ready. -/
theorem ready_reach (qsort : Qsort) (hq : QsortSpec qsort) (t0 t : Table) (d : Bool)
    (h0 : Ready t0) (ho : t0.original = t0.rows)
    (hr : FrameReach qsort (fun _ => True) t0 t d) : Ready t := by
  have hinv : SnapshotInv t0 t ∧ t.colWidths = t0.colWidths := by
    induction hr with
    | start => exact ⟨⟨rfl, rfl, rfl, by rw [ho]⟩, rfl⟩
    | frame t t1 d fr calls _ _ _ hstep ih =>
      exact ⟨inv_handle_input qsort hq t0 t t1 fr calls h0.padded ho ih.1 hstep,
        (colWidths_handle_input qsort t t1 fr calls hstep).trans ih.2⟩
  obtain ⟨hs, hw⟩ := hinv
  constructor
  · exact padded_of_inv t0 t h0.padded ho hs
  · rw [hs.original, hs.rowCount]; exact h0.original_length
  · intro r hmem
    rw [hs.original] at hmem
    rw [hs.colCount]
    exact h0.original_ok r hmem
  · rw [hw, hs.colCount]; exact h0.widths_length
  · rw [hw]; exact h0.widths_min
  · rw [hs.colCount]; exact h0.cols

/-- What holds of C15: in every state reached from the table `main` builds, by
frames that complete, `handle_input` completes for every frame whose view
extents both differ from 24, so all its divisions have a non-zero divisor and
all its reads are in range. -/
theorem handle_input_total_in_run (qsort : Qsort) (hq : QsortSpec qsort)
    (uninit : Nat → Nat → Cell) (measure : List Nat → ℚ) (stdin : List Nat) (t0 t : Table)
    (d : Bool) (fr : Frame) (h : main_setup uninit measure stdin = Startup.window t0)
    (hr : FrameReach qsort (fun _ => True) t0 t d)
    (hw : viewW fr ≠ 24) (hh : viewH fr ≠ 24) :
    ∃ t1 calls, handle_input qsort t fr = .ok (t1, calls) := by
  obtain ⟨h0, ho⟩ := main_setup_ready uninit measure stdin t0 h
  exact handle_input_ok_of_view qsort t fr (ready_reach qsort hq t0 t d h0 ho hr) hw hh

end TableCopy
